import Mathlib

/-!
# zoom: utility helpers and the model-spec / index engine

A shallow embedding of `util.go` (reflection helpers and scoring functions)
together with a model of the spec compiler, registry, key namer, index engine
and persistence orchestrator.

Go's `reflect` package is embedded by three types: `Kind` (the constants of
`reflect.Kind`), `GoType` (a `reflect.Type`) and `GoValue` (a `reflect.Value`,
also used for the contents of an `interface{}`).  A panic is an `Except.error`.
-/

set_option autoImplicit false

deriving instance DecidableEq for Except

namespace Zoom

/-! ## Definitions: reflection -/

/-- The constants of `reflect.Kind`, in the order in which Go declares them. -/
inductive Kind where
  | Invalid | Bool
  | Int | Int8 | Int16 | Int32 | Int64
  | Uint | Uint8 | Uint16 | Uint32 | Uint64 | Uintptr
  | Float32 | Float64 | Complex64 | Complex128
  | Array | Chan | Func | Interface | Map | Ptr | Slice | String | Struct
  | UnsafePointer
  deriving DecidableEq, Repr

/-- A Go type as seen through `reflect.Type`.  A struct type is identified by
its name; function and interface types by a name as well. -/
inductive GoType where
  | Bool
  | Int | Int8 | Int16 | Int32 | Int64
  | Uint | Uint8 | Uint16 | Uint32 | Uint64 | Uintptr
  | Float32 | Float64 | Complex64 | Complex128
  | String | UnsafePointer
  | Array (len : Nat) (elem : GoType)
  | Chan (elem : GoType)
  | Func (name : String)
  | Interface (name : String)
  | Map (key : GoType) (elem : GoType)
  | Ptr (elem : GoType)
  | Slice (elem : GoType)
  | Struct (name : String)
  deriving DecidableEq, Repr

/-- The method `Kind()` of `reflect.Type`. -/
def GoType.kind : GoType → Kind
  | .Bool => .Bool
  | .Int => .Int | .Int8 => .Int8 | .Int16 => .Int16 | .Int32 => .Int32 | .Int64 => .Int64
  | .Uint => .Uint | .Uint8 => .Uint8 | .Uint16 => .Uint16 | .Uint32 => .Uint32
  | .Uint64 => .Uint64 | .Uintptr => .Uintptr
  | .Float32 => .Float32 | .Float64 => .Float64
  | .Complex64 => .Complex64 | .Complex128 => .Complex128
  | .String => .String | .UnsafePointer => .UnsafePointer
  | .Array _ _ => .Array | .Chan _ => .Chan | .Func _ => .Func | .Interface _ => .Interface
  | .Map _ _ => .Map | .Ptr _ => .Ptr | .Slice _ => .Slice | .Struct _ => .Struct

/-- The panics of this package and of the `reflect` calls it makes. -/
inductive Panic where
  /-- a method called through a nil `reflect.Type` -/
  | nilType
  /-- `reflect.Type.Elem` on a type that is no array, chan, map, pointer or slice -/
  | elemOfNonContainer
  /-- a `reflect.Value` method called on a value of the wrong kind -/
  | valueError (method : String) (k : Kind)
  /-- slice bounds or index out of range -/
  | outOfRange
  /-- `Models`: argument must be slice or array -/
  | modelsNotSliceOrArray
  /-- `Models`: elements must be of type pointer to struct -/
  | modelsElemNotPointerToStruct
  /-- `Models`: the element type is not registered -/
  | modelsTypeNotRegistered
  /-- `Models`: an element cannot be converted to `Model` -/
  | modelsCannotConvert
  /-- `numericScore` on a non-numeric type -/
  | numericScoreNonNumeric
  /-- `boolScore` on a non-boolean type -/
  | boolScoreNonBoolean
  deriving DecidableEq, Repr

/-- The method `Elem()` of `reflect.Type`: it panics unless the kind is Array,
Chan, Map, Ptr or Slice. -/
def GoType.elem : GoType → Except Panic GoType
  | .Array _ e => .ok e
  | .Chan e => .ok e
  | .Map _ e => .ok e
  | .Ptr e => .ok e
  | .Slice e => .ok e
  | _ => .error .elemOfNonContainer

/-- The signed integer kinds. -/
inductive IntKind where
  | Int | Int8 | Int16 | Int32 | Int64
  deriving DecidableEq, Repr

/-- The unsigned integer kinds. -/
inductive UintKind where
  | Uint | Uint8 | Uint16 | Uint32 | Uint64 | Uintptr
  deriving DecidableEq, Repr

/-- The floating-point kinds. -/
inductive FloatKind where
  | Float32 | Float64
  deriving DecidableEq, Repr

def IntKind.toType : IntKind → GoType
  | .Int => .Int | .Int8 => .Int8 | .Int16 => .Int16 | .Int32 => .Int32 | .Int64 => .Int64

def UintKind.toType : UintKind → GoType
  | .Uint => .Uint | .Uint8 => .Uint8 | .Uint16 => .Uint16 | .Uint32 => .Uint32
  | .Uint64 => .Uint64 | .Uintptr => .Uintptr

def FloatKind.toType : FloatKind → GoType
  | .Float32 => .Float32 | .Float64 => .Float64

/-- A finite `float64`, given by the rational number it denotes.  Only the
finite values are modelled: the conversions from integers studied here never
produce a NaN or an infinity. -/
structure Float64 where
  val : ℚ
  deriving DecidableEq

/-- A Go value as seen through `reflect.Value` or held in an `interface{}`.
`invalid` is the zero `reflect.Value`, which is also what `reflect.ValueOf`
returns for a nil interface. -/
inductive GoValue where
  | invalid
  | bool (b : Bool)
  | int (k : IntKind) (n : Int)
  | uint (k : UintKind) (n : Nat)
  | float (k : FloatKind) (x : Float64)
  | str (s : String)
  | nilPtr (elem : GoType)
  | ptr (target : GoValue)
  | slice (elem : GoType) (xs : List GoValue)
  | array (elem : GoType) (xs : List GoValue)
  | map (key : GoType) (elem : GoType) (entries : List (GoValue × GoValue))
  | chan (elem : GoType) (queued : List GoValue)
  | struct (name : String) (fields : List (String × GoValue))

/-- The dynamic type, `reflect.TypeOf`: `none` is the nil `reflect.Type` of a
nil interface. -/
def GoValue.typeOf : GoValue → Option GoType
  | .invalid => none
  | .bool _ => some .Bool
  | .int k _ => some k.toType
  | .uint k _ => some k.toType
  | .float k _ => some k.toType
  | .str _ => some .String
  | .nilPtr e => some (.Ptr e)
  | .ptr t => (GoValue.typeOf t).map GoType.Ptr
  | .slice e _ => some (.Slice e)
  | .array e xs => some (.Array xs.length e)
  | .map k e _ => some (.Map k e)
  | .chan e _ => some (.Chan e)
  | .struct n _ => some (.Struct n)

/-- The method `Kind()` of `reflect.Value`; the zero Value has kind Invalid. -/
def GoValue.kind (v : GoValue) : Kind :=
  match v.typeOf with
  | some t => t.kind
  | none => .Invalid

/-- The method `Len()` of `reflect.Value`: defined for Array, Chan, Map, Slice
and String, a panic for every other kind. -/
def GoValue.len : GoValue → Except Panic Nat
  | .slice _ xs => .ok xs.length
  | .array _ xs => .ok xs.length
  | .map _ _ es => .ok es.length
  | .chan _ q => .ok q.length
  | .str s => .ok s.utf8ByteSize
  | v => .error (.valueError "reflect.Value.Len" v.kind)

/-- The method `Index(i)` of `reflect.Value`: defined for Array, Slice and
String (whose i-th element is its i-th byte), a panic for every other kind and
for an index out of range. -/
def GoValue.index (v : GoValue) (i : Nat) : Except Panic GoValue :=
  match v with
  | .slice _ xs => match xs.get? i with
    | some x => .ok x
    | none => .error .outOfRange
  | .array _ xs => match xs.get? i with
    | some x => .ok x
    | none => .error .outOfRange
  | .str s => match (s.data.flatMap String.utf8EncodeChar).get? i with
    | some b => .ok (.uint .Uint8 b.toNat)
    | none => .error .outOfRange
  | w => .error (.valueError "reflect.Value.Index" w.kind)

/-- The method `Interface()` of `reflect.Value` followed by `reflect.TypeOf`:
the dynamic type of the value held by the resulting `interface{}`. -/
def GoValue.dynamicType (v : GoValue) : Option GoType := v.typeOf

/-- The method `Int()` of `reflect.Value`: the value as an `int64`; a panic
unless the kind is one of the signed integer kinds. -/
def GoValue.getInt : GoValue → Except Panic Int
  | .int _ n => .ok n
  | v => .error (.valueError "reflect.Value.Int" v.kind)

/-- The method `Uint()` of `reflect.Value`: the value as a `uint64`; a panic
unless the kind is one of the unsigned integer kinds. -/
def GoValue.getUint : GoValue → Except Panic Nat
  | .uint _ n => .ok n
  | v => .error (.valueError "reflect.Value.Uint" v.kind)

/-- The method `Float()` of `reflect.Value`: the value as a `float64`; a panic
unless the kind is Float32 or Float64. -/
def GoValue.getFloat : GoValue → Except Panic Float64
  | .float _ x => .ok x
  | v => .error (.valueError "reflect.Value.Float" v.kind)

/-- The method `Bool()` of `reflect.Value`; a panic unless the kind is Bool. -/
def GoValue.getBool : GoValue → Except Panic Bool
  | .bool b => .ok b
  | v => .error (.valueError "reflect.Value.Bool" v.kind)

/-! ## Definitions: conversion of integers to `float64` -/

/-- Number of binary digits of `m`, computed with `fuel` halvings at most. -/
def bitLengthAux : Nat → Nat → Nat
  | 0, _ => 0
  | fuel + 1, m => if m = 0 then 0 else bitLengthAux fuel (m / 2) + 1

/-- Number of binary digits of `m` (0 for 0). -/
def bitLength (m : Nat) : Nat := bitLengthAux m m

/-- Rounding of a natural number to the nearest number with a significand of
53 bits, ties to even: the magnitude of the Go conversion `float64(m)` for
`m < 2 ^ 1024`.  The low `bitLength m - 53` bits are rounded away. -/
def roundToFloat64 (m : Nat) : Nat :=
  let sh := bitLength m - 53
  let q := m / 2 ^ sh
  let r := m % 2 ^ sh
  if 2 * r < 2 ^ sh then q * 2 ^ sh
  else if 2 ^ sh < 2 * r then (q + 1) * 2 ^ sh
  else if q % 2 = 0 then q * 2 ^ sh
  else (q + 1) * 2 ^ sh

/-- The Go conversion `float64(integer)` of an `int64`. -/
def float64OfInt (n : Int) : Float64 :=
  if n < 0 then ⟨-((roundToFloat64 n.natAbs : Nat) : ℚ)⟩
  else ⟨((roundToFloat64 n.natAbs : Nat) : ℚ)⟩

/-- The Go conversion `float64(uinteger)` of a `uint64`. -/
def float64OfUint (n : Nat) : Float64 :=
  ⟨((roundToFloat64 n : Nat) : ℚ)⟩

/-! ## Definitions: the field and model descriptors

The declarations of `fieldSpec` and `modelSpec` are taken from the composite
literals and field selections of `model_type_test.go`. -/

/-- The kind of a field: `primativeField`, the plain scalar kind, is named in
`model_type_test.go`; the other kinds are those of the design document. -/
inductive fieldKind where
  | primativeField
  | embeddedStruct
  | pointerToRecord
  | sliceOfRecords
  | mapField
  deriving DecidableEq, Repr

/-- The kind of secondary index of a field: `noIndex` is named in
`model_type_test.go`; the other kinds are those of the design document. -/
inductive indexKind where
  | noIndex
  | numericIndex
  | booleanIndex
  | alphabeticalIndex
  deriving DecidableEq, Repr

/-- The descriptor of one field of a model. -/
structure fieldSpec where
  kind : fieldKind
  name : String
  redisName : String
  fieldType : GoType
  indexKind : indexKind
  deriving DecidableEq, Repr

/-- The compiled spec of a model: `fields` in declaration order. -/
structure modelSpec where
  typ : GoType
  name : String
  fields : List fieldSpec
  deriving DecidableEq, Repr

/-- The map `fieldsByName` of a spec: from declared name to descriptor. -/
def modelSpec.fieldsByName (spec : modelSpec) (name : String) : Option fieldSpec :=
  spec.fields.find? (fun fs => fs.name == name)

/-! ## Definitions: `util.go` -/

/-- Go: `typeIsSliceOrArray`. -/
def typeIsSliceOrArray (typ : GoType) : Except Panic Bool :=
  let k := typ.kind
  if k = .Slice ∨ k = .Array then do
    let e ← typ.elem
    pure (e.kind != .Uint8)
  else pure false

/-- Go: `typeIsPointerToStruct`. -/
def typeIsPointerToStruct (typ : GoType) : Except Panic Bool :=
  if typ.kind = .Ptr then do
    let e ← typ.elem
    pure (e.kind == .Struct)
  else pure false

/-- Go: `typeIsString`. -/
def typeIsString (typ : GoType) : Except Panic Bool :=
  let k := typ.kind
  if k = .String then pure true
  else if k = .Slice ∨ k = .Array then do
    let e ← typ.elem
    pure (e.kind == .Uint8)
  else pure false

/-- Go: `typeIsNumeric`. -/
def typeIsNumeric (typ : GoType) : Bool :=
  match typ.kind with
  | .Int | .Int8 | .Int16 | .Int32 | .Int64
  | .Uint | .Uint8 | .Uint16 | .Uint32 | .Uint64
  | .Float32 | .Float64 => true
  | _ => false

/-- Go: `typeIsBool`. -/
def typeIsBool (typ : GoType) : Bool :=
  let k := typ.kind
  k == .Bool

/-- Go: `typeIsPrimative`. -/
def typeIsPrimative (typ : GoType) : Except Panic Bool := do
  if (← typeIsString typ) then pure true
  else pure (typeIsNumeric typ || typeIsBool typ)

/-- The loop `for val.Kind() == reflect.Ptr { val = val.Elem() }` of the
scoring functions: `Elem` of a pointer is its target, and the zero Value for a
nil pointer. -/
def derefAll : GoValue → GoValue
  | .ptr t => derefAll t
  | .nilPtr _ => .invalid
  | v => v

/-- Go: `numericScore`. -/
def numericScore (val : GoValue) : Except Panic Float64 :=
  let val := derefAll val
  match val.kind with
  | .Int | .Int8 | .Int16 | .Int32 | .Int64 => do
    let integer ← val.getInt
    pure (float64OfInt integer)
  | .Uint | .Uint8 | .Uint16 | .Uint32 | .Uint64 => do
    let uinteger ← val.getUint
    pure (float64OfUint uinteger)
  | .Float32 | .Float64 => val.getFloat
  | _ => .error .numericScoreNonNumeric

/-- Go: `convertBoolToInt`. -/
def convertBoolToInt (b : Bool) : Int :=
  if b then 1 else 0

/-- Go: `boolScore`. -/
def boolScore (val : GoValue) : Except Panic Int :=
  let val := derefAll val
  if val.kind ≠ .Bool then .error .boolScoreNonBoolean
  else do
    let b ← val.getBool
    pure (convertBoolToInt b)

/-- The loop of `Models`, with `n` iterations left from index `i`:
each element must hold a value whose type implements `Model`. -/
def modelsLoop (implementsModel : GoType → Bool) (val : GoValue) :
    Nat → Nat → List GoValue → Except Panic (List GoValue)
  | 0, _, results => .ok results
  | n + 1, i, results => do
    let elemVal ← val.index i
    let ok := match elemVal.dynamicType with
      | some t => implementsModel t
      | none => false
    if !ok then .error .modelsCannotConvert
    else modelsLoop implementsModel val n (i + 1) (results.set i elemVal)

/-- Go: `Models`.  The global map `modelTypeToSpec` and the method set test
of the type assertion `.(Model)` are arguments; `in_` is the `interface{}`
argument, `GoValue.invalid` when it is nil. -/
def Models (modelTypeToSpec : List (GoType × modelSpec)) (implementsModel : GoType → Bool)
    (in_ : GoValue) : Except Panic (List GoValue) := do
  let typ ← match in_.typeOf with
    | some t => pure t
    | none => .error .nilType
  if !(← typeIsSliceOrArray typ) then .error .modelsNotSliceOrArray
  else
    let elemTyp ← typ.elem
    if !(← typeIsPointerToStruct elemTyp) then .error .modelsElemNotPointerToStruct
    else
      let found := (modelTypeToSpec.lookup elemTyp).isSome
      if !found then .error .modelsTypeNotRegistered
      else
        let val := in_
        let length ← val.len
        let results := List.replicate length GoValue.invalid
        modelsLoop implementsModel val length 0 results

/-- The loop of `Interfaces`, with `n` iterations left from index `i`. -/
def interfacesLoop (val : GoValue) : Nat → Nat → List GoValue → Except Panic (List GoValue)
  | 0, _, results => .ok results
  | n + 1, i, results => do
    let elemVal ← val.index i
    interfacesLoop val n (i + 1) (results.set i elemVal)

/-- Go: `Interfaces`. -/
def Interfaces (in_ : GoValue) : Except Panic (List GoValue) := do
  let val := in_
  let length ← val.len
  let results := List.replicate length GoValue.invalid
  interfacesLoop val length 0 results

/-! ## Definitions: the spec compiler

The compiler, the registry and the persistence layer are not part of the
sources at hand (only their tests are); they are modelled from the design
document. -/

/-- Modelled from the spec: the errors of registration and of the record
operations (their declarations are missing from the sources); `Panicked` is a
panic of a helper of `util.go`. -/
inductive ZoomError where
  | InvalidOptionError (token : String)
  | DuplicateNameError (name : String)
  | AlreadyRegisteredError
  | ModelNotRegisteredError
  | KeyNotFoundError
  | TypeMismatchError
  | StoreError
  | Panicked (p : Panic)
  deriving DecidableEq, Repr

/-- A declared field of a struct type, as `reflect.StructField` shows it:
`options` is the declarative option string of the field, if any. -/
structure StructField where
  name : String
  typ : GoType
  options : Option String
  anonymous : Bool
  deriving DecidableEq, Repr

/-- A struct type declaration: its name and its fields in order. -/
structure StructDecl where
  name : String
  fields : List StructField
  deriving DecidableEq, Repr

/-- The type under which a model is registered: pointer to the struct, as in
`reflect.TypeOf(&regTestModel{})`. -/
def StructDecl.typ (decl : StructDecl) : GoType := .Ptr (.Struct decl.name)

/-- The embedded default-data block, which supplies the `Id` field. -/
def StructField.isDefaultData (f : StructField) : Bool :=
  f.anonymous && f.typ == GoType.Struct "DefaultData"

/-- The pieces of a comma-separated list, as `strings.Split(s, ",")`. -/
def splitComma : List Char → List (List Char)
  | [] => [[]]
  | c :: cs =>
    if c = ',' then [] :: splitComma cs
    else match splitComma cs with
      | [] => [[c]]
      | t :: ts => (c :: t) :: ts

/-- The tokens of an option string. -/
def optionTokens (s : String) : List String :=
  (splitComma s.data).map String.mk

/-- What the options of one field ask for. -/
structure fieldOptions where
  exclude : Bool
  redisName : Option String
  index : Bool
  deriving DecidableEq, Repr

/-- No option at all. -/
def fieldOptions.none : fieldOptions := ⟨false, Option.none, false⟩

/-- Modelled from the spec: the recognized option tokens (the spec compiler
is missing from the sources).  The tokens are the exclusion mark, the word
index, and a bare name as first value. -/
def tokenRecognized (first : Bool) (token : String) : Bool :=
  token == "-" || token == "index" || (first && token != "")

/-- Modelled from the spec: the effect of one option token (the spec compiler
is missing from the sources); an unrecognized token is an error. -/
def applyToken (first : Bool) (opts : fieldOptions) (token : String) :
    Except ZoomError fieldOptions :=
  if token = "-" then .ok { opts with exclude := true }
  else if token = "index" then .ok { opts with index := true }
  else if first ∧ token ≠ "" then .ok { opts with redisName := some token }
  else .error (.InvalidOptionError token)

/-- Modelled from the spec: the tokens of an option string are applied from
left to right (the spec compiler is missing from the sources). -/
def parseTokens : Bool → fieldOptions → List String → Except ZoomError fieldOptions
  | _, opts, [] => .ok opts
  | first, opts, t :: ts =>
    match applyToken first opts t with
    | .ok opts1 => parseTokens false opts1 ts
    | .error e => .error e

/-- Modelled from the spec: parsing of the declarative option string of a
field, if any (the spec compiler is missing from the sources). -/
def parseOptions (options : Option String) : Except ZoomError fieldOptions :=
  match options with
  | Option.none => .ok fieldOptions.none
  | some s => if s = "" then .ok fieldOptions.none
    else parseTokens true fieldOptions.none (optionTokens s)

/-- Some token of the option string is not a recognized option. -/
def hasUnrecognizedToken (options : Option String) : Bool :=
  match options with
  | Option.none => false
  | some s => if s = "" then false
    else match optionTokens s with
      | [] => false
      | t :: ts => !tokenRecognized true t || ts.any (fun u => !tokenRecognized false u)

/-- Modelled from the spec: the index kind is inferred from the type of the
field, a scalar or a pointer to one (the spec compiler is missing from the
sources): numeric, boolean, or alphabetical for a string type. -/
def inferIndexKind (typ : GoType) : Except ZoomError indexKind :=
  let t := match typ with
    | .Ptr e => e
    | t => t
  if typeIsNumeric t then .ok .numericIndex
  else if typeIsBool t then .ok .booleanIndex
  else if typeIsString t = .ok true then .ok .alphabeticalIndex
  else .error (.InvalidOptionError "index")

/-- Modelled from the spec: the kind of a field (the spec compiler is missing
from the sources): embedded struct, map, pointer to record, slice of records,
and plain scalar for every other type. -/
def kindOfField (f : StructField) : fieldKind :=
  if f.anonymous ∧ f.typ.kind = .Struct then .embeddedStruct
  else if f.typ.kind = .Map then .mapField
  else if typeIsPointerToStruct f.typ = .ok true then .pointerToRecord
  else if typeIsSliceOrArray f.typ = .ok true ∧
      (f.typ.elem.bind typeIsPointerToStruct) = .ok true then .sliceOfRecords
  else .primativeField

/-- Modelled from the spec: compilation of one declared field (the spec
compiler is missing from the sources).  The options are parsed first; the
default-data block and an excluded field yield no descriptor. -/
def compileField (f : StructField) : Except ZoomError (Option fieldSpec) :=
  match parseOptions f.options with
  | .error e => .error e
  | .ok opts =>
    if f.isDefaultData then .ok Option.none
    else if opts.exclude then .ok Option.none
    else
      let kind := kindOfField f
      let redisName := opts.redisName.getD f.name
      if opts.index then
        if kind = .primativeField then
          match inferIndexKind f.typ with
          | .ok ik => .ok (some ⟨kind, f.name, redisName, f.typ, ik⟩)
          | .error e => .error e
        else .error (.InvalidOptionError "index")
      else .ok (some ⟨kind, f.name, redisName, f.typ, .noIndex⟩)

/-- Modelled from the spec: the walk over the declared fields (the spec
compiler is missing from the sources). -/
def compileFields : List StructField → Except ZoomError (List fieldSpec)
  | [] => .ok []
  | f :: fs =>
    match compileField f with
    | .error e => .error e
    | .ok d =>
      match compileFields fs with
      | .error e => .error e
      | .ok rest =>
        match d with
        | some x => .ok (x :: rest)
        | Option.none => .ok rest

/-- The first element of a list that occurs again later in it. -/
def firstDuplicate : List String → Option String
  | [] => Option.none
  | x :: xs => if x ∈ xs then some x else firstDuplicate xs

/-- Modelled from the spec: `compile(type, explicitName)` (the spec compiler
is missing from the sources); two fields with the same external name are an
error. -/
def compile (decl : StructDecl) (explicitName : String) : Except ZoomError modelSpec :=
  match compileFields decl.fields with
  | .error e => .error e
  | .ok fields =>
    match firstDuplicate (fields.map fieldSpec.redisName) with
    | some n => .error (.DuplicateNameError n)
    | Option.none => .ok ⟨decl.typ, explicitName, fields⟩

/-! ## Definitions: the registry -/

/-- The two lookup tables of the registry, the globals `modelNameToSpec` and
`modelTypeToSpec` of the tests. -/
structure Registry where
  modelNameToSpec : List (String × modelSpec)
  modelTypeToSpec : List (GoType × modelSpec)
  deriving DecidableEq, Repr

/-- The registry before any registration. -/
def Registry.empty : Registry := ⟨[], []⟩

/-- Modelled from the spec: `lookupByName` (the registry is missing from the
sources). -/
def Registry.lookupByName (reg : Registry) (name : String) : Option modelSpec :=
  reg.modelNameToSpec.lookup name

/-- Modelled from the spec: `lookupByType` (the registry is missing from the
sources). -/
def Registry.lookupByType (reg : Registry) (typ : GoType) : Option modelSpec :=
  reg.modelTypeToSpec.lookup typ

/-- Modelled from the spec: `register(spec)` (the registry is missing from
the sources); it fails when either key is already present. -/
def Registry.register (reg : Registry) (spec : modelSpec) : Except ZoomError Registry :=
  if (reg.lookupByName spec.name).isSome ∨ (reg.lookupByType spec.typ).isSome then
    .error .AlreadyRegisteredError
  else .ok ⟨(spec.name, spec) :: reg.modelNameToSpec, (spec.typ, spec) :: reg.modelTypeToSpec⟩

/-- Modelled from the spec: `RegisterName(name, instance)` (the registry is
missing from the sources): compile, then register.  The result is the
registry afterwards, together with the compiled spec or the error. -/
def RegisterName (reg : Registry) (name : String) (decl : StructDecl) :
    Registry × Except ZoomError modelSpec :=
  match compile decl name with
  | .error e => (reg, .error e)
  | .ok spec =>
    match reg.register spec with
    | .error e => (reg, .error e)
    | .ok reg1 => (reg1, .ok spec)

/-- Modelled from the spec: `Register(instance)` (the registry is missing
from the sources): the name of the model is the name of the struct type. -/
def Register (reg : Registry) (decl : StructDecl) : Registry × Except ZoomError modelSpec :=
  RegisterName reg decl.name decl

/-- Some entry of either table of the registry is for the type `typ`. -/
def Registry.hasEntryFor (reg : Registry) (typ : GoType) : Prop :=
  (∃ p ∈ reg.modelNameToSpec, p.2.typ = typ) ∨
  (∃ p ∈ reg.modelTypeToSpec, p.1 = typ ∨ p.2.typ = typ)

/-! ## Definitions: the key namer -/

/-- Modelled from the spec: `primaryKey(modelName, id)` (the key namer is
missing from the sources). -/
def primaryKey (modelName id : String) : String := modelName ++ ":" ++ id

/-- Modelled from the spec: `allIdsKey(modelName)` (the key namer is missing
from the sources). -/
def allIdsKey (modelName : String) : String := modelName ++ ":all"

/-- Modelled from the spec: `indexKey(modelName, fieldRedisName, indexKind)`
(the key namer is missing from the sources). -/
def indexKey (modelName fieldRedisName : String) (_ik : indexKind) : String :=
  modelName ++ ":" ++ fieldRedisName

/-! ## Definitions: the store -/

/-- Modelled from the spec: the backing store (an external collaborator, not
in the sources): the field-mapping structures (hashes), the membership sets
and the ordered id-to-score structures, each family under its keys. -/
structure Store where
  hashes : String → Option (List (String × String))
  sets : String → List String
  sortedSets : String → List (String × Float64)

/-- The store without any key. -/
def Store.empty : Store := ⟨fun _ => none, fun _ => [], fun _ => []⟩

/-- Modelled from the spec: the primitive store commands that the record
operations submit (the store client is not in the sources). -/
inductive Command where
  | hashWrite (key : String) (entries : List (String × String))
  | hashDelete (key : String)
  | setAdd (key : String) (member : String)
  | setRemove (key : String) (member : String)
  | indexAdd (key : String) (id : String) (score : Float64)
  | indexRemove (key : String) (id : String)
  deriving DecidableEq

/-- Modelled from the spec: the effect of one command on the store (the store
is not in the sources).  A hash write leaves exactly the written entries, one
per stored field; commands never fail. -/
def Store.apply (s : Store) : Command → Store
  | .hashWrite key entries =>
    ⟨fun k => if k = key then some entries else s.hashes k, s.sets, s.sortedSets⟩
  | .hashDelete key =>
    ⟨fun k => if k = key then none else s.hashes k, s.sets, s.sortedSets⟩
  | .setAdd key member =>
    ⟨s.hashes, fun k => if k = key then member :: (s.sets k).filter (fun m => m != member)
      else s.sets k, s.sortedSets⟩
  | .setRemove key member =>
    ⟨s.hashes, fun k => if k = key then (s.sets k).filter (fun m => m != member)
      else s.sets k, s.sortedSets⟩
  | .indexAdd key id score =>
    ⟨s.hashes, s.sets, fun k => if k = key then
      (id, score) :: (s.sortedSets k).filter (fun e => e.1 != id) else s.sortedSets k⟩
  | .indexRemove key id =>
    ⟨s.hashes, s.sets, fun k => if k = key then
      (s.sortedSets k).filter (fun e => e.1 != id) else s.sortedSets k⟩

/-- Modelled from the spec: a batch is submitted atomically (the batching
primitive is not in the sources): all its commands take effect, in order. -/
def Store.submit (s : Store) (batch : List Command) : Store :=
  batch.foldl Store.apply s

/-- The score of `id` in the ordered structure at `key`, if it is a member. -/
def Store.score (s : Store) (key id : String) : Option Float64 :=
  (s.sortedSets key).lookup id

/-! ## Definitions: `util.go`, the slice helpers -/

/-- The loop of `indexOfStringSlice` over the elements from index `i` on. -/
def indexOfStringSliceFrom (i : Nat) : List String → String → Int
  | [], _ => -1
  | b :: rest, s => if b = s then (i : Int) else indexOfStringSliceFrom (i + 1) rest s

/-- Go: `indexOfStringSlice`. -/
def indexOfStringSlice (strings : List String) (s : String) : Int :=
  indexOfStringSliceFrom 0 strings s

/-- Go: `stringSliceContains`. -/
def stringSliceContains (strings : List String) (s : String) : Bool :=
  indexOfStringSlice strings s != -1

mutual
/-- The function `reflect.DeepEqual` on the values of this model: the types
must be the same, and the contents deeply equal.  A nil pointer equals a nil
pointer only, two pointers are equal when their targets are, and two maps when
they have as many entries and each entry of the first has its like in the
second.  A slice or channel is identified with its contents: nil and empty
slices, and distinct channels holding the same values, are not told apart. -/
def DeepEqual : GoValue → GoValue → Bool
  | .invalid, .invalid => true
  | .bool a, .bool b => a == b
  | .int k a, .int l b => k == l && a == b
  | .uint k a, .uint l b => k == l && a == b
  | .float k a, .float l b => k == l && a == b
  | .str a, .str b => a == b
  | .nilPtr e, .nilPtr f => e == f
  | .ptr a, .ptr b => DeepEqual a b
  | .slice e xs, .slice f ys => e == f && deepEqualList xs ys
  | .array e xs, .array f ys => e == f && deepEqualList xs ys
  | .map k e xs, .map l f ys =>
    k == l && e == f && xs.length == ys.length && deepEqualEntries xs ys
  | .chan e xs, .chan f ys => e == f && deepEqualList xs ys
  | .struct n xs, .struct m ys => n == m && deepEqualFields xs ys
  | _, _ => false
termination_by structural x => x
/-- Elementwise `DeepEqual` of two sequences of the same length. -/
def deepEqualList : List GoValue → List GoValue → Bool
  | [], [] => true
  | x :: xs, y :: ys => DeepEqual x y && deepEqualList xs ys
  | _, _ => false
termination_by structural x => x
/-- Fieldwise `DeepEqual` of the fields of two struct values. -/
def deepEqualFields : List (String × GoValue) → List (String × GoValue) → Bool
  | [], [] => true
  | (n, x) :: xs, (m, y) :: ys => n == m && DeepEqual x y && deepEqualFields xs ys
  | _, _ => false
termination_by structural x => x
/-- Each entry of the first map has a deeply equal entry in the second. -/
def deepEqualEntries : List (GoValue × GoValue) → List (GoValue × GoValue) → Bool
  | [], _ => true
  | (k, v) :: xs, ys =>
    ys.any (fun p => DeepEqual k p.1 && DeepEqual v p.2) && deepEqualEntries xs ys
termination_by structural x => x
end

/-- The loop of `indexOfSlice`, with `n` iterations left from index `i`. -/
def indexOfSliceLoop (a lVal : GoValue) : Nat → Nat → Except Panic Int
  | 0, _ => .ok (-1)
  | n + 1, i => do
    let elem ← lVal.index i
    if DeepEqual a elem then pure (i : Int)
    else indexOfSliceLoop a lVal n (i + 1)

/-- Go: `indexOfSlice`. -/
def indexOfSlice (a list : GoValue) : Except Panic Int := do
  let lVal := list
  let size ← lVal.len
  indexOfSliceLoop a lVal size 0

/-- Go: `sliceContains`. -/
def sliceContains (a list : GoValue) : Except Panic Bool := do
  let index ← indexOfSlice a list
  pure (index != -1)

/-- The slice expression `list[:i]` of a slice with the elements `list`, whose
backing array holds the elements `spare` between its length and its
capacity: a panic unless `0 ≤ i ≤ cap(list)`. -/
def sliceTo (list spare : List String) (i : Int) : Except Panic (List String) :=
  if 0 ≤ i ∧ i ≤ ((list.length + spare.length : Nat) : Int) then
    .ok ((list ++ spare).take i.toNat)
  else .error .outOfRange

/-- The slice expression `list[j:]`: a panic unless `0 ≤ j ≤ len(list)`. -/
def sliceFrom (list : List String) (j : Int) : Except Panic (List String) :=
  if 0 ≤ j ∧ j ≤ (list.length : Int) then .ok (list.drop j.toNat)
  else .error .outOfRange

/-- Go: `removeFromStringSlice`, on a slice with the elements `list` and the
spare capacity `spare`; the result is given by its elements. -/
def removeFromStringSlice (list spare : List String) (i : Int) : Except Panic (List String) := do
  let front ← sliceTo list spare i
  let back ← sliceFrom list (i + 1)
  pure (front ++ back)

/-- The first loop of `compareAsStringSet`: the result it returns, if any. -/
def missingExpected (gots : List String) : List String → Option (Bool × String)
  | [] => none
  | e :: rest =>
    let index := indexOfStringSlice gots e
    if index = -1 then some (false, "Missing expected element: " ++ e)
    else missingExpected gots rest

/-- The second loop of `compareAsStringSet`: the result it returns, if any. -/
def foundExtra (expecteds : List String) : List String → Option (Bool × String)
  | [] => none
  | g :: rest =>
    let index := indexOfStringSlice expecteds g
    if index = -1 then some (false, "Found extra element: " ++ g)
    else foundExtra expecteds rest

/-- Go: `compareAsStringSet`. -/
def compareAsStringSet (expecteds gots : List String) : Bool × String :=
  match missingExpected gots expecteds with
  | some res => res
  | none =>
    match foundExtra expecteds gots with
    | some res => res
    | none => (true, "ok")

/-- The method `IsValid()` of `reflect.Value`: false for the zero Value. -/
def GoValue.isValid : GoValue → Bool
  | .invalid => false
  | _ => true

/-- A loop of `compareAsSet` over the elements of `val`, with `n` iterations
left from index `i`: the result it returns, if any.  `formatV` is the
formatting of a value by the verb `%v` of `fmt`. -/
def compareAsSetLoop (formatV : GoValue → String) (msg : String) (val other : GoValue) :
    Nat → Nat → Except Panic (Option (Bool × String))
  | 0, _ => .ok none
  | n + 1, i => do
    let elem ← val.index i
    let index ← indexOfSlice elem other
    if index = -1 then pure (some (false, msg ++ formatV elem))
    else compareAsSetLoop formatV msg val other n (i + 1)

/-- Go: `compareAsSet`; `formatV` is the formatting of a value by the verb
`%v` of `fmt`. -/
def compareAsSet (formatV : GoValue → String) (expecteds gots : GoValue) :
    Except Panic (Bool × String) :=
  let eVal := expecteds
  let gVal := gots
  if !eVal.isValid then .ok (false, "expecteds was nil")
  else if !gVal.isValid then .ok (false, "gots was nil")
  else do
    let eLen ← eVal.len
    match ← compareAsSetLoop formatV "Missing expected element: " eVal gots eLen 0 with
    | some res => pure res
    | none =>
      let gLen ← gVal.len
      match ← compareAsSetLoop formatV "Found unexpected element: " gVal expecteds gLen 0 with
      | some res => pure res
      | none => pure (true, "ok")

/-- A `[]string` as a value: a slice of element type `string`. -/
def stringSlice (xs : List String) : GoValue :=
  .slice .String (xs.map GoValue.str)

/-- The value reached from `v` through a chain of `n` non-nil pointers. -/
def ptrChain : Nat → GoValue → GoValue
  | 0, v => v
  | n + 1, v => .ptr (ptrChain n v)

/-- The integer held by a value of a signed or unsigned integer kind. -/
def GoValue.intValue : GoValue → Option Int
  | .int _ n => some n
  | .uint _ n => some (n : Int)
  | _ => none

/-- Rounding of `m` to the nearest multiple of `2 ^ sh`, ties to the even
multiple: `roundToFloat64 m` is this with `sh = bitLength m - 53`. -/
def roundAtShift (sh m : Nat) : Nat :=
  let q := m / 2 ^ sh
  let r := m % 2 ^ sh
  if 2 * r < 2 ^ sh then q * 2 ^ sh
  else if 2 ^ sh < 2 * r then (q + 1) * 2 ^ sh
  else if q % 2 = 0 then q * 2 ^ sh
  else (q + 1) * 2 ^ sh

/-! ## Definitions: records, the index engine and the record operations -/

/-- A record instance: its model type, its `Id` (supplied by the embedded
default-data block), and the values of its other declared fields in
declaration order. -/
structure Record where
  typ : GoType
  Id : String
  fields : List (String × GoValue)

/-- The value of a declared field. -/
def Record.get (r : Record) (name : String) : GoValue :=
  (r.fields.lookup name).getD .invalid

/-- Modelled from the spec: the string representation of field values in the
store (the serialisation code is missing from the sources): the serialisation
of a value and the coercion of a stored string back to a declared type.  The
record operations take it as an argument; `naturalCodec` below is the natural
representation of the scalar values. -/
structure Codec where
  encode : GoValue → String
  decode : GoType → String → Option GoValue

/-- The value of a decimal digit. -/
def digitValue (c : Char) : Option Nat :=
  if '0' ≤ c ∧ c ≤ '9' then some (c.toNat - 48) else none

/-- A natural number in decimal, read after the digits that gave `acc`. -/
def parseNat : List Char → Nat → Option Nat
  | [], acc => some acc
  | c :: cs, acc =>
    match digitValue c with
    | some d => parseNat cs (10 * acc + d)
    | none => none

/-- An integer in decimal, with an optional minus sign. -/
def parseInt (s : String) : Option Int :=
  match s.data with
  | [] => none
  | '-' :: cs => if cs = [] then none else (parseNat cs 0).map (fun n => -(n : Int))
  | cs => (parseNat cs 0).map Int.ofNat

/-- A natural number in decimal, of one digit at least. -/
def parseUint (s : String) : Option Nat :=
  if s.data = [] then none else parseNat s.data 0

/-- The characters before the first slash and those after it, if there is a
slash. -/
def splitSlash : List Char → Option (List Char × List Char)
  | [] => none
  | c :: cs =>
    if c = '/' then some ([], cs)
    else match splitSlash cs with
      | some p => some (c :: p.1, p.2)
      | none => none

/-- A fraction: an integer in decimal, a slash, and a positive natural number
in decimal. -/
def parseFraction (s : String) : Option ℚ :=
  match splitSlash s.data with
  | none => none
  | some p =>
    match parseInt (String.mk p.1), parseUint (String.mk p.2) with
    | some n, some d => if d = 0 then none else some (mkRat n d)
    | _, _ => none

/-- Modelled from the spec: the natural string representation of a scalar
value (the serialisation code is missing from the sources): a string as it
is, a boolean as true or false, an integer in decimal, and a float as the
fraction that it denotes, numerator and denominator in decimal (the decimal
notation of floats is not part of this model).  Every other value is
represented by the empty string. -/
def encodeNatural : GoValue → String
  | .str s => s
  | .bool b => if b then "true" else "false"
  | .int _ n => toString n
  | .uint _ n => toString n
  | .float _ x => toString x.val.num ++ "/" ++ toString x.val.den
  | _ => ""

/-- Modelled from the spec: the coercion of a stored string back to a
declared scalar type (the serialisation code is missing from the sources),
the reverse of `encodeNatural`; the values of this model are not limited to
the range of their kind, and neither is the coercion.  There is no coercion
back to a type that is not scalar. -/
def decodeNatural : GoType → String → Option GoValue
  | .String, s => some (.str s)
  | .Bool, s => if s = "true" then some (.bool true)
    else if s = "false" then some (.bool false) else none
  | .Int, s => (parseInt s).map (GoValue.int .Int)
  | .Int8, s => (parseInt s).map (GoValue.int .Int8)
  | .Int16, s => (parseInt s).map (GoValue.int .Int16)
  | .Int32, s => (parseInt s).map (GoValue.int .Int32)
  | .Int64, s => (parseInt s).map (GoValue.int .Int64)
  | .Uint, s => (parseUint s).map (GoValue.uint .Uint)
  | .Uint8, s => (parseUint s).map (GoValue.uint .Uint8)
  | .Uint16, s => (parseUint s).map (GoValue.uint .Uint16)
  | .Uint32, s => (parseUint s).map (GoValue.uint .Uint32)
  | .Uint64, s => (parseUint s).map (GoValue.uint .Uint64)
  | .Float32, s => (parseFraction s).map (fun q => GoValue.float .Float32 ⟨q⟩)
  | .Float64, s => (parseFraction s).map (fun q => GoValue.float .Float64 ⟨q⟩)
  | _, _ => none

/-- Modelled from the spec: the natural string representation of field values
(the serialisation code is missing from the sources). -/
def naturalCodec : Codec := ⟨encodeNatural, decodeNatural⟩

/-- Modelled from the spec: the scoring rule of an index kind (the index
engine is missing from the sources): `numericScore`, `boolScore` as a number,
and for the alphabetical index a rank that the design document leaves open,
taken as the argument `alphaRank`. -/
def indexScore (alphaRank : GoValue → Float64) (ik : indexKind) (val : GoValue) :
    Except Panic Float64 :=
  match ik with
  | .numericIndex => numericScore val
  | .booleanIndex =>
    match boolScore val with
    | .ok n => .ok (float64OfInt n)
    | .error p => .error p
  | .alphabeticalIndex => .ok (alphaRank val)
  | .noIndex => .ok ⟨0⟩

/-- Modelled from the spec: the previously stored value of a field (the
persistence orchestrator is missing from the sources): the entry of the
primary hash `h` under the external name of the field, coerced back to the
declared type of the field; `none` when there is no entry or it cannot be
coerced. -/
def storedValue (codec : Codec) (h : List (String × String)) (fs : fieldSpec) : Option GoValue :=
  match h.lookup fs.redisName with
  | none => none
  | some str => codec.decode fs.fieldType str

/-- Modelled from the spec: the index operations of one field (the index
engine is missing from the sources).  `old` holds the previously stored field
values of the record, if it existed.  The value of the field is unchanged when
its previously stored value is deeply equal to its new value; a previous value
that cannot be read counts as changed. -/
def fieldIndexOps (alphaRank : GoValue → Float64) (codec : Codec) (modelName id : String)
    (old : Option (List (String × String))) (new : Record) (fs : fieldSpec) :
    Except Panic (List Command) :=
  if fs.indexKind = .noIndex then .ok []
  else
    let key := indexKey modelName fs.redisName fs.indexKind
    match indexScore alphaRank fs.indexKind (new.get fs.name) with
    | .error p => .error p
    | .ok newScore =>
      match old with
      | none => .ok [.indexAdd key id newScore]
      | some h =>
        match storedValue codec h fs with
        | some oldValue =>
          if DeepEqual oldValue (new.get fs.name) then .ok []
          else .ok [.indexRemove key id, .indexAdd key id newScore]
        | none => .ok [.indexRemove key id, .indexAdd key id newScore]

/-- Modelled from the spec: `diff(spec, oldRecord, newRecord)`, over the
fields of the spec in order (the index engine is missing from the sources). -/
def diffFields (alphaRank : GoValue → Float64) (codec : Codec) (modelName id : String)
    (old : Option (List (String × String))) (new : Record) :
    List fieldSpec → Except Panic (List Command)
  | [] => .ok []
  | fs :: rest =>
    match fieldIndexOps alphaRank codec modelName id old new fs with
    | .error p => .error p
    | .ok ops =>
      match diffFields alphaRank codec modelName id old new rest with
      | .error p => .error p
      | .ok more => .ok (ops ++ more)

/-- Modelled from the spec: the entries of the primary hash of a record (the
persistence orchestrator is missing from the sources): one per field of the
spec, under its external name. -/
def hashEntries (codec : Codec) (spec : modelSpec) (r : Record) : List (String × String) :=
  spec.fields.map (fun fs => (fs.redisName, codec.encode (r.get fs.name)))

/-- Modelled from the spec: the record with its `Id` assigned (the persistence
orchestrator is missing from the sources): `freshId` when it has none yet. -/
def assignId (record : Record) (freshId : String) : Record :=
  if record.Id = "" then ⟨record.typ, freshId, record.fields⟩ else record

/-- Modelled from the spec: `Save(record)` (the persistence orchestrator is
missing from the sources).  `freshId` is the id that `generateRandomId`
returns; the result is the store afterwards and the record with its `Id`. -/
def Save (reg : Registry) (codec : Codec) (alphaRank : GoValue → Float64) (store : Store)
    (freshId : String) (record : Record) : Except ZoomError (Store × Record) :=
  match reg.lookupByType record.typ with
  | none => .error .ModelNotRegisteredError
  | some spec =>
    let r := assignId record freshId
    let key := primaryKey spec.name r.Id
    let old := store.hashes key
    match diffFields alphaRank codec spec.name r.Id old r spec.fields with
    | .error p => .error (.Panicked p)
    | .ok indexOps =>
      let batch := Command.hashWrite key (hashEntries codec spec r) ::
        Command.setAdd (allIdsKey spec.name) r.Id :: indexOps
      .ok (store.submit batch, r)

/-- Modelled from the spec: the scalar types, whose values the primary hash
holds in their string representation (the persistence orchestrator is missing
from the sources): `string`, the numeric types and `bool`. -/
def typeIsScalar (typ : GoType) : Bool :=
  typ.kind == .String || typeIsNumeric typ || typeIsBool typ

/-- Modelled from the spec: population of one field of the destination of
`Find` (the persistence orchestrator is missing from the sources): a field of
the spec of a scalar type is coerced back from its stored string, every other
field is left as it is (the primary hash holds the scalar values of a record;
the loading of related records is not part of the core). -/
def findField (codec : Codec) (spec : modelSpec) (h : List (String × String))
    (f : String × GoValue) : Except ZoomError (String × GoValue) :=
  match spec.fieldsByName f.1 with
  | none => .ok f
  | some fs =>
    if typeIsScalar fs.fieldType then
      match h.lookup fs.redisName with
      | none => .ok f
      | some str =>
        match codec.decode fs.fieldType str with
        | some v => .ok (f.1, v)
        | none => .error .StoreError
    else .ok f

/-- Modelled from the spec: the fields of the destination of `Find`,
populated in order (the persistence orchestrator is missing from the
sources). -/
def findFields (codec : Codec) (spec : modelSpec) (h : List (String × String)) :
    List (String × GoValue) → Except ZoomError (List (String × GoValue))
  | [] => .ok []
  | f :: rest =>
    match findField codec spec h f with
    | .error e => .error e
    | .ok g =>
      match findFields codec spec h rest with
      | .error e => .error e
      | .ok more => .ok (g :: more)

/-- Modelled from the spec: `Find(id, dest)` on the model with spec `spec`
(the persistence orchestrator is missing from the sources). -/
def Find (codec : Codec) (spec : modelSpec) (store : Store) (id : String) (dest : Record) :
    Except ZoomError Record :=
  if dest.typ ≠ spec.typ then .error .TypeMismatchError
  else
    match store.hashes (primaryKey spec.name id) with
    | none => .error .KeyNotFoundError
    | some h =>
      match findFields codec spec h dest.fields with
      | .error e => .error e
      | .ok fields => .ok ⟨dest.typ, id, fields⟩

/-- Modelled from the spec: the removal of `id` from the index of every
indexed field (the index engine is missing from the sources). -/
def indexRemovals (modelName id : String) (fields : List fieldSpec) : List Command :=
  (fields.filter (fun fs => fs.indexKind != .noIndex)).map
    (fun fs => Command.indexRemove (indexKey modelName fs.redisName fs.indexKind) id)

/-- Modelled from the spec: `Delete(id)` on the model with spec `spec` (the
persistence orchestrator is missing from the sources): the current record is
read first, then one batch removes the index entries, the membership and the
primary hash. -/
def Delete (spec : modelSpec) (store : Store) (id : String) : Except ZoomError Store :=
  let key := primaryKey spec.name id
  match store.hashes key with
  | none => .error .KeyNotFoundError
  | some _ =>
    .ok (store.submit (indexRemovals spec.name id spec.fields ++
      [Command.setRemove (allIdsKey spec.name) id, Command.hashDelete key]))

/-- An operation on the records of one model. -/
inductive Op where
  | save (record : Record) (freshId : String)
  | delete (id : String)

/-- One operation on the store; it fails when the operation fails. -/
def stepOp (reg : Registry) (codec : Codec) (alphaRank : GoValue → Float64) (spec : modelSpec)
    (store : Store) : Op → Except ZoomError Store
  | .save record freshId =>
    match Save reg codec alphaRank store freshId record with
    | .ok res => .ok res.1
    | .error e => .error e
  | .delete id => Delete spec store id

/-- A sequence of operations, each of which must succeed. -/
def runOps (reg : Registry) (codec : Codec) (alphaRank : GoValue → Float64) (spec : modelSpec) :
    Store → List Op → Except ZoomError Store
  | store, [] => .ok store
  | store, op :: ops =>
    match stepOp reg codec alphaRank spec store op with
    | .error e => .error e
    | .ok store1 => runOps reg codec alphaRank spec store1 ops

/-- The records that exist after one more operation: a save makes its record
the current one under its id, a delete removes the record with that id. -/
def trackOp (cur : String → Option Record) : Op → String → Option Record
  | .save record freshId => fun id =>
    if id = (assignId record freshId).Id then some (assignId record freshId) else cur id
  | .delete d => fun id => if id = d then none else cur id

/-- The records that exist after a sequence of operations on an empty store:
for each id the record last saved under it, unless deleted since. -/
def currentRecords (ops : List Op) : String → Option Record :=
  ops.foldl trackOp (fun _ => none)

/-- The records saved by a sequence of operations. -/
def savedRecords : List Op → List Record
  | [] => []
  | .save record _ :: ops => record :: savedRecords ops
  | .delete _ :: ops => savedRecords ops

/-! ## Definitions: predicates and sample data of the theorems -/

/-- The type of the argument of `Models` is valid: a slice or array whose
element type is a pointer to a struct and is in the type registry. -/
def ModelsArgValid (table : List (GoType × modelSpec)) (v : GoValue) : Prop :=
  ∃ e xs name, (v = .slice e xs ∨ v = .array e xs) ∧ e = .Ptr (.Struct name) ∧
    (table.lookup e).isSome = true

/-- The embedded default-data block of the test models. -/
def defaultDataField : StructField := ⟨"DefaultData", .Struct "DefaultData", none, true⟩

/-- The struct `regTestModel` of `model_type_test.go`. -/
def regTestModel : StructDecl :=
  ⟨"regTestModel", [defaultDataField, ⟨"Int", .Int, none, false⟩,
    ⟨"Bool", .Bool, none, false⟩, ⟨"String", .String, none, false⟩]⟩

/-- The struct `invalid` of `TestInvalidOptionThrowsError`. -/
def invalidModel : StructDecl :=
  ⟨"invalid", [⟨"Attr", .String, some "index,poop", false⟩, defaultDataField]⟩

/-- The commands on the ordered id-to-score structures. -/
def Command.isIndex : Command → Bool
  | .indexAdd _ _ _ => true
  | .indexRemove _ _ => true
  | _ => false

/-- A string representation for examples: strings as they are, booleans as
true and false, integers in decimal, a pointer as its target. -/
def encodeSample : GoValue → String
  | .str s => s
  | .bool b => if b then "true" else "false"
  | .int _ n => toString n
  | .uint _ n => toString n
  | .ptr t => encodeSample t
  | _ => ""

/-- The coercion back from the representation of `encodeSample`, for the
types string, bool and int. -/
def decodeSample : GoType → String → Option GoValue
  | .String, s => some (.str s)
  | .Bool, s => if s = "true" then some (.bool true)
    else if s = "false" then some (.bool false) else none
  | .Int, s => (parseInt s).map (GoValue.int .Int)
  | _, _ => none

/-- The codec of the examples. -/
def sampleCodec : Codec := ⟨encodeSample, decodeSample⟩

/-- The rank of the examples for the alphabetical index: the length. -/
def sampleRank (v : GoValue) : Float64 :=
  match derefAll v with
  | .str s => ⟨s.length⟩
  | _ => ⟨0⟩

/-- The struct `ignoredFieldModel` of `TestRedisIgnoreOption`. -/
def ignoredFieldModel : StructDecl :=
  ⟨"ignoredFieldModel", [⟨"Attr", .String, some "-", false⟩, defaultDataField]⟩

/-- The struct `customFieldModel` of `TestRedisNameOption`. -/
def customFieldModel : StructDecl :=
  ⟨"customFieldModel", [⟨"Attr", .String, some "a", false⟩, defaultDataField]⟩

/-- A struct with an excluded field `Attr` and a field stored under the
external name "Attr". -/
def shadowedIgnoredModel : StructDecl :=
  ⟨"shadowedIgnoredModel", [⟨"Attr", .String, some "-", false⟩,
    ⟨"Other", .String, some "Attr", false⟩, defaultDataField]⟩

/-- A struct with a field `Attr` stored as "a" and a field stored under the
external name "Attr". -/
def shadowedCustomModel : StructDecl :=
  ⟨"shadowedCustomModel", [⟨"Attr", .String, some "a", false⟩,
    ⟨"Other", .String, some "Attr", false⟩, defaultDataField]⟩

/-- The struct `Friend` of `support/creators.go`. -/
def friendModel : StructDecl :=
  ⟨"Friend", [defaultDataField, ⟨"Name", .String, none, false⟩,
    ⟨"Friends", .Slice (.Ptr (.Struct "Friend")), none, false⟩]⟩

/-- The field `name` of a record is read back by `Find`: it is a field of the
spec, and of a scalar type. -/
def isReadBack (spec : modelSpec) (name : String) : Bool :=
  match spec.fieldsByName name with
  | some fs => typeIsScalar fs.fieldType
  | none => false

/-- A struct with scalar fields of several types and an excluded field. -/
def scalarsModel : StructDecl :=
  ⟨"scalarsModel", [defaultDataField, ⟨"Int", .Int, none, false⟩,
    ⟨"Int64", .Int64, none, false⟩, ⟨"Uint8", .Uint8, none, false⟩,
    ⟨"Bool", .Bool, none, false⟩, ⟨"String", .String, none, false⟩,
    ⟨"Note", .String, some "-", false⟩]⟩

/-- The compiled spec of `scalarsModel`. -/
def scalarsSpec : modelSpec :=
  ⟨scalarsModel.typ, "scalarsModel",
    [⟨.primativeField, "Int", "Int", .Int, .noIndex⟩,
     ⟨.primativeField, "Int64", "Int64", .Int64, .noIndex⟩,
     ⟨.primativeField, "Uint8", "Uint8", .Uint8, .noIndex⟩,
     ⟨.primativeField, "Bool", "Bool", .Bool, .noIndex⟩,
     ⟨.primativeField, "String", "String", .String, .noIndex⟩]⟩

/-- A record of `scalarsModel`, not saved yet; its excluded field is empty. -/
def scalarsRecord : Record :=
  ⟨scalarsModel.typ, "", [("Int", .int .Int 42), ("Int64", .int .Int64 (-5)),
    ("Uint8", .uint .Uint8 200), ("Bool", .bool true), ("String", .str "zoom"),
    ("Note", .str "")]⟩

/-- A fresh record of `scalarsModel`: every field holds its zero value. -/
def scalarsFresh : Record :=
  ⟨scalarsModel.typ, "", [("Int", .int .Int 0), ("Int64", .int .Int64 0),
    ("Uint8", .uint .Uint8 0), ("Bool", .bool false), ("String", .str ""),
    ("Note", .str "")]⟩

/-- The store after `scalarsRecord` has been saved under the id "id1" in an
empty store. -/
def scalarsStore : Store :=
  Store.empty.submit [Command.hashWrite "scalarsModel:id1"
      [("Int", "42"), ("Int64", "-5"), ("Uint8", "200"), ("Bool", "true"), ("String", "zoom")],
    Command.setAdd "scalarsModel:all" "id1"]

/-- A record of `friendModel` with one friend. -/
def friendRecord : Record :=
  ⟨friendModel.typ, "", [("Name", .str "a"),
    ("Friends", .slice (.Ptr (.Struct "Friend"))
      [.ptr (.struct "Friend" [("Id", .str "id0"), ("Name", .str "b"),
        ("Friends", .slice (.Ptr (.Struct "Friend")) [])])])]⟩

/-- A fresh record of `friendModel`. -/
def friendFresh : Record :=
  ⟨friendModel.typ, "", [("Name", .str ""), ("Friends", .slice (.Ptr (.Struct "Friend")) [])]⟩

/-- The score of the saved id in the index of a field after the operations of
`fieldIndexOps`: the new score, or the previous entry `prev` when the stored
value of the field is deeply equal to the new value. -/
def scoreAfterDiff (codec : Codec) (old : Option (List (String × String))) (fs : fieldSpec)
    (newValue : GoValue) (sc : Float64) (prev : Option Float64) : Option Float64 :=
  match old with
  | none => some sc
  | some hh =>
    match storedValue codec hh fs with
    | some oldValue => if DeepEqual oldValue newValue then prev else some sc
    | none => some sc

/-- The state of the store agrees with the records `cur` that exist: each has
its primary hash, and its id is in the index of every indexed field with the
score of the value of that field, while the id of a record that does not exist
is in no index.  The records all come from the list `all`. -/
def IndexInv (codec : Codec) (alphaRank : GoValue → Float64) (spec : modelSpec)
    (all : List Record) (s : Store) (cur : String → Option Record) : Prop :=
  (∀ id, s.hashes (primaryKey spec.name id) = (cur id).map (hashEntries codec spec)) ∧
  (∀ id fs, fs ∈ spec.fields → fs.indexKind ≠ .noIndex →
    (cur id = none → s.score (indexKey spec.name fs.redisName fs.indexKind) id = none) ∧
    (∀ r, cur id = some r → ∃ sc,
      indexScore alphaRank fs.indexKind (r.get fs.name) = .ok sc ∧
      s.score (indexKey spec.name fs.redisName fs.indexKind) id = some sc)) ∧
  (∀ id r, cur id = some r → ∃ r0 ∈ all, r.fields = r0.fields)

/-- A struct with an indexed field of each index kind. -/
def indexedModel : StructDecl :=
  ⟨"indexedModel", [⟨"Int", .Int, some "index", false⟩,
    ⟨"Bool", .Bool, some "index", false⟩, ⟨"String", .String, some "index", false⟩,
    defaultDataField]⟩

/-- The compiled spec of `indexedModel`. -/
def indexedSpec : modelSpec :=
  ⟨indexedModel.typ, "indexedModel",
    [⟨.primativeField, "Int", "Int", .Int, .numericIndex⟩,
     ⟨.primativeField, "Bool", "Bool", .Bool, .booleanIndex⟩,
     ⟨.primativeField, "String", "String", .String, .alphabeticalIndex⟩]⟩

/-- A record of `indexedModel` with `Int = 42`. -/
def indexedRecord : Record :=
  ⟨indexedModel.typ, "", [("Int", .int .Int 42), ("Bool", .bool true), ("String", .str "zoom")]⟩

/-- Another record of `indexedModel`, with `Int = 42` as well. -/
def indexedOther : Record :=
  ⟨indexedModel.typ, "", [("Int", .int .Int 42), ("Bool", .bool false), ("String", .str "b")]⟩

/-- The record `indexedRecord` as saved under the id "id1", with `Int`
changed from 42 to 7 and the other fields as they were. -/
def indexedUpdate : Record :=
  ⟨indexedModel.typ, "id1", [("Int", .int .Int 7), ("Bool", .bool true), ("String", .str "zoom")]⟩

/-- A sequence of operations: `indexedRecord` is saved under the new id "id1"
and `indexedOther` under "id2", then the record "id1" is saved again with
another value of `Int`, and the record "id2" is deleted. -/
def indexedOps : List Op :=
  [.save indexedRecord "id1", .save indexedOther "id2", .save indexedUpdate "id3", .delete "id2"]

/-- The store after the operations `indexedOps` on an empty store: the four
batches of commands, in order. -/
def indexedStore : Store :=
  (((Store.empty.submit [Command.hashWrite "indexedModel:id1"
      [("Int", "42"), ("Bool", "true"), ("String", "zoom")],
    Command.setAdd "indexedModel:all" "id1",
    Command.indexAdd "indexedModel:Int" "id1" ⟨42⟩,
    Command.indexAdd "indexedModel:Bool" "id1" ⟨1⟩,
    Command.indexAdd "indexedModel:String" "id1" ⟨4⟩]).submit
   [Command.hashWrite "indexedModel:id2"
      [("Int", "42"), ("Bool", "false"), ("String", "b")],
    Command.setAdd "indexedModel:all" "id2",
    Command.indexAdd "indexedModel:Int" "id2" ⟨42⟩,
    Command.indexAdd "indexedModel:Bool" "id2" ⟨0⟩,
    Command.indexAdd "indexedModel:String" "id2" ⟨1⟩]).submit
   [Command.hashWrite "indexedModel:id1"
      [("Int", "7"), ("Bool", "true"), ("String", "zoom")],
    Command.setAdd "indexedModel:all" "id1",
    Command.indexRemove "indexedModel:Int" "id1",
    Command.indexAdd "indexedModel:Int" "id1" ⟨7⟩]).submit
   [Command.indexRemove "indexedModel:Int" "id2",
    Command.indexRemove "indexedModel:Bool" "id2",
    Command.indexRemove "indexedModel:String" "id2",
    Command.setRemove "indexedModel:all" "id2",
    Command.hashDelete "indexedModel:id2"]

/-! ## Theorems: scores -/

theorem bitLengthAux_le (fuel : Nat) :
    ∀ (m k : Nat), m < 2 ^ k → bitLengthAux fuel m ≤ k := by
  induction fuel with
  | zero => intro m k _; simp [bitLengthAux]
  | succ fuel ih =>
    intro m k h
    unfold bitLengthAux
    split
    · exact Nat.zero_le _
    · rename_i hm
      cases k with
      | zero => simp at h; exact absurd h hm
      | succ k =>
        have h2 : m / 2 < 2 ^ k := by
          rw [Nat.div_lt_iff_lt_mul (by decide)]
          rw [pow_succ] at h
          exact h
        exact Nat.succ_le_succ (ih _ _ h2)

theorem roundToFloat64_of_lt (m : Nat) (h : m < 2 ^ 53) : roundToFloat64 m = m := by
  have hb : bitLength m - 53 = 0 := Nat.sub_eq_zero_of_le (bitLengthAux_le m m 53 h)
  simp [roundToFloat64, hb, Nat.mod_one]

theorem roundToFloat64_of_le (m : Nat) (h : m ≤ 2 ^ 53) : roundToFloat64 m = m := by
  rcases Nat.lt_or_eq_of_le h with h | h
  · exact roundToFloat64_of_lt m h
  · subst h; decide

theorem float64OfInt_exact (n : Int) (h : n.natAbs ≤ 2 ^ 53) :
    float64OfInt n = ⟨(n : ℚ)⟩ := by
  unfold float64OfInt
  rw [roundToFloat64_of_le _ h]
  split
  · rename_i hn
    congr 1
    have h1 : (n.natAbs : Int) = -n := by omega
    have h2 : ((n.natAbs : Int) : ℚ) = ((-n : Int) : ℚ) := by rw [h1]
    rw [Int.cast_natCast, Int.cast_neg] at h2
    rw [h2, neg_neg]
  · rename_i hn
    congr 1
    have h1 : (n.natAbs : Int) = n := by omega
    have h2 : ((n.natAbs : Int) : ℚ) = ((n : Int) : ℚ) := by rw [h1]
    rw [Int.cast_natCast] at h2
    exact h2

/-- C3: the boolean index score is 0 for false and 1 for true, `boolScore` of a
boolean value returns `convertBoolToInt` of it, so the score is 0 or 1, and
false scores strictly below true. -/
theorem boolScore_zero_one :
    convertBoolToInt false = 0 ∧ convertBoolToInt true = 1 ∧
    (∀ b : Bool, boolScore (.bool b) = .ok (convertBoolToInt b)) ∧
    (∀ b : Bool, ∀ n, boolScore (.bool b) = .ok n → n = 0 ∨ n = 1) ∧
    convertBoolToInt false < convertBoolToInt true := by
  refine ⟨rfl, rfl, fun b => by cases b <;> rfl, ?_, by decide⟩
  intro b n h
  cases b
  · left; cases h; rfl
  · right; cases h; rfl

/-- C4, as stated, fails: the `int64` value 2^53 + 1 scores 2^53, which is not
numerically equal to it. -/
theorem numericScore_int64_rounds :
    numericScore (.int .Int64 9007199254740993) = .ok ⟨9007199254740992⟩ ∧
    numericScore (.int .Int64 9007199254740993) ≠ .ok ⟨((9007199254740993 : Int) : ℚ)⟩ := by
  decide

/-- C4, amended: a value of a signed or unsigned integer kind (`uintptr`
apart, which is no numeric kind here) holding an integer of magnitude at most
2^53 scores exactly that integer. -/
theorem numericScore_exact (n : Int) (m : Nat) (hn : n.natAbs ≤ 2 ^ 53) (hm : m ≤ 2 ^ 53) :
    (∀ k : IntKind, numericScore (.int k n) = .ok ⟨(n : ℚ)⟩) ∧
    (∀ k : UintKind, k ≠ .Uintptr → numericScore (.uint k m) = .ok ⟨(m : ℚ)⟩) := by
  constructor
  · intro k
    cases k <;> simp [numericScore, derefAll, GoValue.kind, GoValue.typeOf, IntKind.toType,
      GoType.kind, GoValue.getInt, float64OfInt_exact n hn, bind, Except.bind, pure, Except.pure]
  · intro k hk
    cases k <;> simp_all [numericScore, derefAll, GoValue.kind, GoValue.typeOf, UintKind.toType,
      GoType.kind, GoValue.getUint, float64OfUint, roundToFloat64_of_le m hm, bind, Except.bind,
      pure, Except.pure]

/-- The value 42 scores 42.0, whatever its integer kind. -/
theorem numericScore_exact_witness :
    (∀ k : IntKind, numericScore (.int k 42) = .ok ⟨((42 : Int) : ℚ)⟩) ∧
    (∀ k : UintKind, k ≠ .Uintptr →
      numericScore (.uint k 42) = .ok ⟨((42 : Nat) : ℚ)⟩) :=
  numericScore_exact 42 42 (by decide) (by decide)

/-! ## Theorems: `Models` and `Interfaces` -/

theorem take_succ_set {α : Type} (results xs : List α) (i : Nat) (x : α)
    (hi : i < results.length) (hx : xs.get? i = some x) (ht : results.take i = xs.take i) :
    (results.set i x).take (i + 1) = xs.take (i + 1) := by
  rw [List.take_succ, List.take_succ, List.set_take, ← ht]
  have h1 : (List.take i results).set i x = List.take i results :=
    List.set_eq_of_length_le (by simp)
  rw [h1]
  simp only [List.get?_eq_getElem?] at hx
  rw [hx, List.getElem?_set_eq_of_lt _ hi]

theorem interfacesLoop_slice (val : GoValue) (xs : List GoValue)
    (hidx : ∀ i, val.index i = match xs.get? i with
      | some x => .ok x
      | none => .error .outOfRange) :
    ∀ (n i : Nat) (results : List GoValue), i + n = xs.length →
      results.length = xs.length → results.take i = xs.take i →
      interfacesLoop val n i results = .ok xs := by
  intro n
  induction n with
  | zero =>
    intro i results hin hlen ht
    simp only [Nat.add_zero] at hin
    subst hin
    rw [← hlen, List.take_length] at ht
    rw [hlen, List.take_length] at ht
    simp [interfacesLoop, ht]
  | succ n ih =>
    intro i results hin hlen ht
    have hi : i < xs.length := by omega
    obtain ⟨x, hx⟩ : ∃ x, xs.get? i = some x := ⟨xs.get ⟨i, hi⟩, List.get?_eq_get hi⟩
    have hv : val.index i = .ok x := by rw [hidx, hx]
    simp only [interfacesLoop, hv, bind, Except.bind]
    apply ih
    · omega
    · simp [hlen]
    · exact take_succ_set results xs i x (by omega) hx ht

theorem modelsLoop_slice (implementsModel : GoType → Bool) (val : GoValue) (xs : List GoValue)
    (hidx : ∀ i, val.index i = match xs.get? i with
      | some x => .ok x
      | none => .error .outOfRange)
    (hok : ∀ x ∈ xs, ∃ t, x.dynamicType = some t ∧ implementsModel t = true) :
    ∀ (n i : Nat) (results : List GoValue), i + n = xs.length →
      results.length = xs.length → results.take i = xs.take i →
      modelsLoop implementsModel val n i results = .ok xs := by
  intro n
  induction n with
  | zero =>
    intro i results hin hlen ht
    simp only [Nat.add_zero] at hin
    subst hin
    rw [← hlen, List.take_length] at ht
    rw [hlen, List.take_length] at ht
    simp [modelsLoop, ht]
  | succ n ih =>
    intro i results hin hlen ht
    have hi : i < xs.length := by omega
    obtain ⟨x, hx⟩ : ∃ x, xs.get? i = some x := ⟨xs.get ⟨i, hi⟩, List.get?_eq_get hi⟩
    have hv : val.index i = .ok x := by rw [hidx, hx]
    obtain ⟨t, ht1, ht2⟩ := hok x (List.get?_mem hx)
    simp only [modelsLoop, hv, bind, Except.bind, ht1, ht2]
    simp only [Bool.not_true, Bool.false_eq_true, ↓reduceIte]
    apply ih
    · omega
    · simp [hlen]
    · exact take_succ_set results xs i x (by omega) hx ht

theorem Interfaces_slice (e : GoType) (xs : List GoValue) :
    Interfaces (.slice e xs) = .ok xs ∧ Interfaces (.array e xs) = .ok xs := by
  constructor
  · simp only [Interfaces, GoValue.len, bind, Except.bind]
    exact interfacesLoop_slice (.slice e xs) xs (fun i => rfl) _ _ _ (by simp) (by simp) (by simp)
  · simp only [Interfaces, GoValue.len, bind, Except.bind]
    exact interfacesLoop_slice (.array e xs) xs (fun i => rfl) _ _ _ (by simp) (by simp) (by simp)

/-- C10: `Interfaces` does not panic on every argument that is no slice or
array: for the empty string and for an empty map it returns an empty slice,
and for the string "abc" its three bytes. -/
theorem Interfaces_string_and_map_return :
    Interfaces (.str "") = .ok [] ∧
    Interfaces (.str "abc") = .ok [.uint .Uint8 97, .uint .Uint8 98, .uint .Uint8 99] ∧
    Interfaces (.map .String .Int []) = .ok [] :=
  ⟨rfl, rfl, rfl⟩

theorem typeIsPointerToStruct_eq (e : GoType) :
    typeIsPointerToStruct e = .ok true ∨
    (typeIsPointerToStruct e = .ok false ∧ ¬ ∃ name, e = .Ptr (.Struct name)) := by
  cases e <;> simp [typeIsPointerToStruct, GoType.kind, GoType.elem, bind, Except.bind, pure,
    Except.pure]
  rename_i e
  cases e <;> simp [GoType.kind]

theorem typeIsSliceOrArray_total (t : GoType) : ∃ b, typeIsSliceOrArray t = .ok b := by
  cases t <;> simp [typeIsSliceOrArray, GoType.kind, GoType.elem, bind, Except.bind, pure,
    Except.pure]

theorem Models_panics_of_invalid (table : List (GoType × modelSpec)) (impl : GoType → Bool)
    (v : GoValue) (h : ¬ ModelsArgValid table v) : ∃ p, Models table impl v = .error p := by
  have key : ∀ e xs (w : GoValue), (w = .slice e xs ∨ w = .array e xs) →
      ¬ ModelsArgValid table w → ∃ p, Models table impl w = .error p := by
    intro e xs w hw hinv
    have hty : w.typeOf = some (.Slice e) ∨ w.typeOf = some (.Array xs.length e) := by
      rcases hw with rfl | rfl
      · left; rfl
      · right; rfl
    have hel : ∀ t, w.typeOf = some t → t.elem = .ok e ∧
        typeIsSliceOrArray t = .ok (e.kind != .Uint8) := by
      intro t ht
      rcases hty with h1 | h1 <;> rw [h1] at ht <;> cases ht <;>
        simp [GoType.elem, typeIsSliceOrArray, GoType.kind, bind, Except.bind, pure, Except.pure]
    obtain ⟨t, ht⟩ : ∃ t, w.typeOf = some t := by
      rcases hty with h1 | h1 <;> exact ⟨_, h1⟩
    obtain ⟨he1, he2⟩ := hel t ht
    simp only [Models, ht, bind, Except.bind, pure, Except.pure, he1, he2]
    by_cases hk : e.kind = .Uint8
    · simp [hk]
    · have hk2 : (e.kind != Kind.Uint8) = true := by simpa using hk
      simp only [hk2, Bool.not_true, Bool.false_eq_true, ↓reduceIte]
      rcases typeIsPointerToStruct_eq e with hp | ⟨hp, _⟩
      · simp only [hp, Bool.not_true, Bool.false_eq_true, ↓reduceIte]
        cases hl : (List.lookup e table).isSome
        · simp
        · exfalso
          apply hinv
          have : ∃ name, e = .Ptr (.Struct name) := by
            cases e <;> simp [typeIsPointerToStruct, GoType.kind, GoType.elem, bind, Except.bind,
              pure, Except.pure] at hp
            rename_i e
            cases e <;> simp [GoType.kind] at hp
            exact ⟨_, rfl⟩
          obtain ⟨name, hname⟩ := this
          exact ⟨e, xs, name, hw, hname, hl⟩
      · simp [hp]
  cases v with
  | slice e xs => exact key e xs _ (Or.inl rfl) h
  | array e xs => exact key e xs _ (Or.inr rfl) h
  | invalid => exact ⟨_, rfl⟩
  | ptr t =>
    cases ht : t.typeOf with
    | none => exact ⟨.nilType, by simp [Models, GoValue.typeOf, ht, bind, Except.bind]⟩
    | some u => exact ⟨.modelsNotSliceOrArray, by
        simp [Models, GoValue.typeOf, ht, bind, Except.bind, typeIsSliceOrArray, GoType.kind,
          pure, Except.pure]⟩
  | bool b => exact ⟨_, rfl⟩
  | int k n => exact ⟨.modelsNotSliceOrArray, by cases k <;> rfl⟩
  | uint k n => exact ⟨.modelsNotSliceOrArray, by cases k <;> rfl⟩
  | float k n => exact ⟨.modelsNotSliceOrArray, by cases k <;> rfl⟩
  | str s => exact ⟨_, rfl⟩
  | nilPtr e => exact ⟨_, rfl⟩
  | map k e es => exact ⟨_, rfl⟩
  | chan e q => exact ⟨_, rfl⟩
  | struct n fs => exact ⟨_, rfl⟩

theorem Models_returns_of_valid (table : List (GoType × modelSpec)) (impl : GoType → Bool)
    (e : GoType) (xs : List GoValue) (name : String) (he : e = .Ptr (.Struct name))
    (hreg : (table.lookup e).isSome = true) (himpl : impl e = true)
    (hty : ∀ x ∈ xs, x.typeOf = some e) :
    Models table impl (.slice e xs) = .ok xs ∧ Models table impl (.array e xs) = .ok xs := by
  subst he
  have hok : ∀ x ∈ xs, ∃ t, x.dynamicType = some t ∧ impl t = true :=
    fun x hx => ⟨_, hty x hx, himpl⟩
  constructor
  · simp only [Models, GoValue.typeOf, typeIsSliceOrArray, GoType.kind, GoType.elem,
      typeIsPointerToStruct, bind, Except.bind, pure, Except.pure, hreg, GoValue.len]
    simp only [or_false, or_true, ↓reduceIte, bne_iff_ne, ne_eq, reduceCtorEq, not_false_eq_true,
      decide_True, Bool.not_true, Bool.false_eq_true, beq_self_eq_true, true_or]
    exact modelsLoop_slice impl (.slice _ xs) xs (fun i => rfl) hok _ _ _ (by simp) (by simp)
      (by simp)
  · simp only [Models, GoValue.typeOf, typeIsSliceOrArray, GoType.kind, GoType.elem,
      typeIsPointerToStruct, bind, Except.bind, pure, Except.pure, hreg, GoValue.len]
    simp only [or_false, or_true, ↓reduceIte, bne_iff_ne, ne_eq, reduceCtorEq, not_false_eq_true,
      decide_True, Bool.not_true, Bool.false_eq_true, beq_self_eq_true, true_or]
    exact modelsLoop_slice impl (.array _ xs) xs (fun i => rfl) hok _ _ _ (by simp) (by simp)
      (by simp)

/-- C9: `Models` panics whenever the type of its argument is invalid (no slice
or array, an element type that is no pointer to a struct, or one absent from
the type registry), and for every other argument it returns the elements of
the argument in order.  The registered types implement `Model`, and the
elements of a slice or array have its element type. -/
theorem Models_panics_iff_invalid (table : List (GoType × modelSpec)) (impl : GoType → Bool)
    (v : GoValue) (hreg : ∀ t, (table.lookup t).isSome = true → impl t = true)
    (hty : ∀ e xs, (v = .slice e xs ∨ v = .array e xs) → ∀ x ∈ xs, x.typeOf = some e) :
    (¬ ModelsArgValid table v → ∃ p, Models table impl v = .error p) ∧
    (ModelsArgValid table v →
      ∃ e xs, (v = .slice e xs ∨ v = .array e xs) ∧ Models table impl v = .ok xs) := by
  refine ⟨Models_panics_of_invalid table impl v, ?_⟩
  rintro ⟨e, xs, name, hv, he, hl⟩
  have h := Models_returns_of_valid table impl e xs name he hl (hreg e hl) (hty e xs hv)
  rcases hv with rfl | rfl
  · exact ⟨e, xs, Or.inl rfl, h.1⟩
  · exact ⟨e, xs, Or.inr rfl, h.2⟩

/-- A slice of two pointers of a registered model type is returned as it is. -/
theorem Models_panics_iff_invalid_witness :
    (¬ ModelsArgValid [(regTestModel.typ, ⟨regTestModel.typ, "regTestModel", []⟩)]
        (.slice regTestModel.typ [.ptr (.struct "regTestModel" []), .nilPtr (.Struct "regTestModel")]) →
      ∃ p, Models [(regTestModel.typ, ⟨regTestModel.typ, "regTestModel", []⟩)]
        (fun t => t == regTestModel.typ)
        (.slice regTestModel.typ [.ptr (.struct "regTestModel" []), .nilPtr (.Struct "regTestModel")])
        = .error p) ∧
    (ModelsArgValid [(regTestModel.typ, ⟨regTestModel.typ, "regTestModel", []⟩)]
        (.slice regTestModel.typ [.ptr (.struct "regTestModel" []), .nilPtr (.Struct "regTestModel")]) →
      ∃ e xs, (GoValue.slice regTestModel.typ
          [.ptr (.struct "regTestModel" []), .nilPtr (.Struct "regTestModel")] = .slice e xs ∨
        GoValue.slice regTestModel.typ
          [.ptr (.struct "regTestModel" []), .nilPtr (.Struct "regTestModel")] = .array e xs) ∧
        Models [(regTestModel.typ, ⟨regTestModel.typ, "regTestModel", []⟩)]
          (fun t => t == regTestModel.typ)
          (.slice regTestModel.typ [.ptr (.struct "regTestModel" []), .nilPtr (.Struct "regTestModel")])
          = .ok xs) :=
  Models_panics_iff_invalid _ _ _
    (by
      intro t h
      by_cases ht : t = regTestModel.typ
      · simp [ht]
      · have hb : (t == regTestModel.typ) = false := by simpa using ht
        simp [List.lookup, hb] at h)
    (by
      intro e xs h x hx
      simp only [GoValue.slice.injEq, reduceCtorEq, or_false] at h
      obtain ⟨rfl, rfl⟩ := h
      simp only [List.mem_cons, List.mem_singleton, List.not_mem_nil, or_false] at hx
      rcases hx with rfl | rfl <;> rfl)

/-! ## Theorems: the spec compiler -/

theorem mem_of_lookup_eq_some {α β : Type} [BEq α] [LawfulBEq α] (l : List (α × β)) (a : α)
    (b : β) (h : l.lookup a = some b) : (a, b) ∈ l := by
  induction l with
  | nil => simp at h
  | cons p ps ih =>
    obtain ⟨k, v⟩ := p
    simp only [List.lookup_cons] at h
    cases hk : (a == k) with
    | true =>
      simp only [hk] at h
      have := eq_of_beq hk
      cases h
      subst this
      exact List.mem_cons_self _ _
    | false =>
      simp only [hk] at h
      exact List.mem_cons_of_mem _ (ih h)

theorem applyToken_error (first : Bool) (opts : fieldOptions) (t : String)
    (h : tokenRecognized first t = false) :
    applyToken first opts t = .error (.InvalidOptionError t) := by
  simp only [tokenRecognized, Bool.or_eq_false_iff, beq_eq_false_iff_ne, ne_eq,
    Bool.and_eq_false_imp, bne_eq_false_iff_eq] at h
  obtain ⟨⟨h1, h2⟩, h3⟩ := h
  unfold applyToken
  rw [if_neg h1, if_neg h2, if_neg]
  rintro ⟨hf, hne⟩
  exact hne (h3 hf)

theorem applyToken_ok (first : Bool) (opts : fieldOptions) (t : String)
    (h : tokenRecognized first t = true) : ∃ o, applyToken first opts t = .ok o := by
  unfold applyToken
  split
  · exact ⟨_, rfl⟩
  · split
    · exact ⟨_, rfl⟩
    · rename_i h1 h2
      split
      · exact ⟨_, rfl⟩
      · rename_i h3
        exfalso
        simp only [tokenRecognized, Bool.or_eq_true, beq_iff_eq, Bool.and_eq_true,
          bne_iff_ne, ne_eq] at h
        rcases h with (h | h) | h
        · exact h1 h
        · exact h2 h
        · exact h3 h

theorem parseTokens_error_of_any (ts : List String) :
    ∀ (first : Bool) (opts : fieldOptions),
      (match ts with
        | [] => false
        | t :: us => !tokenRecognized first t || us.any (fun u => !tokenRecognized false u))
        = true →
      ∃ e, parseTokens first opts ts = .error e := by
  induction ts with
  | nil => intro first opts h; simp at h
  | cons t us ih =>
    intro first opts h
    simp only [Bool.or_eq_true, Bool.not_eq_true'] at h
    cases hr : tokenRecognized first t with
    | false =>
      exact ⟨.InvalidOptionError t, by simp [parseTokens, applyToken_error first opts t hr]⟩
    | true =>
      obtain ⟨o, ho⟩ := applyToken_ok first opts t hr
      simp only [parseTokens, ho]
      apply ih
      rcases h with h | h
      · rw [hr] at h; cases h
      · cases us with
        | nil => simp at h
        | cons u vs =>
          simpa using h

theorem parseOptions_error_of_unrecognized (options : Option String)
    (h : hasUnrecognizedToken options = true) : ∃ e, parseOptions options = .error e := by
  cases options with
  | none => simp [hasUnrecognizedToken] at h
  | some s =>
    unfold hasUnrecognizedToken at h
    unfold parseOptions
    by_cases hs : s = ""
    · simp [hs] at h
    · simp only [hs, ↓reduceIte] at h ⊢
      exact parseTokens_error_of_any _ true _ h

theorem compileFields_error_of_mem (fields : List StructField) (f : StructField)
    (hf : f ∈ fields) (herr : ∃ e, compileField f = .error e) :
    ∃ e, compileFields fields = .error e := by
  induction fields with
  | nil => cases hf
  | cons g gs ih =>
    unfold compileFields
    rcases List.mem_cons.mp hf with rfl | hmem
    · obtain ⟨e, he⟩ := herr
      exact ⟨e, by rw [he]⟩
    · obtain ⟨e, he⟩ := ih hmem
      cases hg : compileField g with
      | error e1 => exact ⟨e1, rfl⟩
      | ok d => exact ⟨e, by simp [he]⟩

theorem Register_fails_of_unrecognized (reg : Registry) (name : String) (decl : StructDecl)
    (f : StructField) (hf : f ∈ decl.fields) (hbad : hasUnrecognizedToken f.options = true) :
    ∃ e, RegisterName reg name decl = (reg, .error e) := by
  obtain ⟨e1, he1⟩ := parseOptions_error_of_unrecognized _ hbad
  have h2 : ∃ e, compileField f = .error e := ⟨e1, by simp [compileField, he1]⟩
  obtain ⟨e, he⟩ := compileFields_error_of_mem _ f hf h2
  exact ⟨e, by simp [RegisterName, compile, he]⟩

/-- C5: when some field of a struct type has an option string with a token
that is not a recognized option, `Register` returns an error, and a type
that had no entry in the registry still has none afterwards, in the name
table and in the type table. -/
theorem Register_invalid_option_leaves_no_entry (reg : Registry) (decl : StructDecl)
    (f : StructField) (hf : f ∈ decl.fields) (hbad : hasUnrecognizedToken f.options = true)
    (hfresh : ¬ reg.hasEntryFor decl.typ) :
    (∃ e, (Register reg decl).2 = .error e) ∧
    (Register reg decl).1.lookupByType decl.typ = none ∧
    ¬ (Register reg decl).1.hasEntryFor decl.typ := by
  obtain ⟨e, he⟩ := Register_fails_of_unrecognized reg decl.name decl f hf hbad
  unfold Register
  rw [he]
  refine ⟨⟨e, rfl⟩, ?_, hfresh⟩
  simp only
  cases hl : reg.lookupByType decl.typ with
  | none => rfl
  | some spec =>
    exfalso
    apply hfresh
    right
    unfold Registry.lookupByType at hl
    have hmem := mem_of_lookup_eq_some _ _ _ hl
    exact ⟨_, hmem, Or.inl rfl⟩

/-- The struct of `TestInvalidOptionThrowsError`, with the options
"index,poop", is rejected, and the empty registry stays empty. -/
theorem Register_invalid_option_witness :
    (∃ e, (Register Registry.empty invalidModel).2 = .error e) ∧
    (Register Registry.empty invalidModel).1.lookupByType invalidModel.typ = none ∧
    ¬ (Register Registry.empty invalidModel).1.hasEntryFor invalidModel.typ :=
  Register_invalid_option_leaves_no_entry Registry.empty invalidModel
    ⟨"Attr", .String, some "index,poop", false⟩ (by decide) (by decide)
    (by simp [Registry.hasEntryFor, Registry.empty])

/-! ### The walk over the fields -/

theorem compileField_some (g : StructField) (fs : fieldSpec)
    (h : compileField g = .ok (some fs)) :
    ∃ opts, parseOptions g.options = .ok opts ∧ g.isDefaultData = false ∧
      opts.exclude = false ∧ fs.name = g.name ∧ fs.redisName = opts.redisName.getD g.name ∧
      fs.fieldType = g.typ ∧ fs.kind = kindOfField g ∧
      (opts.index = false → fs.indexKind = .noIndex) := by
  cases hp : parseOptions g.options with
  | error e => simp [compileField, hp] at h
  | ok opts =>
    refine ⟨opts, rfl, ?_⟩
    cases hd : g.isDefaultData with
    | true => simp [compileField, hp, hd] at h
    | false =>
      cases hx : opts.exclude with
      | true => simp [compileField, hp, hd, hx] at h
      | false =>
        cases hi : opts.index with
        | false =>
          simp only [compileField, hp, hd, hx, hi, Bool.false_eq_true, ↓reduceIte,
            Except.ok.injEq, Option.some.injEq] at h
          subst h
          exact ⟨rfl, rfl, rfl, rfl, rfl, rfl, fun _ => rfl⟩
        | true =>
          by_cases hk : kindOfField g = .primativeField
          · cases hik : inferIndexKind g.typ with
            | error e => simp [compileField, hp, hd, hx, hi, hk, hik] at h
            | ok ik =>
              simp only [compileField, hp, hd, hx, hi, hk, hik, Bool.false_eq_true, ↓reduceIte,
                Except.ok.injEq, Option.some.injEq] at h
              subst h
              exact ⟨rfl, rfl, rfl, rfl, rfl, hk.symm, fun h => by cases h⟩
          · simp [compileField, hp, hd, hx, hi, hk] at h

theorem compileFields_mem (fields : List StructField) :
    ∀ out, compileFields fields = .ok out →
      ∀ fs ∈ out, ∃ g ∈ fields, compileField g = .ok (some fs) := by
  induction fields with
  | nil =>
    intro out h fs hfs
    simp only [compileFields] at h
    cases h
    cases hfs
  | cons g gs ih =>
    intro out h fs hfs
    unfold compileFields at h
    cases hg : compileField g with
    | error e => simp [hg] at h
    | ok d =>
      cases hr : compileFields gs with
      | error e => simp [hg, hr] at h
      | ok rest =>
        simp only [hg, hr] at h
        cases d with
        | none =>
          have hout : out = rest := by simpa using h.symm
          rw [hout] at hfs
          obtain ⟨g1, hg1, hc⟩ := ih rest hr fs hfs
          exact ⟨g1, List.mem_cons_of_mem _ hg1, hc⟩
        | some x =>
          have hout : out = x :: rest := by simpa using h.symm
          rw [hout] at hfs
          rcases List.mem_cons.mp hfs with rfl | hmem
          · exact ⟨g, List.mem_cons_self _ _, hg⟩
          · obtain ⟨g1, hg1, hc⟩ := ih rest hr fs hmem
            exact ⟨g1, List.mem_cons_of_mem _ hg1, hc⟩

theorem compileFields_complete (fields : List StructField) :
    ∀ out, compileFields fields = .ok out →
      ∀ g ∈ fields, ∃ d, compileField g = .ok d ∧ ∀ fs, d = some fs → fs ∈ out := by
  induction fields with
  | nil => intro out _ g hg; cases hg
  | cons g0 gs ih =>
    intro out h g hg
    unfold compileFields at h
    cases hg0 : compileField g0 with
    | error e => simp [hg0] at h
    | ok d =>
      cases hr : compileFields gs with
      | error e => simp [hg0, hr] at h
      | ok rest =>
        simp only [hg0, hr] at h
        have hsub : ∀ fs ∈ rest, fs ∈ out := by
          intro fs hfs
          cases d with
          | none =>
            have hout : out = rest := by simpa using h.symm
            rw [hout]; exact hfs
          | some x =>
            have hout : out = x :: rest := by simpa using h.symm
            rw [hout]; exact List.mem_cons_of_mem _ hfs
        rcases List.mem_cons.mp hg with rfl | hmem
        · refine ⟨d, hg0, ?_⟩
          intro fs hd
          subst hd
          have hout : out = fs :: rest := by simpa using h.symm
          rw [hout]
          exact List.mem_cons_self _ _
        · obtain ⟨d1, hd1, hall⟩ := ih rest hr g hmem
          exact ⟨d1, hd1, fun fs hfs => hsub fs (hall fs hfs)⟩

theorem firstDuplicate_none_iff (l : List String) : firstDuplicate l = none ↔ l.Nodup := by
  induction l with
  | nil => simp [firstDuplicate]
  | cons x xs ih =>
    unfold firstDuplicate
    by_cases hx : x ∈ xs
    · simp [hx]
    · simp [hx, ih]

theorem compile_ok (decl : StructDecl) (name : String) (spec : modelSpec)
    (h : compile decl name = .ok spec) :
    compileFields decl.fields = .ok spec.fields ∧ spec.typ = decl.typ ∧ spec.name = name ∧
    (spec.fields.map fieldSpec.redisName).Nodup := by
  unfold compile at h
  cases hc : compileFields decl.fields with
  | error e => simp [hc] at h
  | ok fields =>
    cases hd : firstDuplicate (fields.map fieldSpec.redisName) with
    | some n => simp [hc, hd] at h
    | none =>
      simp only [hc, hd, Except.ok.injEq] at h
      subst h
      exact ⟨rfl, rfl, rfl, (firstDuplicate_none_iff _).mp hd⟩

theorem RegisterName_ok (reg reg1 : Registry) (name : String) (decl : StructDecl)
    (spec : modelSpec) (h : RegisterName reg name decl = (reg1, .ok spec)) :
    compile decl name = .ok spec ∧ reg1.lookupByType decl.typ = some spec ∧
    reg1.lookupByName name = some spec := by
  unfold RegisterName at h
  cases hc : compile decl name with
  | error e => simp [hc] at h
  | ok spec1 =>
    obtain ⟨_, ht, hn, _⟩ := compile_ok decl name spec1 hc
    cases hr : reg.register spec1 with
    | error e => simp [hc, hr] at h
    | ok reg2 =>
      simp only [hc, hr, Prod.mk.injEq, Except.ok.injEq] at h
      obtain ⟨h1, h2⟩ := h
      subst h1 h2
      unfold Registry.register at hr
      split at hr
      · cases hr
      · cases hr
        refine ⟨rfl, ?_, ?_⟩
        · simp [Registry.lookupByType, List.lookup_cons, ht]
        · simp [Registry.lookupByName, List.lookup_cons, hn]

theorem fieldsByName_some (spec : modelSpec) (n : String) (fs : fieldSpec)
    (h : spec.fieldsByName n = some fs) : fs ∈ spec.fields ∧ fs.name = n := by
  unfold modelSpec.fieldsByName at h
  exact ⟨List.mem_of_find?_eq_some h, by simpa using List.find?_some h⟩

theorem field_eq_of_name (fields : List StructField)
    (hn : (fields.map StructField.name).Nodup) (f g : StructField) (hf : f ∈ fields)
    (hg : g ∈ fields) (h : g.name = f.name) : g = f :=
  List.inj_on_of_nodup_map hn hg hf h

/-! ### Option tokens -/

theorem applyToken_exclude (first : Bool) (opts o : fieldOptions) (t : String)
    (h : applyToken first opts t = .ok o) :
    o.exclude = (opts.exclude || decide (t = "-")) ∧
    (first = false → o.redisName = opts.redisName) ∧
    (first = true → t ≠ "-" → t ≠ "index" → o.redisName = some t) := by
  unfold applyToken at h
  by_cases h1 : t = "-"
  · simp only [h1, ↓reduceIte, Except.ok.injEq] at h
    subst h
    simp [h1]
  · by_cases h2 : t = "index"
    · simp only [h2, ↓reduceIte, Except.ok.injEq] at h
      have h3 : ¬ ("index" = "-") := by decide
      simp only [h3, ↓reduceIte, Except.ok.injEq] at h
      subst h
      simp [h2]
    · simp only [h1, h2, ↓reduceIte] at h
      split at h
      · rename_i h3
        simp only [Except.ok.injEq] at h
        subst h
        simp [h1, h3.1]
      · cases h

theorem parseTokens_exclude (ts : List String) :
    ∀ (first : Bool) (opts o : fieldOptions), parseTokens first opts ts = .ok o →
      o.exclude = (opts.exclude || decide ("-" ∈ ts)) ∧
      (first = false → o.redisName = opts.redisName) := by
  induction ts with
  | nil =>
    intro first opts o h
    simp only [parseTokens, Except.ok.injEq] at h
    subst h
    simp
  | cons t us ih =>
    intro first opts o h
    unfold parseTokens at h
    cases ha : applyToken first opts t with
    | error e => simp [ha] at h
    | ok o1 =>
      simp only [ha] at h
      obtain ⟨hx, hr, _⟩ := applyToken_exclude first opts o1 t ha
      obtain ⟨hx2, hr2⟩ := ih false o1 o h
      constructor
      · rw [hx2, hx]
        by_cases e1 : t = "-"
        · simp [e1]
        · have e2 : ¬ ("-" = t) := fun e => e1 e.symm
          simp [e1, e2]
      · intro hf
        rw [hr2 rfl, hr hf]

theorem parseOptions_exclude (s : String) (opts : fieldOptions)
    (h : parseOptions (some s) = .ok opts) (hm : "-" ∈ optionTokens s) : opts.exclude = true := by
  unfold parseOptions at h
  by_cases hs : s = ""
  · subst hs
    have hno : "-" ∉ optionTokens "" := by decide
    exact absurd hm hno
  · simp only [hs, ↓reduceIte] at h
    have := (parseTokens_exclude _ true _ _ h).1
    rw [this]
    simp [hm]

theorem parseOptions_rename (s n : String) (rest : List String) (opts : fieldOptions)
    (h : parseOptions (some s) = .ok opts) (ht : optionTokens s = n :: rest)
    (h1 : n ≠ "-") (h2 : n ≠ "index") (h3 : n ≠ "") (hrest : "-" ∉ rest) :
    opts.redisName = some n ∧ opts.exclude = false := by
  unfold parseOptions at h
  by_cases hs : s = ""
  · subst hs
    have : optionTokens "" = [""] := by decide
    rw [this] at ht
    simp only [List.cons.injEq] at ht
    exact absurd ht.1.symm h3
  · simp only [hs, ↓reduceIte, ht] at h
    unfold parseTokens at h
    cases ha : applyToken true fieldOptions.none n with
    | error e => simp [ha] at h
    | ok o1 =>
      simp only [ha] at h
      obtain ⟨hx, _, hr⟩ := applyToken_exclude true _ o1 n ha
      obtain ⟨hx2, hr2⟩ := parseTokens_exclude rest false o1 opts h
      constructor
      · rw [hr2 rfl, hr rfl h1 h2]
      · rw [hx2, hx]
        simp [fieldOptions.none, h1, hrest]

/-! ### The store -/

theorem lookup_hashEntries_none (codec : Codec) (spec : modelSpec) (r : Record) (n : String)
    (h : ∀ fs ∈ spec.fields, fs.redisName ≠ n) :
    (hashEntries codec spec r).lookup n = none := by
  unfold hashEntries
  generalize spec.fields = l at h
  induction l with
  | nil => rfl
  | cons fs rest ih =>
    have h1 : (n == fs.redisName) = false := by
      simpa using fun e => h fs (List.mem_cons_self _ _) e.symm
    simp only [List.map_cons, List.lookup_cons, h1]
    exact ih (fun g hg => h g (List.mem_cons_of_mem _ hg))

theorem lookup_map_of_nodup (codec : Codec) (r : Record) (l : List fieldSpec)
    (hn : (l.map fieldSpec.redisName).Nodup) (fs : fieldSpec) (hfs : fs ∈ l) :
    (l.map (fun g => (g.redisName, codec.encode (r.get g.name)))).lookup fs.redisName =
      some (codec.encode (r.get fs.name)) := by
  induction l with
  | nil => cases hfs
  | cons g rest ih =>
    simp only [List.map_cons, List.nodup_cons, List.mem_map, not_exists, not_and] at hn
    rcases List.mem_cons.mp hfs with rfl | hmem
    · simp [List.lookup_cons]
    · have h1 : (fs.redisName == g.redisName) = false := by
        simpa using fun e => hn.1 fs hmem e
      simp only [List.map_cons, List.lookup_cons, h1]
      exact ih hn.2 hmem

theorem lookup_hashEntries_some (codec : Codec) (spec : modelSpec) (r : Record)
    (hn : (spec.fields.map fieldSpec.redisName).Nodup) (fs : fieldSpec) (hfs : fs ∈ spec.fields) :
    (hashEntries codec spec r).lookup fs.redisName = some (codec.encode (r.get fs.name)) :=
  lookup_map_of_nodup codec r spec.fields hn fs hfs

theorem submit_index_only (batch : List Command) :
    ∀ s : Store, (∀ c ∈ batch, c.isIndex = true) →
      (s.submit batch).hashes = s.hashes ∧ (s.submit batch).sets = s.sets := by
  induction batch with
  | nil => intro s _; exact ⟨rfl, rfl⟩
  | cons c cs ih =>
    intro s h
    have hc := h c (List.mem_cons_self _ _)
    have hrest := ih (s.apply c) (fun d hd => h d (List.mem_cons_of_mem _ hd))
    simp only [Store.submit, List.foldl_cons] at hrest ⊢
    rw [hrest.1, hrest.2]
    cases c <;> simp [Command.isIndex] at hc <;> exact ⟨rfl, rfl⟩

theorem fieldIndexOps_isIndex (rank : GoValue → Float64) (codec : Codec) (m id : String)
    (old : Option (List (String × String))) (new : Record) (fs : fieldSpec) (ops : List Command)
    (h : fieldIndexOps rank codec m id old new fs = .ok ops) : ∀ c ∈ ops, c.isIndex = true := by
  unfold fieldIndexOps at h
  split at h
  · cases h; intro c hc; cases hc
  · split at h
    · cases h
    · split at h
      · cases h
        intro c hc
        simp only [List.mem_singleton] at hc
        subst hc; rfl
      · split at h
        · split at h
          · cases h; intro c hc; cases hc
          · cases h
            intro c hc
            simp only [List.mem_cons, List.mem_singleton, List.not_mem_nil, or_false] at hc
            rcases hc with rfl | rfl <;> rfl
        · cases h
          intro c hc
          simp only [List.mem_cons, List.mem_singleton, List.not_mem_nil, or_false] at hc
          rcases hc with rfl | rfl <;> rfl

theorem diffFields_isIndex (rank : GoValue → Float64) (codec : Codec) (m id : String)
    (old : Option (List (String × String))) (new : Record) (fields : List fieldSpec) :
    ∀ ops, diffFields rank codec m id old new fields = .ok ops →
      ∀ c ∈ ops, c.isIndex = true := by
  induction fields with
  | nil =>
    intro ops h c hc
    simp only [diffFields, Except.ok.injEq] at h
    subst h
    cases hc
  | cons fs rest ih =>
    intro ops h c hc
    unfold diffFields at h
    cases h1 : fieldIndexOps rank codec m id old new fs with
    | error p => simp [h1] at h
    | ok ops1 =>
      cases h2 : diffFields rank codec m id old new rest with
      | error p => simp [h1, h2] at h
      | ok more =>
        simp only [h1, h2, Except.ok.injEq] at h
        subst h
        rcases List.mem_append.mp hc with hc | hc
        · exact fieldIndexOps_isIndex rank codec m id old new fs ops1 h1 c hc
        · exact ih more h2 c hc

theorem Save_ok (reg : Registry) (codec : Codec) (rank : GoValue → Float64) (store s1 : Store)
    (fresh : String) (record r1 : Record) (spec : modelSpec)
    (hl : reg.lookupByType record.typ = some spec)
    (h : Save reg codec rank store fresh record = .ok (s1, r1)) :
    r1 = assignId record fresh ∧
    ∃ ops, diffFields rank codec spec.name r1.Id (store.hashes (primaryKey spec.name r1.Id)) r1
        spec.fields = .ok ops ∧
      s1 = store.submit (Command.hashWrite (primaryKey spec.name r1.Id) (hashEntries codec spec r1)
        :: Command.setAdd (allIdsKey spec.name) r1.Id :: ops) := by
  unfold Save at h
  simp only [hl] at h
  cases hd : diffFields rank codec spec.name (assignId record fresh).Id
      (store.hashes (primaryKey spec.name (assignId record fresh).Id)) (assignId record fresh)
      spec.fields with
  | error p => simp [hd] at h
  | ok ops =>
    simp only [hd, Except.ok.injEq, Prod.mk.injEq] at h
    obtain ⟨h1, h2⟩ := h
    subst h2
    exact ⟨rfl, ops, hd, h1.symm⟩

theorem Save_hash (reg : Registry) (codec : Codec) (rank : GoValue → Float64) (store s1 : Store)
    (fresh : String) (record r1 : Record) (spec : modelSpec)
    (hl : reg.lookupByType record.typ = some spec)
    (h : Save reg codec rank store fresh record = .ok (s1, r1)) :
    r1 = assignId record fresh ∧
    s1.hashes (primaryKey spec.name r1.Id) = some (hashEntries codec spec r1) := by
  obtain ⟨hr, ops, hd, hs⟩ := Save_ok reg codec rank store s1 fresh record r1 spec hl h
  refine ⟨hr, ?_⟩
  rw [hs]
  have hidx := diffFields_isIndex rank codec _ _ _ _ _ ops hd
  simp only [Store.submit, List.foldl_cons]
  have := (submit_index_only ops (( store.apply (Command.hashWrite (primaryKey spec.name r1.Id)
    (hashEntries codec spec r1))).apply (Command.setAdd (allIdsKey spec.name) r1.Id)) hidx).1
  simp only [Store.submit] at this
  rw [this]
  simp [Store.apply]

/-! ## Theorems: exclusion, renaming and plain registration -/

theorem kindOfField_of_primative (f : StructField) (h : typeIsPrimative f.typ = .ok true) :
    kindOfField f = .primativeField := by
  obtain ⟨name, typ, options, anonymous⟩ := f
  simp only at h
  cases typ <;>
    simp_all [typeIsPrimative, typeIsString, typeIsNumeric, typeIsBool, kindOfField, GoType.kind,
      GoType.elem, typeIsPointerToStruct, typeIsSliceOrArray, bind, Except.bind, pure, Except.pure]

theorem compileField_plain (f : StructField) (h : f.options = none) :
    compileField f = .ok (if f.isDefaultData then none
      else some ⟨kindOfField f, f.name, f.name, f.typ, .noIndex⟩) := by
  unfold compileField
  rw [h]
  simp only [parseOptions, fieldOptions.none]
  cases f.isDefaultData <;> simp

theorem compileFields_plain (fields : List StructField) (h : ∀ f ∈ fields, f.options = none) :
    compileFields fields = .ok ((fields.filter (fun f => !f.isDefaultData)).map
      (fun f => ⟨kindOfField f, f.name, f.name, f.typ, .noIndex⟩)) := by
  induction fields with
  | nil => rfl
  | cons f fs ih =>
    unfold compileFields
    rw [compileField_plain f (h f (List.mem_cons_self _ _)),
      ih (fun g hg => h g (List.mem_cons_of_mem _ hg))]
    cases hd : f.isDefaultData <;> simp [hd]

theorem nodup_filter_map_name (fields : List StructField)
    (hn : (fields.map StructField.name).Nodup) (p : StructField → Bool) :
    (((fields.filter p).map
      (fun f => (⟨kindOfField f, f.name, f.name, f.typ, .noIndex⟩ : fieldSpec))).map
      fieldSpec.redisName).Nodup := by
  rw [List.map_map]
  have : (fieldSpec.redisName ∘ fun f : StructField =>
      (⟨kindOfField f, f.name, f.name, f.typ, .noIndex⟩ : fieldSpec)) = StructField.name := by
    funext f; rfl
  rw [this]
  exact List.Nodup.sublist (List.Sublist.map _ (List.filter_sublist _)) hn

/-- C8, as stated, fails: a second `Register` of `regTestModel` is an error, and
the field `Friends` of `Friend` (a slice of records, no options) is compiled
to a descriptor of kind slice-of-records, not primitive. -/
theorem Register_twice_or_relation_field :
    (Register (Register Registry.empty regTestModel).1 regTestModel).2 =
      .error .AlreadyRegisteredError ∧
    ∃ spec fs, (Register Registry.empty friendModel).2 = .ok spec ∧
      spec.fieldsByName "Friends" = some fs ∧ fs.kind = .sliceOfRecords := by
  refine ⟨by decide, _, _, rfl, rfl, rfl⟩

/-- C8, amended: for a struct type whose fields carry no options, with distinct
field names and no embedded field but default-data blocks, and while neither
the name nor the type is registered, `RegisterName` succeeds with a model of
the given name (`Register`: the name of the struct), records the spec in
both tables under the pointer-to-struct type, and compiles one descriptor
per non-embedded field, with `redisName` equal to the declared name, index
kind none, and kind primitive when the type of the field is primitive. -/
theorem RegisterName_plain_struct (reg : Registry) (name : String) (decl : StructDecl)
    (hopt : ∀ f ∈ decl.fields, f.options = none)
    (hnames : (decl.fields.map StructField.name).Nodup)
    (hemb : ∀ f ∈ decl.fields, f.anonymous = true → f.isDefaultData = true)
    (hn : reg.lookupByName name = none) (ht : reg.lookupByType decl.typ = none) :
    Register reg decl = RegisterName reg decl.name decl ∧
    ∃ reg1 spec, RegisterName reg name decl = (reg1, .ok spec) ∧
      spec.name = name ∧ spec.typ = decl.typ ∧
      reg1.lookupByName name = some spec ∧ reg1.lookupByType decl.typ = some spec ∧
      spec.fields = (decl.fields.filter (fun f => !f.anonymous)).map
        (fun f => ⟨kindOfField f, f.name, f.name, f.typ, .noIndex⟩) ∧
      ∀ fs ∈ spec.fields, fs.redisName = fs.name ∧ fs.indexKind = .noIndex ∧
        (typeIsPrimative fs.fieldType = .ok true → fs.kind = .primativeField) := by
  refine ⟨rfl, ?_⟩
  have hfilter : decl.fields.filter (fun f => !f.isDefaultData) =
      decl.fields.filter (fun f => !f.anonymous) := by
    apply List.filter_congr
    intro f hf
    cases ha : f.anonymous with
    | true => simp [hemb f hf ha]
    | false => simp [StructField.isDefaultData, ha]
  have hc := compileFields_plain decl.fields hopt
  have hnd := nodup_filter_map_name decl.fields hnames (fun f => !f.isDefaultData)
  have hdup := (firstDuplicate_none_iff _).mpr hnd
  have hcomp : compile decl name = .ok ⟨decl.typ, name,
      (decl.fields.filter (fun f => !f.isDefaultData)).map
        (fun f => ⟨kindOfField f, f.name, f.name, f.typ, .noIndex⟩)⟩ := by
    simp only [compile, hc, hdup]
  have hregister : RegisterName reg name decl =
      (⟨(name, ⟨decl.typ, name, (decl.fields.filter (fun f => !f.isDefaultData)).map
          (fun f => ⟨kindOfField f, f.name, f.name, f.typ, .noIndex⟩)⟩) :: reg.modelNameToSpec,
        (decl.typ, ⟨decl.typ, name, (decl.fields.filter (fun f => !f.isDefaultData)).map
          (fun f => ⟨kindOfField f, f.name, f.name, f.typ, .noIndex⟩)⟩) :: reg.modelTypeToSpec⟩,
       .ok ⟨decl.typ, name, (decl.fields.filter (fun f => !f.isDefaultData)).map
          (fun f => ⟨kindOfField f, f.name, f.name, f.typ, .noIndex⟩)⟩) := by
    simp [RegisterName, hcomp, Registry.register, hn, ht]
  refine ⟨_, _, hregister, rfl, rfl,
    by simp [Registry.lookupByName, List.lookup_cons],
    by simp [Registry.lookupByType, List.lookup_cons], by rw [hfilter], ?_⟩
  intro fs hfs
  simp only [List.mem_map, List.mem_filter] at hfs
  obtain ⟨f, ⟨_, _⟩, rfl⟩ := hfs
  exact ⟨rfl, rfl, fun h => kindOfField_of_primative f h⟩

/-- The struct `regTestModel` is registered with its three fields `Int`,
`Bool` and `String`. -/
theorem RegisterName_plain_struct_witness :
    Register Registry.empty regTestModel =
      RegisterName Registry.empty regTestModel.name regTestModel ∧
    ∃ reg1 spec, RegisterName Registry.empty "regTestModel" regTestModel = (reg1, .ok spec) ∧
      spec.name = "regTestModel" ∧ spec.typ = regTestModel.typ ∧
      reg1.lookupByName "regTestModel" = some spec ∧
      reg1.lookupByType regTestModel.typ = some spec ∧
      spec.fields = (regTestModel.fields.filter (fun f => !f.anonymous)).map
        (fun f => ⟨kindOfField f, f.name, f.name, f.typ, .noIndex⟩) ∧
      ∀ fs ∈ spec.fields, fs.redisName = fs.name ∧ fs.indexKind = .noIndex ∧
        (typeIsPrimative fs.fieldType = .ok true → fs.kind = .primativeField) :=
  RegisterName_plain_struct Registry.empty "regTestModel" regTestModel (by decide) (by decide)
    (by decide) rfl rfl

/-- C6, as stated, fails: when another field is stored under the external name
"Attr", the primary hash has an entry under the name of the excluded field
`Attr`. -/
theorem excluded_name_taken_by_renamed_field :
    ∃ reg spec s r1 h,
      Register Registry.empty shadowedIgnoredModel = (reg, .ok spec) ∧
      Save reg sampleCodec sampleRank Store.empty "id1"
        ⟨shadowedIgnoredModel.typ, "", [("Attr", .str "this should be ignored"),
          ("Other", .str "kept")]⟩ = .ok (s, r1) ∧
      s.hashes (primaryKey spec.name r1.Id) = some h ∧ h.lookup "Attr" = some "kept" :=
  ⟨_, _, _, _, _, rfl, rfl, rfl, rfl⟩

/-- C6, amended: a field declared with the exclude option has no entry in
`fieldsByName` of the compiled spec, and after `Save` of any instance the
primary hash of the record has no entry under the name of that field,
provided no stored field has that name as its external name. -/
theorem excluded_field_absent (reg reg1 : Registry) (name : String) (decl : StructDecl)
    (spec : modelSpec) (f : StructField) (s : String)
    (hnames : (decl.fields.map StructField.name).Nodup)
    (hreg : RegisterName reg name decl = (reg1, .ok spec)) (hf : f ∈ decl.fields)
    (hopt : f.options = some s) (hex : "-" ∈ optionTokens s) :
    spec.fieldsByName f.name = none ∧
    ∀ (codec : Codec) (rank : GoValue → Float64) (store s1 : Store) (fresh : String)
      (r r1 : Record), r.typ = decl.typ →
      Save reg1 codec rank store fresh r = .ok (s1, r1) →
      (∀ fs ∈ spec.fields, fs.redisName ≠ f.name) →
      ∃ h, s1.hashes (primaryKey spec.name r1.Id) = some h ∧ h.lookup f.name = none := by
  obtain ⟨hcomp, hlt, _⟩ := RegisterName_ok reg reg1 name decl spec hreg
  obtain ⟨hfields, _, _, _⟩ := compile_ok decl name spec hcomp
  constructor
  · cases hfb : spec.fieldsByName f.name with
    | none => rfl
    | some fs =>
      exfalso
      obtain ⟨hmem, hname⟩ := fieldsByName_some spec f.name fs hfb
      obtain ⟨g, hg, hcg⟩ := compileFields_mem decl.fields spec.fields hfields fs hmem
      obtain ⟨opts, hp, _, hx, hgn, _⟩ := compileField_some g fs hcg
      have hgf : g = f := field_eq_of_name decl.fields hnames f g hf hg (by rw [← hgn, hname])
      subst hgf
      rw [hopt] at hp
      have := parseOptions_exclude s opts hp hex
      rw [this] at hx
      cases hx
  · intro codec rank store s1 fresh r r1 hty hsave hno
    have hl : reg1.lookupByType r.typ = some spec := by rw [hty]; exact hlt
    obtain ⟨_, hh⟩ := Save_hash reg1 codec rank store s1 fresh r r1 spec hl hsave
    exact ⟨_, hh, lookup_hashEntries_none codec spec r1 f.name hno⟩

/-- The struct `ignoredFieldModel` of the tests: no descriptor for `Attr`, and
no hash entry under "Attr" after a record with a non-empty `Attr` is saved. -/
theorem excluded_field_absent_witness :
    (⟨ignoredFieldModel.typ, "ignoredFieldModel", []⟩ : modelSpec).fieldsByName "Attr" = none ∧
    ∃ h, (Store.empty.submit [Command.hashWrite "ignoredFieldModel:id1" [],
        Command.setAdd "ignoredFieldModel:all" "id1"]).hashes
        (primaryKey "ignoredFieldModel" "id1") = some h ∧ h.lookup "Attr" = none :=
  ⟨(excluded_field_absent Registry.empty (Register Registry.empty ignoredFieldModel).1
      "ignoredFieldModel" ignoredFieldModel ⟨ignoredFieldModel.typ, "ignoredFieldModel", []⟩
      ⟨"Attr", .String, some "-", false⟩ "-" (by decide) (by decide) (by decide) rfl
      (by decide)).1,
   (excluded_field_absent Registry.empty (Register Registry.empty ignoredFieldModel).1
      "ignoredFieldModel" ignoredFieldModel ⟨ignoredFieldModel.typ, "ignoredFieldModel", []⟩
      ⟨"Attr", .String, some "-", false⟩ "-" (by decide) (by decide) (by decide) rfl
      (by decide)).2 sampleCodec sampleRank Store.empty _ "id1"
      ⟨ignoredFieldModel.typ, "", [("Attr", .str "this should be ignored")]⟩
      ⟨ignoredFieldModel.typ, "id1", [("Attr", .str "this should be ignored")]⟩ rfl rfl
      (by decide)⟩

theorem compileField_ok_some (f : StructField) (d : Option fieldSpec) (opts : fieldOptions)
    (h : compileField f = .ok d) (hp : parseOptions f.options = .ok opts)
    (hd : f.isDefaultData = false) (hx : opts.exclude = false) :
    ∃ fs, d = some fs ∧ fs.name = f.name ∧ fs.redisName = opts.redisName.getD f.name := by
  cases hi : opts.index with
  | false =>
    simp only [compileField, hp, hd, hx, hi, Bool.false_eq_true, ↓reduceIte,
      Except.ok.injEq] at h
    exact ⟨_, h.symm, rfl, rfl⟩
  | true =>
    by_cases hk : kindOfField f = .primativeField
    · cases hik : inferIndexKind f.typ with
      | error e => simp [compileField, hp, hd, hx, hi, hk, hik] at h
      | ok ik =>
        simp only [compileField, hp, hd, hx, hi, hk, hik, Bool.false_eq_true, ↓reduceIte,
          Except.ok.injEq] at h
        exact ⟨_, h.symm, rfl, rfl⟩
    · simp [compileField, hp, hd, hx, hi, hk] at h

theorem compileField_parse_ok (f : StructField) (d : Option fieldSpec)
    (h : compileField f = .ok d) : ∃ opts, parseOptions f.options = .ok opts := by
  cases hp : parseOptions f.options with
  | error e => simp [compileField, hp] at h
  | ok opts => exact ⟨opts, rfl⟩

/-- C7, as stated, fails: when another field is stored under the external name
"Attr", the primary hash has an entry under the declared name of the renamed
field `Attr`, here even with the value of `Attr`. -/
theorem declared_name_taken_by_renamed_field :
    ∃ reg spec s r1 h,
      Register Registry.empty shadowedCustomModel = (reg, .ok spec) ∧
      Save reg sampleCodec sampleRank Store.empty "id1"
        ⟨shadowedCustomModel.typ, "", [("Attr", .str "test"), ("Other", .str "test")]⟩
        = .ok (s, r1) ∧
      s.hashes (primaryKey spec.name r1.Id) = some h ∧
      h.lookup "Attr" = some (sampleCodec.encode (r1.get "Attr")) :=
  ⟨_, _, _, _, _, rfl, rfl, rfl, rfl⟩

/-- C7, amended: a field declared with a custom external name `n` has a
descriptor in `fieldsByName` under its declared name with `redisName = n`,
after `Save` its value is stored in the primary hash under `n`, and the hash
has no entry under the declared name provided no stored field has the
declared name as its external name. -/
theorem renamed_field_stored_under_redisName (reg reg1 : Registry) (name : String)
    (decl : StructDecl) (spec : modelSpec) (f : StructField) (s n : String) (rest : List String)
    (hnames : (decl.fields.map StructField.name).Nodup)
    (hreg : RegisterName reg name decl = (reg1, .ok spec)) (hf : f ∈ decl.fields)
    (hnd : f.isDefaultData = false)
    (hopt : f.options = some s) (htok : optionTokens s = n :: rest)
    (h1 : n ≠ "-") (h2 : n ≠ "index") (h3 : n ≠ "") (hrest : "-" ∉ rest) :
    (∃ fs, spec.fieldsByName f.name = some fs ∧ fs.redisName = n) ∧
    ∀ (codec : Codec) (rank : GoValue → Float64) (store s1 : Store) (fresh : String)
      (r r1 : Record), r.typ = decl.typ →
      Save reg1 codec rank store fresh r = .ok (s1, r1) →
      ∃ h, s1.hashes (primaryKey spec.name r1.Id) = some h ∧
        h.lookup n = some (codec.encode (r1.get f.name)) ∧
        ((∀ fs ∈ spec.fields, fs.redisName ≠ f.name) → h.lookup f.name = none) := by
  obtain ⟨hcomp, hlt, _⟩ := RegisterName_ok reg reg1 name decl spec hreg
  obtain ⟨hfields, _, _, hnodup⟩ := compile_ok decl name spec hcomp
  obtain ⟨d, hd, hdmem⟩ := compileFields_complete decl.fields spec.fields hfields f hf
  obtain ⟨opts, hp⟩ := compileField_parse_ok f d hd
  have hp2 := hp
  rw [hopt] at hp2
  obtain ⟨hrn, hxf⟩ := parseOptions_rename s n rest opts hp2 htok h1 h2 h3 hrest
  obtain ⟨fs, hdfs, hfsname, hfsredis⟩ := compileField_ok_some f d opts hd hp hnd hxf
  have hfsmem : fs ∈ spec.fields := hdmem fs hdfs
  have hfsn : fs.redisName = n := by rw [hfsredis, hrn]; rfl
  have hby : spec.fieldsByName f.name = some fs := by
    cases hfb : spec.fieldsByName f.name with
    | none =>
      exfalso
      unfold modelSpec.fieldsByName at hfb
      have := List.find?_eq_none.mp hfb fs hfsmem
      simp [hfsname] at this
    | some fs1 =>
      obtain ⟨hmem1, hname1⟩ := fieldsByName_some spec f.name fs1 hfb
      obtain ⟨g, hg, hcg⟩ := compileFields_mem decl.fields spec.fields hfields fs1 hmem1
      obtain ⟨_, _, _, _, hgn, _⟩ := compileField_some g fs1 hcg
      have hgf : g = f := field_eq_of_name decl.fields hnames f g hf hg (by rw [← hgn, hname1])
      subst hgf
      rw [hd, hdfs] at hcg
      simp only [Except.ok.injEq, Option.some.injEq] at hcg
      rw [hcg]
  refine ⟨⟨fs, hby, hfsn⟩, ?_⟩
  intro codec rank store s1 fresh r r1 hty hsave
  have hl : reg1.lookupByType r.typ = some spec := by rw [hty]; exact hlt
  obtain ⟨_, hh⟩ := Save_hash reg1 codec rank store s1 fresh r r1 spec hl hsave
  refine ⟨_, hh, ?_, fun hno => lookup_hashEntries_none codec spec r1 f.name hno⟩
  have := lookup_hashEntries_some codec spec r1 hnodup fs hfsmem
  rw [hfsn, hfsname] at this
  exact this

/-- The struct `customFieldModel` of the tests: after a record with
`Attr = "test"` is saved, "test" is stored under "a" and nothing under "Attr". -/
theorem renamed_field_stored_under_redisName_witness :
    (∃ fs, (⟨customFieldModel.typ, "customFieldModel",
        [⟨.primativeField, "Attr", "a", .String, .noIndex⟩]⟩ : modelSpec).fieldsByName "Attr"
        = some fs ∧ fs.redisName = "a") ∧
    ∃ h, (Store.empty.submit [Command.hashWrite "customFieldModel:id1" [("a", "test")],
        Command.setAdd "customFieldModel:all" "id1"]).hashes
        (primaryKey "customFieldModel" "id1") = some h ∧
      h.lookup "a" = some "test" ∧ h.lookup "Attr" = none :=
  ⟨(renamed_field_stored_under_redisName Registry.empty
      (Register Registry.empty customFieldModel).1 "customFieldModel" customFieldModel
      ⟨customFieldModel.typ, "customFieldModel",
        [⟨.primativeField, "Attr", "a", .String, .noIndex⟩]⟩
      ⟨"Attr", .String, some "a", false⟩ "a" "a" [] (by decide) (by decide) (by decide)
      (by decide) rfl (by decide) (by decide) (by decide) (by decide) (by decide)).1,
   by
    obtain ⟨h, h1, h2, h3⟩ := (renamed_field_stored_under_redisName Registry.empty
      (Register Registry.empty customFieldModel).1 "customFieldModel" customFieldModel
      ⟨customFieldModel.typ, "customFieldModel",
        [⟨.primativeField, "Attr", "a", .String, .noIndex⟩]⟩
      ⟨"Attr", .String, some "a", false⟩ "a" "a" [] (by decide) (by decide) (by decide)
      (by decide) rfl (by decide) (by decide) (by decide) (by decide) (by decide)).2
      sampleCodec sampleRank Store.empty _ "id1"
      ⟨customFieldModel.typ, "", [("Attr", .str "test")]⟩
      ⟨customFieldModel.typ, "id1", [("Attr", .str "test")]⟩ rfl rfl
    exact ⟨h, h1, h2, h3 (by decide)⟩⟩

/-! ## Theorems: the string representation of scalar values -/

theorem digitValue_digitChar (d : Nat) (h : d < 10) : digitValue (Nat.digitChar d) = some d := by
  interval_cases d <;> decide

theorem parseNat_toDigitsCore (fuel : Nat) : ∀ (n : Nat) (ds : List Char), n < fuel →
    parseNat (Nat.toDigitsCore 10 fuel n ds) 0 = parseNat ds n := by
  induction fuel with
  | zero => intro n ds h; omega
  | succ f ih =>
    intro n ds h
    unfold Nat.toDigitsCore
    simp only
    have hd : digitValue (Nat.digitChar (n % 10)) = some (n % 10) :=
      digitValue_digitChar _ (Nat.mod_lt _ (by decide))
    by_cases h0 : n / 10 = 0
    · simp only [h0, ↓reduceIte, parseNat, hd]
      have : n % 10 = n := by omega
      simp [this]
    · simp only [h0, ↓reduceIte]
      rw [ih (n / 10) _ (by omega)]
      simp only [parseNat, hd]
      congr 1
      omega

theorem parseNat_repr (n : Nat) : parseNat (toString n).data 0 = some n := by
  show parseNat (Nat.toDigits 10 n).asString.data 0 = some n
  simp only [List.asString, Nat.toDigits]
  rw [parseNat_toDigitsCore (n + 1) n [] (by omega)]
  rfl

theorem toDigitsCore_ne_nil (fuel : Nat) : ∀ (n : Nat) (ds : List Char), 0 < fuel →
    Nat.toDigitsCore 10 fuel n ds ≠ [] := by
  induction fuel with
  | zero => intro n ds h; omega
  | succ f ih =>
    intro n ds _
    unfold Nat.toDigitsCore
    simp only
    by_cases h0 : n / 10 = 0
    · simp [h0]
    · simp only [h0, ↓reduceIte]
      cases f with
      | zero => simp [Nat.toDigitsCore]
      | succ g => exact ih _ _ (by omega)

theorem repr_ne_nil (n : Nat) : (toString n).data ≠ [] := by
  show (Nat.toDigits 10 n).asString.data ≠ []
  simp only [List.asString, Nat.toDigits]
  exact toDigitsCore_ne_nil (n + 1) n [] (by omega)

theorem parseNat_isSome_digits (cs : List Char) : ∀ (acc m : Nat), parseNat cs acc = some m →
    ∀ c ∈ cs, (digitValue c).isSome = true := by
  induction cs with
  | nil => intro _ _ _ c hc; cases hc
  | cons d ds ih =>
    intro acc m h c hc
    unfold parseNat at h
    cases hd : digitValue d with
    | none => simp [hd] at h
    | some x =>
      simp only [hd] at h
      rcases List.mem_cons.mp hc with rfl | hmem
      · simp [hd]
      · exact ih _ _ h c hmem

theorem repr_digits (n : Nat) : ∀ c ∈ (toString n).data, (digitValue c).isSome = true :=
  parseNat_isSome_digits _ 0 n (parseNat_repr n)

theorem parseUint_repr (n : Nat) : parseUint (toString n) = some n := by
  unfold parseUint
  simp only [repr_ne_nil n, ↓reduceIte]
  exact parseNat_repr n

theorem parseInt_of_digits (cs : List Char) (n : Nat) (hne : cs ≠ [])
    (h : parseNat cs 0 = some n) : parseInt (String.mk cs) = some (n : Int) := by
  unfold parseInt
  cases cs with
  | nil => exact absurd rfl hne
  | cons c rest =>
    have hc := parseNat_isSome_digits _ 0 n h c (List.mem_cons_self _ _)
    have hcne : c ≠ '-' := by
      intro e
      subst e
      revert hc
      decide
    simp only
    split
    · rename_i heq
      cases heq
    · rename_i c2 cs2 heq
      simp only [List.cons.injEq] at heq
      exact absurd heq.1 hcne
    · rename_i cs3 _ _
      simp [h]

theorem toString_int_ofNat (n : Nat) : toString (Int.ofNat n) = toString n := rfl

theorem toString_int_negSucc (n : Nat) :
    toString (Int.negSucc n) = "-" ++ toString (n + 1) := rfl

theorem parseInt_repr (n : Int) : parseInt (toString n) = some n := by
  cases n with
  | ofNat m =>
    rw [toString_int_ofNat]
    have := parseInt_of_digits (toString m).data m (repr_ne_nil m) (parseNat_repr m)
    simpa using this
  | negSucc m =>
    rw [toString_int_negSucc]
    unfold parseInt
    have hd : ("-" ++ toString (m + 1)).data = '-' :: (toString (m + 1)).data := by
      simp [String.data_append]
    rw [hd]
    simp only [repr_ne_nil (m + 1), ↓reduceIte, parseNat_repr, Option.map_some']
    rfl

theorem splitSlash_append (a b : List Char) (h : ∀ c ∈ a, c ≠ '/') :
    splitSlash (a ++ '/' :: b) = some (a, b) := by
  induction a with
  | nil => simp [splitSlash]
  | cons c cs ih =>
    have hc : c ≠ '/' := h c (List.mem_cons_self _ _)
    have ih2 := ih (fun d hd => h d (List.mem_cons_of_mem _ hd))
    have ih3 : splitSlash (cs.append ('/' :: b)) = some (cs, b) := ih2
    simp only [List.cons_append, splitSlash, hc, ↓reduceIte, ih3]

theorem int_repr_no_slash (n : Int) : ∀ c ∈ (toString n).data, c ≠ '/' := by
  have hdig : ∀ (m : Nat), ∀ c ∈ (toString m).data, c ≠ '/' := by
    intro m c hc e
    subst e
    have := repr_digits m _ hc
    revert this
    decide
  cases n with
  | ofNat m => rw [toString_int_ofNat]; exact hdig m
  | negSucc m =>
    rw [toString_int_negSucc]
    intro c hc
    simp only [String.data_append, List.mem_append] at hc
    rcases hc with hc | hc
    · have : c = '-' := by simpa using hc
      subst this
      decide
    · exact hdig _ c hc

theorem parseFraction_repr (x : ℚ) :
    parseFraction (toString x.num ++ "/" ++ toString x.den) = some x := by
  unfold parseFraction
  have hd : (toString x.num ++ "/" ++ toString x.den).data =
      (toString x.num).data ++ '/' :: (toString x.den).data := by
    simp [String.data_append]
  rw [hd, splitSlash_append _ _ (int_repr_no_slash x.num)]
  have e1 : (String.mk (toString x.num).data) = toString x.num := rfl
  have e2 : (String.mk (toString x.den).data) = toString x.den := rfl
  simp only [e1, e2, parseInt_repr, parseUint_repr, x.den_nz, ↓reduceIte, Rat.mkRat_self]

theorem typeOf_scalar_cases (t : GoType) (v : GoValue) (ht : v.typeOf = some t)
    (hs : typeIsScalar t = true) :
    (∃ b, v = .bool b) ∨ (∃ k n, v = .int k n) ∨ (∃ k n, v = .uint k n) ∨
    (∃ k x, v = .float k x) ∨ (∃ s, v = .str s) := by
  cases v with
  | bool b => exact Or.inl ⟨b, rfl⟩
  | int k n => exact Or.inr (Or.inl ⟨k, n, rfl⟩)
  | uint k n => exact Or.inr (Or.inr (Or.inl ⟨k, n, rfl⟩))
  | float k x => exact Or.inr (Or.inr (Or.inr (Or.inl ⟨k, x, rfl⟩)))
  | str s => exact Or.inr (Or.inr (Or.inr (Or.inr ⟨s, rfl⟩)))
  | invalid => simp [GoValue.typeOf] at ht
  | ptr t0 =>
    simp only [GoValue.typeOf] at ht
    cases h0 : t0.typeOf with
    | none => simp [h0] at ht
    | some e =>
      simp only [h0, Option.map_some', Option.some.injEq] at ht
      subst ht
      exfalso; revert hs; simp [typeIsScalar, typeIsNumeric, typeIsBool, GoType.kind]
  | nilPtr e =>
    simp only [GoValue.typeOf, Option.some.injEq] at ht
    subst ht
    exfalso; revert hs; simp [typeIsScalar, typeIsNumeric, typeIsBool, GoType.kind]
  | slice e xs =>
    simp only [GoValue.typeOf, Option.some.injEq] at ht
    subst ht
    exfalso; revert hs; simp [typeIsScalar, typeIsNumeric, typeIsBool, GoType.kind]
  | array e xs =>
    simp only [GoValue.typeOf, Option.some.injEq] at ht
    subst ht
    exfalso; revert hs; simp [typeIsScalar, typeIsNumeric, typeIsBool, GoType.kind]
  | map k e es =>
    simp only [GoValue.typeOf, Option.some.injEq] at ht
    subst ht
    exfalso; revert hs; simp [typeIsScalar, typeIsNumeric, typeIsBool, GoType.kind]
  | chan e q =>
    simp only [GoValue.typeOf, Option.some.injEq] at ht
    subst ht
    exfalso; revert hs; simp [typeIsScalar, typeIsNumeric, typeIsBool, GoType.kind]
  | struct n fs =>
    simp only [GoValue.typeOf, Option.some.injEq] at ht
    subst ht
    exfalso; revert hs; simp [typeIsScalar, typeIsNumeric, typeIsBool, GoType.kind]

theorem decodeNatural_scalar (t : GoType) (s : String) (w : GoValue)
    (h : decodeNatural t s = some w) : typeIsScalar t = true := by
  cases t <;> first | rfl | (simp [decodeNatural] at h)

/-- A scalar value is coerced back to itself from its natural string
representation. -/
theorem decode_encodeNatural (t : GoType) (v : GoValue) (ht : v.typeOf = some t)
    (hs : typeIsScalar t = true) : decodeNatural t (encodeNatural v) = some v := by
  rcases typeOf_scalar_cases t v ht hs with ⟨b, rfl⟩ | ⟨k, n, rfl⟩ | ⟨k, n, rfl⟩ |
    ⟨k, x, rfl⟩ | ⟨s, rfl⟩
  · simp only [GoValue.typeOf, Option.some.injEq] at ht
    subst ht
    cases b <;> simp [decodeNatural, encodeNatural]
  · simp only [GoValue.typeOf, Option.some.injEq] at ht
    subst ht
    cases k <;> simp [decodeNatural, encodeNatural, IntKind.toType, parseInt_repr]
  · simp only [GoValue.typeOf, Option.some.injEq] at ht
    subst ht
    cases k <;> first
      | (exfalso; revert hs; simp [typeIsScalar, typeIsNumeric, typeIsBool, GoType.kind,
          UintKind.toType]; done)
      | simp [decodeNatural, encodeNatural, UintKind.toType, parseUint_repr]
  · simp only [GoValue.typeOf, Option.some.injEq] at ht
    subst ht
    cases k <;> simp [decodeNatural, encodeNatural, FloatKind.toType, parseFraction_repr]
  · simp only [GoValue.typeOf, Option.some.injEq] at ht
    subst ht
    simp [decodeNatural, encodeNatural]

theorem decodeNatural_typed (t : GoType) (v w : GoValue) (ht : v.typeOf = some t)
    (h : decodeNatural t (encodeNatural v) = some w) : w = v := by
  have hs := decodeNatural_scalar t _ w h
  rw [decode_encodeNatural t v ht hs] at h
  exact (Option.some.inj h).symm

theorem DeepEqual_scalar (t : GoType) (v w : GoValue) (ht : v.typeOf = some t)
    (hs : typeIsScalar t = true) (h : DeepEqual v w = true) : w = v := by
  rcases typeOf_scalar_cases t v ht hs with ⟨b, rfl⟩ | ⟨k, n, rfl⟩ | ⟨k, n, rfl⟩ |
    ⟨k, x, rfl⟩ | ⟨s, rfl⟩ <;> cases w <;> simp_all [DeepEqual]

/-! ## Theorems: the round trip of `Save` and `Find` -/

theorem lookup_of_mem_nodup {β : Type} (l : List (String × β))
    (hn : (l.map Prod.fst).Nodup) (n : String) (v : β) (h : (n, v) ∈ l) :
    l.lookup n = some v := by
  induction l with
  | nil => cases h
  | cons p ps ih =>
    obtain ⟨k, w⟩ := p
    simp only [List.map_cons, List.nodup_cons, List.mem_map, not_exists, not_and] at hn
    rcases List.mem_cons.mp h with heq | hmem
    · cases heq
      simp [List.lookup_cons]
    · have hk : (n == k) = false := by
        simpa using fun e => hn.1 (n, v) hmem e
      simp only [List.lookup_cons, hk]
      exact ih hn.2 hmem

theorem findFields_roundtrip (spec : modelSpec) (r1 : Record)
    (hnodup : (spec.fields.map fieldSpec.redisName).Nodup)
    (htyped : ∀ fs ∈ spec.fields, typeIsScalar fs.fieldType = true →
      (r1.get fs.name).typeOf = some fs.fieldType) :
    ∀ (D R : List (String × GoValue)), D.map Prod.fst = R.map Prod.fst →
      (∀ p ∈ R, r1.get p.1 = p.2) →
      (∀ p ∈ D.zip R, isReadBack spec p.1.1 = false → p.1.2 = p.2.2) →
      findFields naturalCodec spec (hashEntries naturalCodec spec r1) D = .ok R := by
  intro D
  induction D with
  | nil =>
    intro R hshape _ _
    cases R with
    | nil => rfl
    | cons p ps => simp at hshape
  | cons d ds ih =>
    intro R hshape hget hrest
    cases R with
    | nil => simp at hshape
    | cons p ps =>
      simp only [List.map_cons, List.cons.injEq] at hshape
      obtain ⟨hname, hshape2⟩ := hshape
      have htail := ih ps hshape2 (fun q hq => hget q (List.mem_cons_of_mem _ hq))
        (fun q hq => hrest q (by simp only [List.zip_cons_cons]; exact List.mem_cons_of_mem _ hq))
      have hhead : findField naturalCodec spec (hashEntries naturalCodec spec r1) d = .ok p := by
        unfold findField
        cases hfb : spec.fieldsByName d.1 with
        | none =>
          have := hrest (d, p) (by simp) (by simp [isReadBack, hfb])
          simp only
          congr 1
          exact Prod.ext hname this
        | some fs =>
          obtain ⟨hmem, hfsname⟩ := fieldsByName_some spec d.1 fs hfb
          by_cases hsc : typeIsScalar fs.fieldType = true
          · have hdec := decode_encodeNatural fs.fieldType (r1.get fs.name)
              (htyped fs hmem hsc) hsc
            have hdec2 : naturalCodec.decode fs.fieldType
                (naturalCodec.encode (r1.get fs.name)) = some (r1.get fs.name) := hdec
            simp only [hsc, ↓reduceIte,
              lookup_hashEntries_some naturalCodec spec r1 hnodup fs hmem, hdec2]
            congr 1
            refine Prod.ext hname ?_
            simp only
            rw [hfsname, hname]
            exact hget p (List.mem_cons_self _ _)
          · have hsc2 : typeIsScalar fs.fieldType = false := by simpa using hsc
            have := hrest (d, p) (by simp) (by simp [isReadBack, hfb, hsc2])
            simp only [hsc2, Bool.false_eq_true, ↓reduceIte]
            congr 1
            exact Prod.ext hname this
      unfold findFields
      simp only [hhead, htail]

/-- C1, as stated, fails.  A record of `ignoredFieldModel` whose excluded
field `Attr` is not empty is saved, and `Find` with its id into a fresh
destination yields a record with an empty `Attr`, not equal to it.  Likewise
a record of `friendModel` with one friend is saved, and `Find` into a fresh
destination yields a record without friends: the primary hash holds the
scalar values only. -/
theorem Find_loses_excluded_field :
    (∃ reg spec s r1 r2,
      Register Registry.empty ignoredFieldModel = (reg, .ok spec) ∧
      Save reg naturalCodec sampleRank Store.empty "id1"
        ⟨ignoredFieldModel.typ, "", [("Attr", .str "this should be ignored")]⟩ = .ok (s, r1) ∧
      Find naturalCodec spec s r1.Id ⟨ignoredFieldModel.typ, "", [("Attr", .str "")]⟩
        = .ok r2 ∧
      r2 ≠ r1) ∧
    (∃ reg spec s r1 r2,
      Register Registry.empty friendModel = (reg, .ok spec) ∧
      Save reg naturalCodec sampleRank Store.empty "id1" friendRecord = .ok (s, r1) ∧
      Find naturalCodec spec s r1.Id friendFresh = .ok r2 ∧
      r2 ≠ r1) :=
  ⟨⟨_, _, _, _, _, rfl, rfl, rfl, by simp [assignId]⟩,
   ⟨_, _, _, _, _, rfl, rfl, rfl, by simp [assignId, friendRecord, friendFresh]⟩⟩

/-- C1, amended: for a record `r` of a registered model type, when `Save`
succeeds, `Find` with the assigned id into a destination of the same type
yields the saved record (the id included), provided the destination agrees
with `r` on the fields that `Find` does not read back from the primary hash:
the excluded fields and the fields whose type is not scalar (for a fresh
destination: those fields of `r` hold their zero values).  The values are
stored in their natural string representation, and each scalar field of `r`
holds a value of its declared type. -/
theorem Find_after_Save (reg : Registry) (rank : GoValue → Float64)
    (decl : StructDecl) (name : String) (spec : modelSpec) (store s1 : Store) (fresh : String)
    (r r1 dest : Record)
    (hcomp : compile decl name = .ok spec) (hl : reg.lookupByType decl.typ = some spec)
    (hrt : r.typ = decl.typ) (hdt : dest.typ = decl.typ)
    (hshape : dest.fields.map Prod.fst = r.fields.map Prod.fst)
    (hnames : (r.fields.map Prod.fst).Nodup)
    (htyped : ∀ fs ∈ spec.fields, typeIsScalar fs.fieldType = true →
      (r.get fs.name).typeOf = some fs.fieldType)
    (hrest : ∀ p ∈ dest.fields.zip r.fields, isReadBack spec p.1.1 = false → p.1.2 = p.2.2)
    (hsave : Save reg naturalCodec rank store fresh r = .ok (s1, r1)) :
    r1 = assignId r fresh ∧ r1.fields = r.fields ∧
      Find naturalCodec spec s1 r1.Id dest = .ok r1 := by
  obtain ⟨_, hst, _, hnodup⟩ := compile_ok decl name spec hcomp
  have hl2 : reg.lookupByType r.typ = some spec := by rw [hrt]; exact hl
  obtain ⟨hr1, hh⟩ := Save_hash reg naturalCodec rank store s1 fresh r r1 spec hl2 hsave
  have hf : r1.fields = r.fields := by
    rw [hr1]; unfold assignId; split <;> rfl
  have ht : r1.typ = r.typ := by
    rw [hr1]; unfold assignId; split <;> rfl
  have hgeteq : ∀ n, r1.get n = r.get n := by
    intro n; unfold Record.get; rw [hf]
  refine ⟨hr1, hf, ?_⟩
  unfold Find
  have hne : ¬ (dest.typ ≠ spec.typ) := by rw [hdt, hst]; simp
  simp only [hne, ↓reduceIte, hh]
  have hff := findFields_roundtrip spec r1 hnodup
    (fun fs hfs hsc => by rw [hgeteq]; exact htyped fs hfs hsc) dest.fields r.fields hshape
    (fun p hp => by
      rw [hgeteq]
      unfold Record.get
      rw [lookup_of_mem_nodup r.fields hnames p.1 p.2 hp]
      rfl)
    hrest
  simp only [hff]
  congr 1
  cases r1 with
  | mk t i fl =>
    simp only at hf ht ⊢
    rw [hf, hdt, ht, hrt]

/-- A record of `scalarsModel`, with an `int`, an `int64`, a `uint8`, a `bool`,
a `string` and an empty excluded field, is found again as it was saved, under
the id it was given. -/
theorem Find_after_Save_witness :
    assignId scalarsRecord "id1" = assignId scalarsRecord "id1" ∧
    (assignId scalarsRecord "id1").fields = scalarsRecord.fields ∧
    Find naturalCodec scalarsSpec scalarsStore (assignId scalarsRecord "id1").Id scalarsFresh
      = .ok (assignId scalarsRecord "id1") :=
  Find_after_Save (Register Registry.empty scalarsModel).1 sampleRank scalarsModel
    "scalarsModel" scalarsSpec Store.empty scalarsStore "id1" scalarsRecord
    (assignId scalarsRecord "id1") scalarsFresh (by decide) (by decide) rfl rfl (by decide)
    (by decide)
    (by
      intro fs hfs _
      simp only [scalarsSpec, List.mem_cons, List.mem_singleton, List.not_mem_nil, or_false] at hfs
      rcases hfs with rfl | rfl | rfl | rfl | rfl <;> rfl)
    (by
      intro p hp hrb
      simp only [scalarsFresh, scalarsRecord, List.zip_cons_cons, List.zip_nil_right,
        List.mem_cons, List.mem_singleton, List.not_mem_nil, or_false] at hp
      rcases hp with rfl | rfl | rfl | rfl | rfl | rfl
      · exact absurd hrb (by decide)
      · exact absurd hrb (by decide)
      · exact absurd hrb (by decide)
      · exact absurd hrb (by decide)
      · exact absurd hrb (by decide)
      · rfl)
    rfl

/-! ## Theorems: the secondary indexes -/

theorem indexKey_inj (m a b : String) (ka kb : indexKind)
    (h : indexKey m a ka = indexKey m b kb) : a = b := by
  unfold indexKey at h
  have h1 := congrArg String.data h
  simp only [String.data_append, List.append_assoc] at h1
  have h2 := List.append_cancel_left h1
  have h3 := List.append_cancel_left h2
  exact String.ext h3

theorem primaryKey_inj (m a b : String) (h : primaryKey m a = primaryKey m b) : a = b := by
  unfold primaryKey at h
  have h1 := congrArg String.data h
  simp only [String.data_append, List.append_assoc] at h1
  have h2 := List.append_cancel_left h1
  have h3 := List.append_cancel_left h2
  exact String.ext h3

theorem lookup_filter_ne {β : Type} (l : List (String × β)) (i j : String) :
    (l.filter (fun e => e.1 != j)).lookup i = if i = j then none else l.lookup i := by
  induction l with
  | nil => simp
  | cons p ps ih =>
    obtain ⟨k, v⟩ := p
    by_cases hk : k = j
    · subst hk
      simp only [List.filter_cons, bne_self_eq_false, Bool.false_eq_true, ↓reduceIte, ih,
        List.lookup_cons]
      by_cases hi : i = k
      · simp [hi]
      · have : (i == k) = false := by simpa using hi
        simp [hi, this]
    · have hb : (k != j) = true := by simpa using hk
      simp only [List.filter_cons, hb, ↓reduceIte, List.lookup_cons, ih]
      by_cases hi : i = k
      · subst hi
        simp [hk]
      · have : (i == k) = false := by simpa using hi
        simp [this]

theorem score_apply (s : Store) (c : Command) (K i : String) :
    (s.apply c).score K i =
      match c with
      | .indexAdd k j sc => if k = K then (if j = i then some sc else s.score K i) else s.score K i
      | .indexRemove k j => if k = K ∧ j = i then none else s.score K i
      | _ => s.score K i := by
  cases c with
  | indexAdd k j sc =>
    simp only [Store.apply, Store.score]
    by_cases hk : K = k
    · subst hk
      simp only [↓reduceIte, List.lookup_cons, lookup_filter_ne]
      by_cases hj : i = j
      · subst hj; simp
      · have hb : (i == j) = false := by simpa using hj
        have : ¬ j = i := fun e => hj e.symm
        simp [hb, hj, this]
    · have : ¬ k = K := fun e => hk e.symm
      simp [hk, this]
  | indexRemove k j =>
    simp only [Store.apply, Store.score]
    by_cases hk : K = k
    · subst hk
      simp only [↓reduceIte, lookup_filter_ne, true_and]
      by_cases hj : i = j
      · subst hj; simp
      · have : ¬ j = i := fun e => hj e.symm
        simp [hj, this]
    · have : ¬ k = K := fun e => hk e.symm
      simp [hk, this]
  | hashWrite k e => rfl
  | hashDelete k => rfl
  | setAdd k m => rfl
  | setRemove k m => rfl

theorem submit_append (s : Store) (a b : List Command) :
    s.submit (a ++ b) = (s.submit a).submit b := by
  simp [Store.submit, List.foldl_append]

theorem fieldIndexOps_cases (rank : GoValue → Float64) (codec : Codec) (m id : String)
    (old : Option (List (String × String))) (new : Record) (fs : fieldSpec) (ops : List Command)
    (h : fieldIndexOps rank codec m id old new fs = .ok ops) :
    (fs.indexKind = .noIndex ∧ ops = []) ∨
    (fs.indexKind ≠ .noIndex ∧ ∃ sc, indexScore rank fs.indexKind (new.get fs.name) = .ok sc ∧
      ((scoreAfterDiff codec old fs (new.get fs.name) sc none = some sc ∧
          (ops = [.indexAdd (indexKey m fs.redisName fs.indexKind) id sc] ∨
           ops = [.indexRemove (indexKey m fs.redisName fs.indexKind) id,
            .indexAdd (indexKey m fs.redisName fs.indexKind) id sc])) ∨
       ((∀ prev, scoreAfterDiff codec old fs (new.get fs.name) sc prev = prev) ∧ ops = []))) := by
  unfold fieldIndexOps at h
  by_cases hk : fs.indexKind = .noIndex
  · simp only [hk, ↓reduceIte, Except.ok.injEq] at h
    exact Or.inl ⟨hk, h.symm⟩
  · right
    refine ⟨hk, ?_⟩
    simp only [hk, ↓reduceIte] at h
    cases hs : indexScore rank fs.indexKind (new.get fs.name) with
    | error p => simp [hs] at h
    | ok sc =>
      refine ⟨sc, rfl, ?_⟩
      simp only [hs] at h
      cases old with
      | none =>
        simp only [Except.ok.injEq] at h
        exact Or.inl ⟨rfl, Or.inl h.symm⟩
      | some hh =>
        simp only at h
        cases hsv : storedValue codec hh fs with
        | none =>
          simp only [hsv, Except.ok.injEq] at h
          exact Or.inl ⟨by simp [scoreAfterDiff, hsv], Or.inr h.symm⟩
        | some ov =>
          simp only [hsv] at h
          by_cases heq : DeepEqual ov (new.get fs.name) = true
          · simp only [heq, ↓reduceIte, Except.ok.injEq] at h
            exact Or.inr ⟨fun prev => by simp [scoreAfterDiff, hsv, heq], h.symm⟩
          · simp only [heq, Bool.false_eq_true, ↓reduceIte, Except.ok.injEq] at h
            exact Or.inl ⟨by simp [scoreAfterDiff, hsv, heq], Or.inr h.symm⟩

theorem scoreAfterDiff_of_changed (codec : Codec) (old : Option (List (String × String)))
    (fs : fieldSpec) (v : GoValue) (sc : Float64)
    (h : scoreAfterDiff codec old fs v sc none = some sc) (prev : Option Float64) :
    scoreAfterDiff codec old fs v sc prev = some sc := by
  unfold scoreAfterDiff at h ⊢
  cases old with
  | none => rfl
  | some hh =>
    simp only at h ⊢
    cases hsv : storedValue codec hh fs with
    | none => rfl
    | some ov =>
      simp only [hsv] at h ⊢
      by_cases heq : DeepEqual ov v = true
      · simp [heq] at h
      · simp [heq]

theorem fieldIndexOps_score_other (rank : GoValue → Float64) (codec : Codec) (m id : String)
    (old : Option (List (String × String))) (new : Record) (fs : fieldSpec) (ops : List Command)
    (h : fieldIndexOps rank codec m id old new fs = .ok ops) (n : String) (ik : indexKind)
    (hn : fs.redisName ≠ n) (s : Store) (i : String) :
    (s.submit ops).score (indexKey m n ik) i = s.score (indexKey m n ik) i := by
  have hkey : ¬ indexKey m fs.redisName fs.indexKind = indexKey m n ik :=
    fun e => hn (indexKey_inj m _ _ _ _ e)
  rcases fieldIndexOps_cases rank codec m id old new fs ops h with
    ⟨_, rfl⟩ | ⟨_, sc, _, ⟨_, rfl | rfl⟩ | ⟨_, rfl⟩⟩
  · rfl
  · simp [Store.submit, score_apply, hkey]
  · simp [Store.submit, score_apply, hkey]
  · rfl

theorem fieldIndexOps_score_self (rank : GoValue → Float64) (codec : Codec) (m id : String)
    (old : Option (List (String × String))) (new : Record) (fs : fieldSpec) (ops : List Command)
    (h : fieldIndexOps rank codec m id old new fs = .ok ops) (hk : fs.indexKind ≠ .noIndex) :
    ∃ sc, indexScore rank fs.indexKind (new.get fs.name) = .ok sc ∧
      ∀ (s : Store) (i : String),
        (s.submit ops).score (indexKey m fs.redisName fs.indexKind) i =
          if i = id then
            scoreAfterDiff codec old fs (new.get fs.name) sc
              (s.score (indexKey m fs.redisName fs.indexKind) i)
          else s.score (indexKey m fs.redisName fs.indexKind) i := by
  rcases fieldIndexOps_cases rank codec m id old new fs ops h with
    ⟨h0, _⟩ | ⟨_, sc, hsc, ⟨hch, rfl | rfl⟩ | ⟨hun, rfl⟩⟩
  · exact absurd h0 hk
  · refine ⟨sc, hsc, fun s i => ?_⟩
    by_cases hi : i = id
    · subst hi
      simp [Store.submit, score_apply, scoreAfterDiff_of_changed codec old fs _ sc hch]
    · have : ¬ id = i := fun e => hi e.symm
      simp [Store.submit, score_apply, hi, this]
  · refine ⟨sc, hsc, fun s i => ?_⟩
    by_cases hi : i = id
    · subst hi
      simp [Store.submit, score_apply, scoreAfterDiff_of_changed codec old fs _ sc hch]
    · have : ¬ id = i := fun e => hi e.symm
      simp [Store.submit, score_apply, hi, this]
  · refine ⟨sc, hsc, fun s i => ?_⟩
    by_cases hi : i = id
    · subst hi; simp [Store.submit, hun]
    · simp [Store.submit, hi]

theorem diffFields_score_other (rank : GoValue → Float64) (codec : Codec) (m id : String)
    (old : Option (List (String × String))) (new : Record) (n : String) (ik : indexKind)
    (i : String) (fields : List fieldSpec) :
    ∀ ops, diffFields rank codec m id old new fields = .ok ops →
      (∀ fs ∈ fields, fs.redisName ≠ n) → ∀ s : Store,
      (s.submit ops).score (indexKey m n ik) i = s.score (indexKey m n ik) i := by
  induction fields with
  | nil =>
    intro ops h _ s
    simp only [diffFields, Except.ok.injEq] at h
    subst h
    rfl
  | cons fs rest ih =>
    intro ops h hn s
    unfold diffFields at h
    cases h1 : fieldIndexOps rank codec m id old new fs with
    | error p => simp [h1] at h
    | ok ops1 =>
      cases h2 : diffFields rank codec m id old new rest with
      | error p => simp [h1, h2] at h
      | ok more =>
        simp only [h1, h2, Except.ok.injEq] at h
        subst h
        rw [submit_append, ih more h2 (fun g hg => hn g (List.mem_cons_of_mem _ hg)),
          fieldIndexOps_score_other rank codec m id old new fs ops1 h1 n ik
            (hn fs (List.mem_cons_self _ _))]

theorem diffFields_score_self (rank : GoValue → Float64) (codec : Codec) (m id : String)
    (old : Option (List (String × String))) (new : Record) (fs0 : fieldSpec)
    (hk : fs0.indexKind ≠ .noIndex) (fields : List fieldSpec) :
    ∀ ops, diffFields rank codec m id old new fields = .ok ops →
      (fields.map fieldSpec.redisName).Nodup → fs0 ∈ fields →
      ∃ sc, indexScore rank fs0.indexKind (new.get fs0.name) = .ok sc ∧
        ∀ (s : Store) (i : String),
          (s.submit ops).score (indexKey m fs0.redisName fs0.indexKind) i =
            if i = id then
              scoreAfterDiff codec old fs0 (new.get fs0.name) sc
                (s.score (indexKey m fs0.redisName fs0.indexKind) i)
            else s.score (indexKey m fs0.redisName fs0.indexKind) i := by
  induction fields with
  | nil => intro ops _ _ hmem; cases hmem
  | cons fs rest ih =>
    intro ops h hnd hmem
    unfold diffFields at h
    cases h1 : fieldIndexOps rank codec m id old new fs with
    | error p => simp [h1] at h
    | ok ops1 =>
      cases h2 : diffFields rank codec m id old new rest with
      | error p => simp [h1, h2] at h
      | ok more =>
        simp only [h1, h2, Except.ok.injEq] at h
        subst h
        simp only [List.map_cons, List.nodup_cons, List.mem_map, not_exists, not_and] at hnd
        rcases List.mem_cons.mp hmem with rfl | hrest
        · obtain ⟨sc, hsc, hself⟩ :=
            fieldIndexOps_score_self rank codec m id old new fs0 ops1 h1 hk
          refine ⟨sc, hsc, fun s i => ?_⟩
          rw [submit_append, diffFields_score_other rank codec m id old new fs0.redisName
            fs0.indexKind i rest more h2 (fun g hg e => hnd.1 g hg e), hself]
        · obtain ⟨sc, hsc, hself⟩ := ih more h2 hnd.2 hrest
          refine ⟨sc, hsc, fun s i => ?_⟩
          have hne : fs.redisName ≠ fs0.redisName := fun e => hnd.1 fs0 hrest e.symm
          rw [submit_append, hself]
          rw [fieldIndexOps_score_other rank codec m id old new fs ops1 h1 fs0.redisName
            fs0.indexKind hne]

theorem Save_store (reg : Registry) (codec : Codec) (rank : GoValue → Float64) (store s1 : Store)
    (fresh : String) (record r1 : Record) (spec : modelSpec)
    (hnodup : (spec.fields.map fieldSpec.redisName).Nodup)
    (hl : reg.lookupByType record.typ = some spec)
    (h : Save reg codec rank store fresh record = .ok (s1, r1)) :
    r1 = assignId record fresh ∧
    (∀ k, s1.hashes k = if k = primaryKey spec.name r1.Id then some (hashEntries codec spec r1)
      else store.hashes k) ∧
    ∀ fs ∈ spec.fields, fs.indexKind ≠ .noIndex →
      ∃ sc, indexScore rank fs.indexKind (r1.get fs.name) = .ok sc ∧
        ∀ i, s1.score (indexKey spec.name fs.redisName fs.indexKind) i =
          if i = r1.Id then
            scoreAfterDiff codec (store.hashes (primaryKey spec.name r1.Id)) fs
              (r1.get fs.name) sc
              (store.score (indexKey spec.name fs.redisName fs.indexKind) i)
          else store.score (indexKey spec.name fs.redisName fs.indexKind) i := by
  obtain ⟨hr, ops, hd, hs⟩ := Save_ok reg codec rank store s1 fresh record r1 spec hl h
  refine ⟨hr, ?_, ?_⟩
  · intro k
    rw [hs]
    have hidx := diffFields_isIndex rank codec _ _ _ _ _ ops hd
    simp only [Store.submit, List.foldl_cons]
    have := (submit_index_only ops ((store.apply (Command.hashWrite (primaryKey spec.name r1.Id)
      (hashEntries codec spec r1))).apply (Command.setAdd (allIdsKey spec.name) r1.Id)) hidx).1
    simp only [Store.submit] at this
    rw [this]
    simp [Store.apply]
  · intro fs hfs hk
    obtain ⟨sc, hsc, hself⟩ := diffFields_score_self rank codec spec.name r1.Id
      (store.hashes (primaryKey spec.name r1.Id)) r1 fs hk spec.fields ops hd hnodup hfs
    refine ⟨sc, hsc, fun i => ?_⟩
    rw [hs]
    simp only [Store.submit, List.foldl_cons]
    have := hself ((store.apply (Command.hashWrite (primaryKey spec.name r1.Id)
      (hashEntries codec spec r1))).apply (Command.setAdd (allIdsKey spec.name) r1.Id)) i
    simp only [Store.submit] at this
    rw [this]
    rfl

theorem indexRemovals_isIndex (m id : String) (fields : List fieldSpec) :
    ∀ c ∈ indexRemovals m id fields, c.isIndex = true := by
  intro c hc
  simp only [indexRemovals, List.mem_map] at hc
  obtain ⟨fs, _, rfl⟩ := hc
  rfl

theorem indexRemovals_score (m id0 K i : String) (fields : List fieldSpec) :
    ∀ s : Store, (s.submit (indexRemovals m id0 fields)).score K i =
      if i = id0 ∧ ∃ fs ∈ fields, fs.indexKind ≠ .noIndex ∧
          indexKey m fs.redisName fs.indexKind = K
      then none else s.score K i := by
  induction fields with
  | nil => intro s; simp [indexRemovals, Store.submit]
  | cons fs rest ih =>
    intro s
    by_cases hk : fs.indexKind = .noIndex
    · have : indexRemovals m id0 (fs :: rest) = indexRemovals m id0 rest := by
        simp [indexRemovals, List.filter_cons, hk]
      rw [this, ih]
      simp [hk]
    · have : indexRemovals m id0 (fs :: rest) =
          Command.indexRemove (indexKey m fs.redisName fs.indexKind) id0 ::
            indexRemovals m id0 rest := by
        simp [indexRemovals, List.filter_cons, hk]
      rw [this]
      simp only [Store.submit, List.foldl_cons]
      have ih2 := ih (s.apply (Command.indexRemove (indexKey m fs.redisName fs.indexKind) id0))
      simp only [Store.submit] at ih2
      rw [ih2, score_apply]
      by_cases hi : i = id0
      · subst hi
        by_cases hK : indexKey m fs.redisName fs.indexKind = K
        · simp [hK, hk]
        · simp [hK, hk]
      · have : ¬ id0 = i := fun e => hi e.symm
        simp [hi, this]

theorem Delete_store (spec : modelSpec) (store s1 : Store) (id0 : String)
    (h : Delete spec store id0 = .ok s1) :
    (∃ hh, store.hashes (primaryKey spec.name id0) = some hh) ∧
    (∀ k, s1.hashes k = if k = primaryKey spec.name id0 then none else store.hashes k) ∧
    ∀ fs ∈ spec.fields, fs.indexKind ≠ .noIndex → ∀ i,
      s1.score (indexKey spec.name fs.redisName fs.indexKind) i =
        if i = id0 then none else store.score (indexKey spec.name fs.redisName fs.indexKind) i := by
  unfold Delete at h
  cases hh : store.hashes (primaryKey spec.name id0) with
  | none => simp [hh] at h
  | some e =>
    simp only [hh, Except.ok.injEq] at h
    subst h
    refine ⟨⟨e, rfl⟩, ?_, ?_⟩
    · intro k
      rw [submit_append]
      have := (submit_index_only _ store (indexRemovals_isIndex spec.name id0 spec.fields)).1
      simp only [Store.submit, List.foldl_cons, List.foldl_nil, Store.apply]
      simp only [Store.submit] at this
      rw [this]
    · intro fs hfs hk i
      rw [submit_append]
      have h1 := indexRemovals_score spec.name id0
        (indexKey spec.name fs.redisName fs.indexKind) i spec.fields store
      have h2 : ∀ t : Store, (t.submit [Command.setRemove (allIdsKey spec.name) id0,
          Command.hashDelete (primaryKey spec.name id0)]).score
            (indexKey spec.name fs.redisName fs.indexKind) i =
          t.score (indexKey spec.name fs.redisName fs.indexKind) i := fun t => rfl
      rw [h2, h1]
      by_cases hi : i = id0
      · have hex : ∃ g ∈ spec.fields, g.indexKind ≠ .noIndex ∧
            indexKey spec.name g.redisName g.indexKind =
              indexKey spec.name fs.redisName fs.indexKind := ⟨fs, hfs, hk, rfl⟩
        simp [hi, hex]
      · simp [hi]

theorem assignId_get (record : Record) (fresh n : String) :
    (assignId record fresh).get n = record.get n := by
  unfold assignId Record.get
  split <;> rfl

theorem get_eq_of_fields (r r0 : Record) (h : r.fields = r0.fields) (n : String) :
    r.get n = r0.get n := by
  unfold Record.get
  rw [h]

theorem storedValue_hashEntries (spec : modelSpec) (r : Record)
    (hnodup : (spec.fields.map fieldSpec.redisName).Nodup) (fs : fieldSpec)
    (hfs : fs ∈ spec.fields) :
    storedValue naturalCodec (hashEntries naturalCodec spec r) fs =
      decodeNatural fs.fieldType (encodeNatural (r.get fs.name)) := by
  unfold storedValue
  rw [lookup_hashEntries_some naturalCodec spec r hnodup fs hfs]
  rfl

theorem save_preserves (reg : Registry) (rank : GoValue → Float64)
    (spec : modelSpec) (all : List Record) (store s1 : Store) (cur : String → Option Record)
    (record r1 : Record) (fresh : String)
    (hnodup : (spec.fields.map fieldSpec.redisName).Nodup)
    (hl : reg.lookupByType record.typ = some spec)
    (Hall : ∀ r ∈ all, ∀ fs ∈ spec.fields, fs.indexKind ≠ .noIndex →
      (r.get fs.name).typeOf = some fs.fieldType)
    (hmem : record ∈ all)
    (inv : IndexInv naturalCodec rank spec all store cur)
    (h : Save reg naturalCodec rank store fresh record = .ok (s1, r1)) :
    IndexInv naturalCodec rank spec all s1 (trackOp cur (.save record fresh)) := by
  obtain ⟨hr, hhash, hscore⟩ :=
    Save_store reg naturalCodec rank store s1 fresh record r1 spec hnodup hl h
  obtain ⟨I1, I2, I3⟩ := inv
  subst hr
  refine ⟨?_, ?_, ?_⟩
  · intro id
    rw [hhash]
    by_cases hid : id = (assignId record fresh).Id
    · subst hid
      simp [trackOp]
    · have hne : ¬ primaryKey spec.name id = primaryKey spec.name (assignId record fresh).Id :=
        fun e => hid (primaryKey_inj _ _ _ e)
      simp only [hne, ↓reduceIte, trackOp, hid]
      exact I1 id
  · intro id fs hfs hk
    obtain ⟨sc, hsc, hsel⟩ := hscore fs hfs hk
    by_cases hid : id = (assignId record fresh).Id
    · subst hid
      simp only [trackOp, ↓reduceIte, reduceCtorEq, false_implies, Option.some.injEq,
        forall_eq', true_and]
      refine ⟨sc, hsc, ?_⟩
      rw [hsel]
      simp only [↓reduceIte, I1]
      cases hc : cur (assignId record fresh).Id with
      | none => simp [scoreAfterDiff]
      | some rOld =>
        simp only [Option.map_some', scoreAfterDiff,
          storedValue_hashEntries spec rOld hnodup fs hfs]
        cases hdec : decodeNatural fs.fieldType (encodeNatural (rOld.get fs.name)) with
        | none => rfl
        | some ov =>
          simp only
          by_cases heq : DeepEqual ov ((assignId record fresh).get fs.name) = true
          · simp only [heq, ↓reduceIte]
            obtain ⟨scOld, hscOld, hstore⟩ := (I2 _ fs hfs hk).2 rOld hc
            rw [hstore]
            obtain ⟨r0, hr0, hf0⟩ := I3 _ rOld hc
            have hty : (rOld.get fs.name).typeOf = some fs.fieldType := by
              rw [get_eq_of_fields rOld r0 hf0]
              exact Hall r0 hr0 fs hfs hk
            have hov : ov = rOld.get fs.name :=
              decodeNatural_typed fs.fieldType _ ov hty hdec
            have hsc0 : typeIsScalar fs.fieldType = true :=
              decodeNatural_scalar fs.fieldType _ ov hdec
            have hnew : (assignId record fresh).get fs.name = rOld.get fs.name := by
              rw [hov] at heq
              exact DeepEqual_scalar fs.fieldType _ _ hty hsc0 heq
            rw [hnew, hscOld] at hsc
            simp only [Except.ok.injEq] at hsc
            rw [hsc]
          · simp only [heq, Bool.false_eq_true, ↓reduceIte]
    · simp only [trackOp, hid, ↓reduceIte]
      rw [hsel]
      simp only [hid, ↓reduceIte]
      exact I2 id fs hfs hk
  · intro id r hcur
    by_cases hid : id = (assignId record fresh).Id
    · simp only [trackOp, hid, ↓reduceIte, Option.some.injEq] at hcur
      subst hcur
      refine ⟨record, hmem, ?_⟩
      unfold assignId
      split <;> rfl
    · simp only [trackOp, hid, ↓reduceIte] at hcur
      exact I3 id r hcur

theorem delete_preserves (codec : Codec) (rank : GoValue → Float64)
    (spec : modelSpec) (all : List Record) (store s1 : Store) (cur : String → Option Record)
    (id0 : String) (inv : IndexInv codec rank spec all store cur)
    (h : Delete spec store id0 = .ok s1) :
    IndexInv codec rank spec all s1 (trackOp cur (.delete id0)) := by
  obtain ⟨_, hhash, hscore⟩ := Delete_store spec store s1 id0 h
  obtain ⟨I1, I2, I3⟩ := inv
  refine ⟨?_, ?_, ?_⟩
  · intro id
    rw [hhash]
    by_cases hid : id = id0
    · subst hid
      simp [trackOp]
    · have hne : ¬ primaryKey spec.name id = primaryKey spec.name id0 :=
        fun e => hid (primaryKey_inj _ _ _ e)
      simp only [hne, ↓reduceIte, trackOp, hid]
      exact I1 id
  · intro id fs hfs hk
    rw [hscore fs hfs hk]
    by_cases hid : id = id0
    · subst hid
      simp [trackOp]
    · simp only [trackOp, hid, ↓reduceIte]
      exact I2 id fs hfs hk
  · intro id r hcur
    by_cases hid : id = id0
    · simp [trackOp, hid] at hcur
    · simp only [trackOp, hid, ↓reduceIte] at hcur
      exact I3 id r hcur

theorem IndexInv_empty (codec : Codec) (rank : GoValue → Float64) (spec : modelSpec)
    (all : List Record) : IndexInv codec rank spec all Store.empty (fun _ => none) :=
  ⟨fun _ => rfl, fun _ _ _ _ => ⟨fun _ => rfl, fun _ h => by cases h⟩, fun _ _ h => by cases h⟩

theorem runOps_preserves (reg : Registry) (rank : GoValue → Float64)
    (spec : modelSpec) (typ : GoType) (all : List Record)
    (hnodup : (spec.fields.map fieldSpec.redisName).Nodup)
    (hl : reg.lookupByType typ = some spec)
    (Hall : ∀ r ∈ all, ∀ fs ∈ spec.fields, fs.indexKind ≠ .noIndex →
      (r.get fs.name).typeOf = some fs.fieldType) (ops : List Op) :
    ∀ (store s1 : Store) (cur : String → Option Record),
      (∀ r ∈ savedRecords ops, r ∈ all ∧ r.typ = typ) →
      IndexInv naturalCodec rank spec all store cur →
      runOps reg naturalCodec rank spec store ops = .ok s1 →
      IndexInv naturalCodec rank spec all s1 (ops.foldl trackOp cur) := by
  induction ops with
  | nil =>
    intro store s1 cur _ inv h
    simp only [runOps, Except.ok.injEq] at h
    subst h
    exact inv
  | cons op rest ih =>
    intro store s1 cur hsaved inv h
    unfold runOps at h
    cases hstep : stepOp reg naturalCodec rank spec store op with
    | error e => simp [hstep] at h
    | ok s2 =>
      simp only [hstep] at h
      simp only [List.foldl_cons]
      cases op with
      | save record fresh =>
        have hrec := hsaved record (by simp [savedRecords])
        have hrest : ∀ r ∈ savedRecords rest, r ∈ all ∧ r.typ = typ :=
          fun r hr => hsaved r (by simp [savedRecords, hr])
        unfold stepOp at hstep
        cases hsave : Save reg naturalCodec rank store fresh record with
        | error e => simp [hsave] at hstep
        | ok res =>
          simp only [hsave, Except.ok.injEq] at hstep
          obtain ⟨s3, r1⟩ := res
          simp only at hstep
          subst hstep
          exact ih _ _ _ hrest (save_preserves reg rank spec all store s3 cur record r1
            fresh hnodup (by rw [hrec.2]; exact hl) Hall hrec.1 inv hsave) h
      | delete id0 =>
        have hrest : ∀ r ∈ savedRecords rest, r ∈ all ∧ r.typ = typ :=
          fun r hr => hsaved r (by simpa [savedRecords] using hr)
        exact ih _ _ _ hrest
          (delete_preserves naturalCodec rank spec all store s2 cur id0 inv hstep) h

theorem currentRecords_append (ops : List Op) (op : Op) :
    currentRecords (ops ++ [op]) = trackOp (currentRecords ops) op := by
  simp [currentRecords, List.foldl_append]

/-- C2: for a registered model and a sequence of successful `Save` and
`Delete` operations on its records, starting from the empty store, the id of a
record is a member of the index of an indexed field if and only if the record
currently exists (its primary hash exists), and then with the score of the
current value of the field; after a `Save` the id is in the index, after a
`Delete` it is not.  The values are stored in their natural string
representation, and each indexed field of a saved record holds a value of its
declared type. -/
theorem index_membership_after_ops (reg : Registry) (rank : GoValue → Float64)
    (decl : StructDecl) (name : String) (spec : modelSpec) (ops : List Op) (s : Store)
    (hcomp : compile decl name = .ok spec) (hl : reg.lookupByType decl.typ = some spec)
    (htyp : ∀ r ∈ savedRecords ops, r.typ = decl.typ)
    (hval : ∀ r ∈ savedRecords ops, ∀ fs ∈ spec.fields, fs.indexKind ≠ .noIndex →
      (r.get fs.name).typeOf = some fs.fieldType)
    (hrun : runOps reg naturalCodec rank spec Store.empty ops = .ok s)
    (id : String) (fs : fieldSpec) (hfs : fs ∈ spec.fields) (hk : fs.indexKind ≠ .noIndex) :
    (s.hashes (primaryKey spec.name id)).isSome = (currentRecords ops id).isSome ∧
    (currentRecords ops id = none →
      s.score (indexKey spec.name fs.redisName fs.indexKind) id = none) ∧
    (∀ r, currentRecords ops id = some r → ∃ sc,
      indexScore rank fs.indexKind (r.get fs.name) = .ok sc ∧
      s.score (indexKey spec.name fs.redisName fs.indexKind) id = some sc) ∧
    (∀ ops0 record fresh, ops = ops0 ++ [.save record fresh] →
      id = (assignId record fresh).Id → ∃ sc,
        indexScore rank fs.indexKind (record.get fs.name) = .ok sc ∧
        s.score (indexKey spec.name fs.redisName fs.indexKind) id = some sc) ∧
    (∀ ops0, ops = ops0 ++ [.delete id] →
      s.score (indexKey spec.name fs.redisName fs.indexKind) id = none) := by
  obtain ⟨_, _, _, hnodup⟩ := compile_ok decl name spec hcomp
  have inv := runOps_preserves reg rank spec decl.typ (savedRecords ops) hnodup hl hval
    ops Store.empty s (fun _ => none) (fun r hr => ⟨hr, htyp r hr⟩)
    (IndexInv_empty naturalCodec rank spec _) hrun
  obtain ⟨I1, I2, _⟩ := inv
  have hcur : List.foldl trackOp (fun _ => none) ops = currentRecords ops := rfl
  rw [hcur] at I1 I2
  refine ⟨?_, (I2 id fs hfs hk).1, (I2 id fs hfs hk).2, ?_, ?_⟩
  · rw [I1]
    cases currentRecords ops id <;> rfl
  · intro ops0 record fresh hops hid
    have hc : currentRecords ops id = some (assignId record fresh) := by
      rw [hops, currentRecords_append]
      simp [trackOp, hid]
    obtain ⟨sc, hsc, hst⟩ := (I2 id fs hfs hk).2 _ hc
    rw [assignId_get] at hsc
    exact ⟨sc, hsc, hst⟩
  · intro ops0 hops
    apply (I2 id fs hfs hk).1
    rw [hops, currentRecords_append]
    simp [trackOp]

/-- The operations `indexedOps`: after two saves, an update of the record
"id1" and the deletion of the record "id2", the id "id1" has the score of the
new value 7 in the index of `Int` and still the score 1 in the index of
`Bool`, and the id "id2" is in no index. -/
theorem index_membership_after_ops_witness :
    ((indexedStore.hashes (primaryKey indexedSpec.name "id1")).isSome =
        (currentRecords indexedOps "id1").isSome ∧
      (currentRecords indexedOps "id1" = none →
        indexedStore.score (indexKey indexedSpec.name "Int" .numericIndex) "id1" = none) ∧
      (∀ r, currentRecords indexedOps "id1" = some r → ∃ sc,
        indexScore sampleRank .numericIndex (r.get "Int") = .ok sc ∧
        indexedStore.score (indexKey indexedSpec.name "Int" .numericIndex) "id1" = some sc) ∧
      (∀ ops0 record fresh, indexedOps = ops0 ++ [.save record fresh] →
        "id1" = (assignId record fresh).Id → ∃ sc,
          indexScore sampleRank .numericIndex (record.get "Int") = .ok sc ∧
          indexedStore.score (indexKey indexedSpec.name "Int" .numericIndex) "id1" = some sc) ∧
      (∀ ops0, indexedOps = ops0 ++ [.delete "id1"] →
        indexedStore.score (indexKey indexedSpec.name "Int" .numericIndex) "id1" = none)) ∧
    ((indexedStore.hashes (primaryKey indexedSpec.name "id2")).isSome =
        (currentRecords indexedOps "id2").isSome ∧
      (currentRecords indexedOps "id2" = none →
        indexedStore.score (indexKey indexedSpec.name "Bool" .booleanIndex) "id2" = none) ∧
      (∀ r, currentRecords indexedOps "id2" = some r → ∃ sc,
        indexScore sampleRank .booleanIndex (r.get "Bool") = .ok sc ∧
        indexedStore.score (indexKey indexedSpec.name "Bool" .booleanIndex) "id2" = some sc) ∧
      (∀ ops0 record fresh, indexedOps = ops0 ++ [.save record fresh] →
        "id2" = (assignId record fresh).Id → ∃ sc,
          indexScore sampleRank .booleanIndex (record.get "Bool") = .ok sc ∧
          indexedStore.score (indexKey indexedSpec.name "Bool" .booleanIndex) "id2" = some sc) ∧
      (∀ ops0, indexedOps = ops0 ++ [.delete "id2"] →
        indexedStore.score (indexKey indexedSpec.name "Bool" .booleanIndex) "id2" = none)) ∧
    indexedStore.score "indexedModel:Int" "id1" = some ⟨7⟩ ∧
    indexedStore.score "indexedModel:Bool" "id1" = some ⟨1⟩ ∧
    indexedStore.score "indexedModel:Int" "id2" = none ∧
    indexedStore.score "indexedModel:Bool" "id2" = none :=
  ⟨index_membership_after_ops (Register Registry.empty indexedModel).1 sampleRank
      indexedModel "indexedModel" indexedSpec indexedOps indexedStore (by decide) (by decide)
      (by
        intro r hr
        simp only [indexedOps, savedRecords, List.mem_cons, List.mem_singleton,
          List.not_mem_nil, or_false] at hr
        rcases hr with rfl | rfl | rfl <;> rfl)
      (by
        intro r hr fs hfs _
        simp only [indexedOps, savedRecords, List.mem_cons, List.mem_singleton,
          List.not_mem_nil, or_false] at hr
        simp only [indexedSpec, List.mem_cons, List.mem_singleton, List.not_mem_nil,
          or_false] at hfs
        rcases hr with rfl | rfl | rfl <;> rcases hfs with rfl | rfl | rfl <;> rfl)
      rfl "id1" ⟨.primativeField, "Int", "Int", .Int, .numericIndex⟩ (by decide) (by decide),
    index_membership_after_ops (Register Registry.empty indexedModel).1 sampleRank
      indexedModel "indexedModel" indexedSpec indexedOps indexedStore (by decide) (by decide)
      (by
        intro r hr
        simp only [indexedOps, savedRecords, List.mem_cons, List.mem_singleton,
          List.not_mem_nil, or_false] at hr
        rcases hr with rfl | rfl | rfl <;> rfl)
      (by
        intro r hr fs hfs _
        simp only [indexedOps, savedRecords, List.mem_cons, List.mem_singleton,
          List.not_mem_nil, or_false] at hr
        simp only [indexedSpec, List.mem_cons, List.mem_singleton, List.not_mem_nil,
          or_false] at hfs
        rcases hr with rfl | rfl | rfl <;> rcases hfs with rfl | rfl | rfl <;> rfl)
      rfl "id2" ⟨.primativeField, "Bool", "Bool", .Bool, .booleanIndex⟩ (by decide) (by decide),
    by decide, by decide, by decide, by decide⟩

/-! ## Theorems: pointer chains and the type classes -/

theorem derefAll_ptrChain (n : Nat) (v : GoValue) : derefAll (ptrChain n v) = derefAll v := by
  induction n with
  | zero => rfl
  | succ n ih => simp only [ptrChain, derefAll, ih]

/-- C11: the scores are invariant under pointer indirection: through a chain
of non-nil pointers ending at a value `v`, `numericScore` and `boolScore`
return what they return for `v` itself; for an integer, a float and a boolean
at the end of the chain that is its score. -/
theorem score_ptrChain (n : Nat) (v : GoValue) :
    numericScore (ptrChain n v) = numericScore v ∧
    boolScore (ptrChain n v) = boolScore v ∧
    (∀ (k : IntKind) (i : Int),
      numericScore (ptrChain n (.int k i)) = .ok (float64OfInt i)) ∧
    (∀ (k : FloatKind) (x : Float64), numericScore (ptrChain n (.float k x)) = .ok x) ∧
    (∀ b : Bool, boolScore (ptrChain n (.bool b)) = .ok (convertBoolToInt b)) := by
  have hn : ∀ w, numericScore (ptrChain n w) = numericScore w := by
    intro w
    unfold numericScore
    simp only [derefAll_ptrChain]
  have hb : ∀ w, boolScore (ptrChain n w) = boolScore w := by
    intro w
    unfold boolScore
    simp only [derefAll_ptrChain]
  refine ⟨hn v, hb v, ?_, ?_, ?_⟩
  · intro k i
    rw [hn]
    cases k <;> rfl
  · intro k x
    rw [hn]
    cases k <;> rfl
  · intro b
    rw [hb]
    cases b <;> rfl

theorem numericScore_panics_iff (v : GoValue) (t : GoType) (ht : v.typeOf = some t)
    (hp : t.kind ≠ .Ptr) :
    (∃ p, numericScore v = .error p) ↔ typeIsNumeric t = false := by
  cases v with
  | invalid => cases ht
  | ptr w =>
    exfalso
    simp only [GoValue.typeOf, Option.map_eq_some'] at ht
    obtain ⟨u, _, rfl⟩ := ht
    exact hp rfl
  | nilPtr e =>
    exfalso
    simp only [GoValue.typeOf, Option.some.injEq] at ht
    subst ht
    exact hp rfl
  | int k n =>
    simp only [GoValue.typeOf, Option.some.injEq] at ht
    subst ht
    cases k <;> simp [numericScore, derefAll, GoValue.kind, GoValue.typeOf, IntKind.toType,
      GoType.kind, GoValue.getInt, typeIsNumeric, bind, Except.bind, pure, Except.pure]
  | uint k n =>
    simp only [GoValue.typeOf, Option.some.injEq] at ht
    subst ht
    cases k <;> simp [numericScore, derefAll, GoValue.kind, GoValue.typeOf, UintKind.toType,
      GoType.kind, GoValue.getUint, typeIsNumeric, bind, Except.bind, pure, Except.pure]
  | float k x =>
    simp only [GoValue.typeOf, Option.some.injEq] at ht
    subst ht
    cases k <;> simp [numericScore, derefAll, GoValue.kind, GoValue.typeOf, FloatKind.toType,
      GoType.kind, GoValue.getFloat, typeIsNumeric]
  | bool b =>
    simp only [GoValue.typeOf, Option.some.injEq] at ht
    subst ht
    simp [numericScore, derefAll, GoValue.kind, GoValue.typeOf, GoType.kind, typeIsNumeric]
  | str s =>
    simp only [GoValue.typeOf, Option.some.injEq] at ht
    subst ht
    simp [numericScore, derefAll, GoValue.kind, GoValue.typeOf, GoType.kind, typeIsNumeric]
  | slice e xs =>
    simp only [GoValue.typeOf, Option.some.injEq] at ht
    subst ht
    simp [numericScore, derefAll, GoValue.kind, GoValue.typeOf, GoType.kind, typeIsNumeric]
  | array e xs =>
    simp only [GoValue.typeOf, Option.some.injEq] at ht
    subst ht
    simp [numericScore, derefAll, GoValue.kind, GoValue.typeOf, GoType.kind, typeIsNumeric]
  | map k e es =>
    simp only [GoValue.typeOf, Option.some.injEq] at ht
    subst ht
    simp [numericScore, derefAll, GoValue.kind, GoValue.typeOf, GoType.kind, typeIsNumeric]
  | chan e q =>
    simp only [GoValue.typeOf, Option.some.injEq] at ht
    subst ht
    simp [numericScore, derefAll, GoValue.kind, GoValue.typeOf, GoType.kind, typeIsNumeric]
  | struct n fs =>
    simp only [GoValue.typeOf, Option.some.injEq] at ht
    subst ht
    simp [numericScore, derefAll, GoValue.kind, GoValue.typeOf, GoType.kind, typeIsNumeric]

theorem boolScore_panics_iff (v : GoValue) (t : GoType) (ht : v.typeOf = some t)
    (hp : t.kind ≠ .Ptr) :
    (∃ p, boolScore v = .error p) ↔ typeIsBool t = false := by
  cases v with
  | invalid => cases ht
  | ptr w =>
    exfalso
    simp only [GoValue.typeOf, Option.map_eq_some'] at ht
    obtain ⟨u, _, rfl⟩ := ht
    exact hp rfl
  | nilPtr e =>
    exfalso
    simp only [GoValue.typeOf, Option.some.injEq] at ht
    subst ht
    exact hp rfl
  | int k n =>
    simp only [GoValue.typeOf, Option.some.injEq] at ht
    subst ht
    cases k <;> simp [boolScore, derefAll, GoValue.kind, GoValue.typeOf, IntKind.toType,
      GoType.kind, typeIsBool]
  | uint k n =>
    simp only [GoValue.typeOf, Option.some.injEq] at ht
    subst ht
    cases k <;> simp [boolScore, derefAll, GoValue.kind, GoValue.typeOf, UintKind.toType,
      GoType.kind, typeIsBool]
  | float k x =>
    simp only [GoValue.typeOf, Option.some.injEq] at ht
    subst ht
    cases k <;> simp [boolScore, derefAll, GoValue.kind, GoValue.typeOf, FloatKind.toType,
      GoType.kind, typeIsBool]
  | bool b =>
    simp only [GoValue.typeOf, Option.some.injEq] at ht
    subst ht
    simp [boolScore, derefAll, GoValue.kind, GoValue.typeOf, GoType.kind, typeIsBool,
      GoValue.getBool, bind, Except.bind, pure, Except.pure]
  | str s =>
    simp only [GoValue.typeOf, Option.some.injEq] at ht
    subst ht
    simp [boolScore, derefAll, GoValue.kind, GoValue.typeOf, GoType.kind, typeIsBool]
  | slice e xs =>
    simp only [GoValue.typeOf, Option.some.injEq] at ht
    subst ht
    simp [boolScore, derefAll, GoValue.kind, GoValue.typeOf, GoType.kind, typeIsBool]
  | array e xs =>
    simp only [GoValue.typeOf, Option.some.injEq] at ht
    subst ht
    simp [boolScore, derefAll, GoValue.kind, GoValue.typeOf, GoType.kind, typeIsBool]
  | map k e es =>
    simp only [GoValue.typeOf, Option.some.injEq] at ht
    subst ht
    simp [boolScore, derefAll, GoValue.kind, GoValue.typeOf, GoType.kind, typeIsBool]
  | chan e q =>
    simp only [GoValue.typeOf, Option.some.injEq] at ht
    subst ht
    simp [boolScore, derefAll, GoValue.kind, GoValue.typeOf, GoType.kind, typeIsBool]
  | struct n fs =>
    simp only [GoValue.typeOf, Option.some.injEq] at ht
    subst ht
    simp [boolScore, derefAll, GoValue.kind, GoValue.typeOf, GoType.kind, typeIsBool]

theorem not_error_iff_ok {α : Type} (r : Except Panic α) :
    (¬ ∃ p, r = .error p) ↔ ∃ x, r = .ok x := by
  cases r with
  | error p => simp
  | ok x => simp

/-- C12: the scoring functions fail exactly on incompatible types: for a
value `v` that is no pointer, of type `t`, `numericScore` panics if and only
if `typeIsNumeric t` is false, and `boolScore` panics if and only if
`typeIsBool t` is false; so neither panics on a value of a compatible type,
nor on a chain of non-nil pointers to one. -/
theorem scores_panic_iff_incompatible (v : GoValue) (t : GoType) (ht : v.typeOf = some t)
    (hp : t.kind ≠ .Ptr) :
    ((∃ p, numericScore v = .error p) ↔ typeIsNumeric t = false) ∧
    ((∃ p, boolScore v = .error p) ↔ typeIsBool t = false) ∧
    (∀ n, typeIsNumeric t = true → ∃ x, numericScore (ptrChain n v) = .ok x) ∧
    (∀ n, typeIsBool t = true → ∃ x, boolScore (ptrChain n v) = .ok x) := by
  have h1 := numericScore_panics_iff v t ht hp
  have h2 := boolScore_panics_iff v t ht hp
  refine ⟨h1, h2, ?_, ?_⟩
  · intro n hnum
    have e : numericScore (ptrChain n v) = numericScore v := by
      unfold numericScore
      simp only [derefAll_ptrChain]
    rw [e]
    apply (not_error_iff_ok _).mp
    intro hex
    rw [h1.mp hex] at hnum
    cases hnum
  · intro n hbool
    have e : boolScore (ptrChain n v) = boolScore v := by
      unfold boolScore
      simp only [derefAll_ptrChain]
    rw [e]
    apply (not_error_iff_ok _).mp
    intro hex
    rw [h2.mp hex] at hbool
    cases hbool

/-- An `int` is numeric and no boolean: `numericScore` returns, `boolScore`
panics. -/
theorem scores_panic_iff_incompatible_witness :
    ((∃ p, numericScore (.int .Int 42) = .error p) ↔ typeIsNumeric .Int = false) ∧
    ((∃ p, boolScore (.int .Int 42) = .error p) ↔ typeIsBool .Int = false) ∧
    (∀ n, typeIsNumeric .Int = true → ∃ x, numericScore (ptrChain n (.int .Int 42)) = .ok x) ∧
    (∀ n, typeIsBool .Int = true → ∃ x, boolScore (ptrChain n (.int .Int 42)) = .ok x) :=
  scores_panic_iff_incompatible (.int .Int 42) .Int rfl (by decide)

/-- C13: `typeIsPrimative` holds if and only if exactly one of `typeIsString`,
`typeIsNumeric` and `typeIsBool` holds; no two of the three hold together, and
none of the predicates panics. -/
theorem typeIsPrimative_iff_exactly_one (t : GoType) :
    ∃ s p, typeIsString t = .ok s ∧ typeIsPrimative t = .ok p ∧
      (p = true ↔
        ((s = true ∧ typeIsNumeric t = false ∧ typeIsBool t = false) ∨
         (s = false ∧ typeIsNumeric t = true ∧ typeIsBool t = false) ∨
         (s = false ∧ typeIsNumeric t = false ∧ typeIsBool t = true))) ∧
      ¬ (s = true ∧ typeIsNumeric t = true) ∧
      ¬ (s = true ∧ typeIsBool t = true) ∧
      ¬ (typeIsNumeric t = true ∧ typeIsBool t = true) := by
  cases t with
  | Slice e =>
    refine ⟨e.kind == .Uint8, e.kind == .Uint8, ?_, ?_, ?_⟩
    · simp [typeIsString, GoType.kind, GoType.elem, bind, Except.bind, pure, Except.pure]
    · have hs : typeIsString (.Slice e) = .ok (e.kind == .Uint8) := by
        simp [typeIsString, GoType.kind, GoType.elem, bind, Except.bind, pure, Except.pure]
      have hn : typeIsNumeric (.Slice e) = false := rfl
      have hb : typeIsBool (.Slice e) = false := rfl
      simp only [typeIsPrimative, hs, hn, hb, bind, Except.bind, pure, Except.pure]
      cases (e.kind == Kind.Uint8) <;> rfl
    · simp [typeIsNumeric, typeIsBool, GoType.kind]
  | Array n e =>
    refine ⟨e.kind == .Uint8, e.kind == .Uint8, ?_, ?_, ?_⟩
    · simp [typeIsString, GoType.kind, GoType.elem, bind, Except.bind, pure, Except.pure]
    · have hs : typeIsString (.Array n e) = .ok (e.kind == .Uint8) := by
        simp [typeIsString, GoType.kind, GoType.elem, bind, Except.bind, pure, Except.pure]
      have hn : typeIsNumeric (.Array n e) = false := rfl
      have hb : typeIsBool (.Array n e) = false := rfl
      simp only [typeIsPrimative, hs, hn, hb, bind, Except.bind, pure, Except.pure]
      cases (e.kind == Kind.Uint8) <;> rfl
    · simp [typeIsNumeric, typeIsBool, GoType.kind]
  | String => exact ⟨true, true, rfl, rfl, by decide⟩
  | Bool => exact ⟨false, true, rfl, rfl, by decide⟩
  | Int => exact ⟨false, true, rfl, rfl, by decide⟩
  | Int8 => exact ⟨false, true, rfl, rfl, by decide⟩
  | Int16 => exact ⟨false, true, rfl, rfl, by decide⟩
  | Int32 => exact ⟨false, true, rfl, rfl, by decide⟩
  | Int64 => exact ⟨false, true, rfl, rfl, by decide⟩
  | Uint => exact ⟨false, true, rfl, rfl, by decide⟩
  | Uint8 => exact ⟨false, true, rfl, rfl, by decide⟩
  | Uint16 => exact ⟨false, true, rfl, rfl, by decide⟩
  | Uint32 => exact ⟨false, true, rfl, rfl, by decide⟩
  | Uint64 => exact ⟨false, true, rfl, rfl, by decide⟩
  | Float32 => exact ⟨false, true, rfl, rfl, by decide⟩
  | Float64 => exact ⟨false, true, rfl, rfl, by decide⟩
  | Uintptr => exact ⟨false, false, rfl, rfl, by decide⟩
  | Complex64 => exact ⟨false, false, rfl, rfl, by decide⟩
  | Complex128 => exact ⟨false, false, rfl, rfl, by decide⟩
  | UnsafePointer => exact ⟨false, false, rfl, rfl, by decide⟩
  | Chan e => exact ⟨false, false, rfl, rfl, by simp [typeIsNumeric, typeIsBool, GoType.kind]⟩
  | Func n => exact ⟨false, false, rfl, rfl, by simp [typeIsNumeric, typeIsBool, GoType.kind]⟩
  | Interface n =>
    exact ⟨false, false, rfl, rfl, by simp [typeIsNumeric, typeIsBool, GoType.kind]⟩
  | Map k e => exact ⟨false, false, rfl, rfl, by simp [typeIsNumeric, typeIsBool, GoType.kind]⟩
  | Ptr e => exact ⟨false, false, rfl, rfl, by simp [typeIsNumeric, typeIsBool, GoType.kind]⟩
  | Struct n => exact ⟨false, false, rfl, rfl, by simp [typeIsNumeric, typeIsBool, GoType.kind]⟩

/-- C14: `typeIsSliceOrArray` does not return true for every slice and array,
as its doc comment says it does: a slice of bytes and an array of bytes are a
slice and an array, and it returns false for them. -/
theorem typeIsSliceOrArray_bytes :
    typeIsSliceOrArray (.Slice .Uint8) = .ok false ∧
    typeIsSliceOrArray (.Array 4 .Uint8) = .ok false := by
  decide

/-- What `typeIsSliceOrArray` computes: it returns true if and only if the
type is a slice or an array whose element kind is not `uint8` (those count as
strings for `typeIsString`); it returns false for every other type and never
panics. -/
theorem typeIsSliceOrArray_iff (typ : GoType) :
    (typeIsSliceOrArray typ = .ok true ↔
      ∃ e, (typ = .Slice e ∨ ∃ n, typ = .Array n e) ∧ e.kind ≠ .Uint8) ∧
    (typeIsSliceOrArray typ = .ok true ∨ typeIsSliceOrArray typ = .ok false) ∧
    (typeIsSliceOrArray typ = .ok false →
      typeIsString typ = .ok true ∨ ¬ ∃ e, typ = .Slice e ∨ ∃ n, typ = .Array n e) := by
  cases typ with
  | Slice e =>
    have h1 : typeIsSliceOrArray (.Slice e) = .ok (e.kind != .Uint8) := by
      simp [typeIsSliceOrArray, GoType.kind, GoType.elem, bind, Except.bind, pure, Except.pure]
    have h2 : typeIsString (.Slice e) = .ok (e.kind == .Uint8) := by
      simp [typeIsString, GoType.kind, GoType.elem, bind, Except.bind, pure, Except.pure]
    rw [h1, h2]
    by_cases hk : e.kind = .Uint8 <;> simp [hk]
  | Array n e =>
    have h1 : typeIsSliceOrArray (.Array n e) = .ok (e.kind != .Uint8) := by
      simp [typeIsSliceOrArray, GoType.kind, GoType.elem, bind, Except.bind, pure, Except.pure]
    have h2 : typeIsString (.Array n e) = .ok (e.kind == .Uint8) := by
      simp [typeIsString, GoType.kind, GoType.elem, bind, Except.bind, pure, Except.pure]
    rw [h1, h2]
    by_cases hk : e.kind = .Uint8 <;> simp [hk]
  | _ => simp [typeIsSliceOrArray, GoType.kind, pure, Except.pure]

/-! ## Theorems: the slice helpers -/

theorem indexOfStringSliceFrom_spec (strings : List String) (s : String) :
    ∀ i : Nat,
      (s ∉ strings → indexOfStringSliceFrom i strings s = -1) ∧
      (s ∈ strings → ∃ j : Nat, indexOfStringSliceFrom i strings s = ((i + j : Nat) : Int) ∧
        j < strings.length ∧ strings.get? j = some s ∧
        ∀ k, k < j → strings.get? k ≠ some s) := by
  induction strings with
  | nil =>
    intro i
    exact ⟨fun _ => rfl, fun h => by cases h⟩
  | cons b rest ih =>
    intro i
    by_cases hb : b = s
    · subst hb
      refine ⟨fun h => absurd (List.mem_cons_self _ _) h, fun _ => ⟨0, ?_, ?_, rfl, ?_⟩⟩
      · simp [indexOfStringSliceFrom]
      · simp
      · intro k hk; omega
    · obtain ⟨ih1, ih2⟩ := ih (i + 1)
      constructor
      · intro h
        simp only [indexOfStringSliceFrom, hb, ↓reduceIte]
        exact ih1 (fun hm => h (List.mem_cons_of_mem _ hm))
      · intro h
        have hm : s ∈ rest := by
          rcases List.mem_cons.mp h with h | h
          · exact absurd h.symm hb
          · exact h
        obtain ⟨j, hj1, hj2, hj3, hj4⟩ := ih2 hm
        refine ⟨j + 1, ?_, ?_, ?_, ?_⟩
        · simp only [indexOfStringSliceFrom, hb, ↓reduceIte, hj1]
          congr 1
          omega
        · simp only [List.length_cons]; omega
        · simpa using hj3
        · intro k hk
          cases k with
          | zero =>
            simp only [List.get?_cons_zero, ne_eq, Option.some.injEq]
            exact hb
          | succ k =>
            simp only [List.get?_cons_succ]
            exact hj4 k (by omega)

theorem indexOfStringSlice_eq_neg_one_iff (strings : List String) (s : String) :
    indexOfStringSlice strings s = -1 ↔ s ∉ strings := by
  obtain ⟨h1, h2⟩ := indexOfStringSliceFrom_spec strings s 0
  constructor
  · intro h hm
    obtain ⟨j, hj, _⟩ := h2 hm
    unfold indexOfStringSlice at h
    rw [hj] at h
    omega
  · exact h1

/-- C19: `indexOfStringSlice` returns -1 if and only if no element of `strings`
equals `s`; otherwise it returns the smallest index at which `s` occurs; and
`stringSliceContains` is true if and only if some element equals `s`. -/
theorem indexOfStringSlice_spec (strings : List String) (s : String) :
    (indexOfStringSlice strings s = -1 ↔ s ∉ strings) ∧
    (s ∈ strings → ∃ i : Nat, indexOfStringSlice strings s = (i : Int) ∧
      i < strings.length ∧ strings.get? i = some s ∧
      ∀ k, k < i → strings.get? k ≠ some s) ∧
    (stringSliceContains strings s = true ↔ s ∈ strings) := by
  refine ⟨indexOfStringSlice_eq_neg_one_iff strings s, ?_, ?_⟩
  · intro hm
    obtain ⟨j, hj1, hj2, hj3, hj4⟩ := (indexOfStringSliceFrom_spec strings s 0).2 hm
    refine ⟨j, ?_, hj2, hj3, hj4⟩
    unfold indexOfStringSlice
    rw [hj1]
    congr 1
    omega
  · unfold stringSliceContains
    rw [bne_iff_ne, ne_eq, indexOfStringSlice_eq_neg_one_iff, not_not]

theorem missingExpected_spec (gots : List String) (es : List String) :
    (missingExpected gots es = none ↔ ∀ e ∈ es, e ∈ gots) ∧
    (∀ res, missingExpected gots es = some res → res.1 = false) := by
  induction es with
  | nil => simp [missingExpected]
  | cons e rest ih =>
    by_cases hm : e ∈ gots
    · have h1 : ¬ indexOfStringSlice gots e = -1 :=
        fun h => (indexOfStringSlice_eq_neg_one_iff gots e).mp h hm
      simp only [missingExpected, h1, ↓reduceIte, List.mem_cons, forall_eq_or_imp, hm, true_and]
      exact ih
    · have h1 : indexOfStringSlice gots e = -1 :=
        (indexOfStringSlice_eq_neg_one_iff gots e).mpr hm
      simp [missingExpected, h1, hm]

theorem foundExtra_spec (expecteds : List String) (gs : List String) :
    (foundExtra expecteds gs = none ↔ ∀ g ∈ gs, g ∈ expecteds) ∧
    (∀ res, foundExtra expecteds gs = some res → res.1 = false) := by
  induction gs with
  | nil => simp [foundExtra]
  | cons g rest ih =>
    by_cases hm : g ∈ expecteds
    · have h1 : ¬ indexOfStringSlice expecteds g = -1 :=
        fun h => (indexOfStringSlice_eq_neg_one_iff expecteds g).mp h hm
      simp only [foundExtra, h1, ↓reduceIte, List.mem_cons, forall_eq_or_imp, hm, true_and]
      exact ih
    · have h1 : indexOfStringSlice expecteds g = -1 :=
        (indexOfStringSlice_eq_neg_one_iff expecteds g).mpr hm
      simp [foundExtra, h1, hm]

theorem compareAsStringSet_true_iff (es gs : List String) :
    (compareAsStringSet es gs).1 = true ↔ (∀ e ∈ es, e ∈ gs) ∧ (∀ g ∈ gs, g ∈ es) := by
  obtain ⟨m1, m2⟩ := missingExpected_spec gs es
  obtain ⟨f1, f2⟩ := foundExtra_spec es gs
  unfold compareAsStringSet
  cases hm : missingExpected gs es with
  | some res =>
    have hres := m2 res hm
    have hne : ¬ ∀ e ∈ es, e ∈ gs := fun h => by
      rw [m1.mpr h] at hm
      cases hm
    simp [hres, hne]
  | none =>
    have hall := m1.mp hm
    cases hf : foundExtra es gs with
    | some res =>
      have hres := f2 res hf
      have hne : ¬ ∀ g ∈ gs, g ∈ es := fun h => by
        rw [f1.mpr h] at hf
        cases hf
      simp [hres, hne]
    | none =>
      have hall2 := f1.mp hf
      simp only [true_iff]
      exact ⟨hall, hall2⟩

theorem compareAsStringSet_true_ok (es gs : List String)
    (h : (compareAsStringSet es gs).1 = true) : compareAsStringSet es gs = (true, "ok") := by
  obtain ⟨_, m2⟩ := missingExpected_spec gs es
  obtain ⟨_, f2⟩ := foundExtra_spec es gs
  unfold compareAsStringSet at h ⊢
  cases hm : missingExpected gs es with
  | some res =>
    rw [hm] at h
    simp only at h
    rw [m2 res hm] at h
    cases h
  | none =>
    cases hf : foundExtra es gs with
    | some res =>
      rw [hm, hf] at h
      simp only at h
      rw [f2 res hf] at h
      cases h
    | none => rfl

/-- C16: `compareAsStringSet` returns true if and only if every element of
`expecteds` occurs in `gots` and every element of `gots` occurs in
`expecteds`; so the boolean depends only on the sets of elements (it is
unchanged by reordering and by duplicating elements) and is the same with the
two arguments swapped. -/
theorem compareAsStringSet_iff_same_elements (expecteds gots : List String) :
    ((compareAsStringSet expecteds gots).1 = true ↔
      (∀ e ∈ expecteds, e ∈ gots) ∧ (∀ g ∈ gots, g ∈ expecteds)) ∧
    (∀ es gs : List String, (∀ x, x ∈ es ↔ x ∈ expecteds) → (∀ x, x ∈ gs ↔ x ∈ gots) →
      (compareAsStringSet es gs).1 = (compareAsStringSet expecteds gots).1) ∧
    (∀ es gs : List String, es.Perm expecteds → gs.Perm gots →
      (compareAsStringSet es gs).1 = (compareAsStringSet expecteds gots).1) ∧
    (compareAsStringSet (expecteds ++ expecteds) (gots ++ gots)).1 =
      (compareAsStringSet expecteds gots).1 ∧
    (compareAsStringSet gots expecteds).1 = (compareAsStringSet expecteds gots).1 := by
  have key : ∀ es gs : List String, (∀ x, x ∈ es ↔ x ∈ expecteds) → (∀ x, x ∈ gs ↔ x ∈ gots) →
      (compareAsStringSet es gs).1 = (compareAsStringSet expecteds gots).1 := by
    intro es gs he hg
    rw [Bool.eq_iff_iff, compareAsStringSet_true_iff, compareAsStringSet_true_iff]
    constructor
    · rintro ⟨h1, h2⟩
      exact ⟨fun e h => (hg e).mp (h1 e ((he e).mpr h)), fun g h => (he g).mp (h2 g ((hg g).mpr h))⟩
    · rintro ⟨h1, h2⟩
      exact ⟨fun e h => (hg e).mpr (h1 e ((he e).mp h)), fun g h => (he g).mpr (h2 g ((hg g).mp h))⟩
  refine ⟨compareAsStringSet_true_iff expecteds gots, key, ?_, ?_, ?_⟩
  · intro es gs he hg
    exact key es gs (fun x => he.mem_iff) (fun x => hg.mem_iff)
  · exact key _ _ (fun x => by simp) (fun x => by simp)
  · rw [Bool.eq_iff_iff, compareAsStringSet_true_iff, compareAsStringSet_true_iff]
    exact ⟨fun h => ⟨h.2, h.1⟩, fun h => ⟨h.2, h.1⟩⟩

theorem stringSlice_index (xs : List String) (i : Nat) :
    (stringSlice xs).index i =
      match xs.get? i with
      | some x => .ok (.str x)
      | none => .error .outOfRange := by
  simp only [stringSlice, GoValue.index, List.get?_eq_getElem?, List.getElem?_map]
  cases xs[i]? <;> rfl

theorem stringSlice_len (xs : List String) : (stringSlice xs).len = .ok xs.length := by
  simp [stringSlice, GoValue.len]

theorem DeepEqual_str (s b : String) : DeepEqual (.str s) (.str b) = (s == b) := by
  simp [DeepEqual]

theorem indexOfSliceLoop_strings (s : String) (xs : List String) :
    ∀ (n i : Nat), i + n = xs.length →
      indexOfSliceLoop (.str s) (stringSlice xs) n i =
        .ok (indexOfStringSliceFrom i (xs.drop i) s) := by
  intro n
  induction n with
  | zero =>
    intro i hi
    have : xs.drop i = [] := List.drop_eq_nil_of_le (by omega)
    simp [indexOfSliceLoop, this, indexOfStringSliceFrom]
  | succ n ih =>
    intro i hi
    have hlt : i < xs.length := by omega
    have hget : xs.get? i = some (xs.get ⟨i, hlt⟩) := List.get?_eq_get hlt
    have hdrop : xs.drop i = xs.get ⟨i, hlt⟩ :: xs.drop (i + 1) := by
      exact List.drop_eq_getElem_cons hlt
    generalize xs.get ⟨i, hlt⟩ = x at hget hdrop
    simp only [indexOfSliceLoop, stringSlice_index, hget, bind, Except.bind, DeepEqual_str,
      pure, Except.pure, hdrop, indexOfStringSliceFrom]
    by_cases hb : x = s
    · simp [hb]
    · have hb2 : ¬ s = x := fun e => hb e.symm
      simp only [beq_iff_eq, hb2, ↓reduceIte, hb]
      exact ih (i + 1) (by omega)

theorem indexOfSlice_strings (s : String) (xs : List String) :
    indexOfSlice (.str s) (stringSlice xs) = .ok (indexOfStringSlice xs s) := by
  simp only [indexOfSlice, stringSlice_len, bind, Except.bind]
  rw [indexOfSliceLoop_strings s xs xs.length 0 (by omega)]
  rfl

theorem compareAsSetLoop_strings (formatV : GoValue → String) (msg : String)
    (xs ys : List String) :
    ∀ (n i : Nat), i + n = xs.length →
      ∃ r, compareAsSetLoop formatV msg (stringSlice xs) (stringSlice ys) n i = .ok r ∧
        (r = none ↔ ∀ x ∈ xs.drop i, x ∈ ys) ∧ (∀ res, r = some res → res.1 = false) := by
  intro n
  induction n with
  | zero =>
    intro i hi
    have : xs.drop i = [] := List.drop_eq_nil_of_le (by omega)
    exact ⟨none, rfl, by simp [this], fun res h => by cases h⟩
  | succ n ih =>
    intro i hi
    have hlt : i < xs.length := by omega
    have hget : xs.get? i = some (xs.get ⟨i, hlt⟩) := List.get?_eq_get hlt
    have hdrop : xs.drop i = xs.get ⟨i, hlt⟩ :: xs.drop (i + 1) := by
      exact List.drop_eq_getElem_cons hlt
    generalize xs.get ⟨i, hlt⟩ = x at hget hdrop
    simp only [compareAsSetLoop, stringSlice_index, hget, bind, Except.bind,
      indexOfSlice_strings, pure, Except.pure, hdrop]
    by_cases hm : x ∈ ys
    · have h1 : ¬ indexOfStringSlice ys x = -1 :=
        fun h => (indexOfStringSlice_eq_neg_one_iff ys _).mp h hm
      simp only [h1, ↓reduceIte, List.mem_cons, forall_eq_or_imp, hm, true_and]
      exact ih (i + 1) (by omega)
    · have h1 : indexOfStringSlice ys x = -1 :=
        (indexOfStringSlice_eq_neg_one_iff ys _).mpr hm
      refine ⟨some (false, msg ++ formatV (.str x)), by simp only [h1, ↓reduceIte], ?_, ?_⟩
      · simp [hm]
      · intro res h
        simp only [Option.some.injEq] at h
        rw [← h]

theorem compareAsSet_strings (formatV : GoValue → String) (xs ys : List String) :
    ∃ res, compareAsSet formatV (stringSlice xs) (stringSlice ys) = .ok res ∧
      res.1 = (compareAsStringSet xs ys).1 ∧ (res.1 = true → res.2 = "ok") := by
  obtain ⟨r1, hr1, hn1, hf1⟩ := compareAsSetLoop_strings formatV "Missing expected element: "
    xs ys xs.length 0 (by omega)
  obtain ⟨r2, hr2, hn2, hf2⟩ := compareAsSetLoop_strings formatV "Found unexpected element: "
    ys xs ys.length 0 (by omega)
  simp only [List.drop_zero] at hn1 hn2
  have hv : ∀ l : List String, (stringSlice l).isValid = true := fun l => rfl
  simp only [compareAsSet, hv, Bool.not_true, Bool.false_eq_true, ↓reduceIte, stringSlice_len,
    bind, Except.bind, hr1, hr2, pure, Except.pure]
  cases r1 with
  | some res =>
    refine ⟨res, rfl, ?_, ?_⟩
    · rw [hf1 res rfl]
      symm
      rw [Bool.eq_false_iff, ne_eq, compareAsStringSet_true_iff]
      intro h
      have := hn1.mpr h.1
      cases this
    · intro h
      rw [hf1 res rfl] at h
      cases h
  | none =>
    have h1 := hn1.mp rfl
    cases r2 with
    | some res =>
      refine ⟨res, rfl, ?_, ?_⟩
      · rw [hf2 res rfl]
        symm
        rw [Bool.eq_false_iff, ne_eq, compareAsStringSet_true_iff]
        intro h
        have := hn2.mpr h.2
        cases this
      · intro h
        rw [hf2 res rfl] at h
        cases h
    | none =>
      have h2 := hn2.mp rfl
      refine ⟨(true, "ok"), rfl, ?_, fun _ => rfl⟩
      symm
      exact (compareAsStringSet_true_iff xs ys).mpr ⟨h1, h2⟩

/-- C17: when the two slices hold the same values, `compareAsStringSet` and
`compareAsSet` return true together with the message "ok", which is not the
empty string of their doc comments. -/
theorem compareAsStringSet_message_is_ok :
    compareAsStringSet [] [] = (true, "ok") ∧
    compareAsStringSet ["a", "b"] ["b", "a"] = (true, "ok") ∧
    (∀ formatV, compareAsSet formatV (stringSlice ["a", "b"]) (stringSlice ["b", "a"])
      = .ok (true, "ok")) ∧
    (∀ es gs : List String, (compareAsStringSet es gs).1 = true →
      (compareAsStringSet es gs).2 = "ok" ∧ (compareAsStringSet es gs).2 ≠ "") := by
  refine ⟨by decide, by decide, fun _ => rfl, ?_⟩
  intro es gs h
  rw [compareAsStringSet_true_ok es gs h]
  decide

/-- C18: on string slices the helpers built on reflection agree with the ones
for strings: `indexOfSlice` returns the index that `indexOfStringSlice`
returns, `sliceContains` the boolean of `stringSliceContains`, and
`compareAsSet` the boolean of `compareAsStringSet`; none of them panics. -/
theorem reflection_helpers_agree_on_strings (formatV : GoValue → String) (xs ys : List String)
    (s : String) :
    indexOfSlice (.str s) (stringSlice xs) = .ok (indexOfStringSlice xs s) ∧
    sliceContains (.str s) (stringSlice xs) = .ok (stringSliceContains xs s) ∧
    ∃ res, compareAsSet formatV (stringSlice xs) (stringSlice ys) = .ok res ∧
      res.1 = (compareAsStringSet xs ys).1 := by
  refine ⟨indexOfSlice_strings s xs, ?_, ?_⟩
  · simp only [sliceContains, indexOfSlice_strings, bind, Except.bind, pure, Except.pure,
      stringSliceContains]
  · obtain ⟨res, h1, h2, _⟩ := compareAsSet_strings formatV xs ys
    exact ⟨res, h1, h2⟩

/-- C20: for an index `i` with `0 ≤ i < len(list)`, `removeFromStringSlice`
returns the elements before position `i` followed by the elements after it,
in their order, one element fewer than `list`; for `i < 0` and for
`i ≥ len(list)` it panics, whatever the capacity of the slice. -/
theorem removeFromStringSlice_spec (list spare : List String) (i : Int) :
    (0 ≤ i ∧ i < (list.length : Int) →
      removeFromStringSlice list spare i =
        .ok (list.take i.toNat ++ list.drop (i.toNat + 1)) ∧
      (list.take i.toNat ++ list.drop (i.toNat + 1)).length = list.length - 1) ∧
    (i < 0 ∨ (list.length : Int) ≤ i →
      ∃ p, removeFromStringSlice list spare i = .error p) := by
  constructor
  · rintro ⟨h0, h1⟩
    obtain ⟨n, rfl⟩ := Int.eq_ofNat_of_zero_le h0
    have hn : n < list.length := by omega
    have e1 : sliceTo list spare (n : Int) = .ok (list.take n) := by
      unfold sliceTo
      have hc : (0 : Int) ≤ (n : Int) ∧ (n : Int) ≤ ((list.length + spare.length : Nat) : Int) :=
        ⟨h0, by omega⟩
      rw [if_pos hc]
      simp only [Int.toNat_ofNat]
      rw [List.take_append_of_le_length (by omega)]
    have e2 : sliceFrom list ((n : Int) + 1) = .ok (list.drop (n + 1)) := by
      unfold sliceFrom
      have hc : (0 : Int) ≤ (n : Int) + 1 ∧ (n : Int) + 1 ≤ (list.length : Int) :=
        ⟨by omega, by omega⟩
      rw [if_pos hc]
      have : ((n : Int) + 1).toNat = n + 1 := by omega
      rw [this]
    constructor
    · simp only [removeFromStringSlice, e1, e2, bind, Except.bind, pure, Except.pure,
        Int.toNat_ofNat]
    · simp only [Int.toNat_ofNat, List.length_append, List.length_take, List.length_drop]
      omega
  · intro h
    unfold removeFromStringSlice
    by_cases hneg : i < 0
    · refine ⟨.outOfRange, ?_⟩
      have hc : ¬ (0 ≤ i ∧ i ≤ ((list.length + spare.length : Nat) : Int)) := by omega
      simp only [sliceTo, hc, ↓reduceIte, bind, Except.bind]
    · have hge : (list.length : Int) ≤ i := by omega
      have hc2 : ¬ (0 ≤ i + 1 ∧ i + 1 ≤ (list.length : Int)) := by omega
      cases h1 : sliceTo list spare i with
      | error p => exact ⟨p, by simp only [bind, Except.bind]⟩
      | ok front =>
        exact ⟨.outOfRange, by simp only [bind, Except.bind, sliceFrom, hc2, ↓reduceIte]⟩

/-! ## Theorems: the order of the scores -/

theorem roundToFloat64_eq (m : Nat) : roundToFloat64 m = roundAtShift (bitLength m - 53) m := rfl

theorem bitLengthAux_zero (fuel : Nat) : bitLengthAux fuel 0 = 0 := by
  cases fuel <;> simp [bitLengthAux]

theorem lt_pow_bitLengthAux (fuel : Nat) :
    ∀ m : Nat, m ≤ fuel → m < 2 ^ bitLengthAux fuel m := by
  induction fuel with
  | zero =>
    intro m h
    have : m = 0 := by omega
    subst this
    simp [bitLengthAux]
  | succ fuel ih =>
    intro m h
    unfold bitLengthAux
    split
    · rename_i h0
      subst h0
      simp
    · rename_i h0
      have h2 := ih (m / 2) (by omega)
      rw [pow_succ]
      omega

theorem pow_bitLengthAux_le (fuel : Nat) :
    ∀ m : Nat, m ≠ 0 → m ≤ fuel → 2 ^ (bitLengthAux fuel m - 1) ≤ m := by
  induction fuel with
  | zero => intro m h0 h; omega
  | succ fuel ih =>
    intro m h0 h
    unfold bitLengthAux
    simp only [h0, ↓reduceIte, Nat.add_sub_cancel]
    by_cases h2 : m / 2 = 0
    · rw [h2, bitLengthAux_zero]
      simp only [pow_zero]
      omega
    · have hle : m / 2 ≤ fuel := by omega
      have h3 := ih (m / 2) h2 hle
      have hpos : 1 ≤ bitLengthAux fuel (m / 2) := by
        cases fuel with
        | zero => omega
        | succ f => unfold bitLengthAux; simp [h2]
      have e : bitLengthAux fuel (m / 2) = (bitLengthAux fuel (m / 2) - 1) + 1 := by omega
      rw [e, pow_succ]
      omega

theorem lt_pow_bitLength (m : Nat) : m < 2 ^ bitLength m :=
  lt_pow_bitLengthAux m m (Nat.le_refl _)

theorem pow_bitLength_le (m : Nat) (h : m ≠ 0) : 2 ^ (bitLength m - 1) ≤ m :=
  pow_bitLengthAux_le m m h (Nat.le_refl _)

theorem bitLength_mono (m n : Nat) (h : m ≤ n) : bitLength m ≤ bitLength n :=
  bitLengthAux_le m m (bitLength n) (Nat.lt_of_le_of_lt h (lt_pow_bitLength n))

theorem roundAtShift_bounds (sh m : Nat) :
    (m / 2 ^ sh) * 2 ^ sh ≤ roundAtShift sh m ∧
    roundAtShift sh m ≤ (m / 2 ^ sh + 1) * 2 ^ sh := by
  have hq1 : (m / 2 ^ sh + 1) * 2 ^ sh = (m / 2 ^ sh) * 2 ^ sh + 2 ^ sh := Nat.succ_mul _ _
  unfold roundAtShift
  simp only
  split_ifs <;> omega

theorem roundAtShift_mono (sh m n : Nat) (h : m ≤ n) :
    roundAtShift sh m ≤ roundAtShift sh n := by
  have hP : 0 < 2 ^ sh := Nat.pow_pos (by decide)
  have hq : m / 2 ^ sh ≤ n / 2 ^ sh := Nat.div_le_div_right h
  rcases Nat.lt_or_eq_of_le hq with hlt | heq
  · have h1 := (roundAtShift_bounds sh m).2
    have h2 := (roundAtShift_bounds sh n).1
    have h3 : (m / 2 ^ sh + 1) * 2 ^ sh ≤ (n / 2 ^ sh) * 2 ^ sh :=
      Nat.mul_le_mul_right _ hlt
    omega
  · have hm := Nat.div_add_mod m (2 ^ sh)
    have hn := Nat.div_add_mod n (2 ^ sh)
    have hr : m % 2 ^ sh ≤ n % 2 ^ sh := by
      rw [heq] at hm
      omega
    have hq1 : (n / 2 ^ sh + 1) * 2 ^ sh = (n / 2 ^ sh) * 2 ^ sh + 2 ^ sh := Nat.succ_mul _ _
    unfold roundAtShift
    simp only [heq]
    split_ifs <;> omega

theorem roundToFloat64_le_pow (m : Nat) : roundToFloat64 m ≤ 2 ^ bitLength m := by
  rw [roundToFloat64_eq]
  by_cases hL : bitLength m ≤ 53
  · have hs : bitLength m - 53 = 0 := by omega
    have h1 := (roundAtShift_bounds (bitLength m - 53) m).2
    have hlt := lt_pow_bitLength m
    rw [hs] at h1 ⊢
    simp only [pow_zero, Nat.div_one, Nat.mul_one] at h1
    have : roundAtShift 0 m = m := by
      simp [roundAtShift, Nat.mod_one]
    omega
  · have hs : bitLength m = (bitLength m - 53) + 53 := by omega
    have h1 := (roundAtShift_bounds (bitLength m - 53) m).2
    have hlt := lt_pow_bitLength m
    have hq : m / 2 ^ (bitLength m - 53) < 2 ^ 53 := by
      rw [Nat.div_lt_iff_lt_mul (Nat.pow_pos (by decide))]
      rw [← pow_add, Nat.add_comm, ← hs]
      exact hlt
    have h2 : (m / 2 ^ (bitLength m - 53) + 1) * 2 ^ (bitLength m - 53) ≤
        2 ^ 53 * 2 ^ (bitLength m - 53) := Nat.mul_le_mul_right _ hq
    have h3 : 2 ^ 53 * 2 ^ (bitLength m - 53) = 2 ^ bitLength m := by
      rw [← pow_add, Nat.add_comm, ← hs]
    omega

theorem pow_le_roundToFloat64 (m : Nat) (h : m ≠ 0) :
    2 ^ (bitLength m - 1) ≤ roundToFloat64 m := by
  rw [roundToFloat64_eq]
  have hge := pow_bitLength_le m h
  by_cases hL : bitLength m ≤ 53
  · have hs : bitLength m - 53 = 0 := by omega
    rw [hs]
    have : roundAtShift 0 m = m := by
      simp [roundAtShift, Nat.mod_one]
    omega
  · have hs : bitLength m - 1 = 52 + (bitLength m - 53) := by omega
    have h1 := (roundAtShift_bounds (bitLength m - 53) m).1
    have hq : 2 ^ 52 ≤ m / 2 ^ (bitLength m - 53) := by
      rw [Nat.le_div_iff_mul_le (Nat.pow_pos (by decide)), ← pow_add, ← hs]
      exact hge
    have h2 : 2 ^ 52 * 2 ^ (bitLength m - 53) ≤
        (m / 2 ^ (bitLength m - 53)) * 2 ^ (bitLength m - 53) := Nat.mul_le_mul_right _ hq
    have h3 : 2 ^ 52 * 2 ^ (bitLength m - 53) = 2 ^ (bitLength m - 1) := by
      rw [← pow_add, ← hs]
    omega

theorem roundToFloat64_mono (m n : Nat) (h : m ≤ n) : roundToFloat64 m ≤ roundToFloat64 n := by
  have hb := bitLength_mono m n h
  rcases Nat.lt_or_eq_of_le hb with hlt | heq
  · have hn0 : n ≠ 0 := by
      intro h0
      subst h0
      have : bitLength 0 = 0 := rfl
      omega
    have h1 := roundToFloat64_le_pow m
    have h2 := pow_le_roundToFloat64 n hn0
    have h3 : 2 ^ bitLength m ≤ 2 ^ (bitLength n - 1) :=
      Nat.pow_le_pow_right (by decide) (by omega)
    omega
  · rw [roundToFloat64_eq, roundToFloat64_eq, heq]
    exact roundAtShift_mono _ m n h

theorem float64OfInt_mono (a b : Int) (h : a ≤ b) :
    (float64OfInt a).val ≤ (float64OfInt b).val := by
  unfold float64OfInt
  by_cases ha : a < 0
  · by_cases hb : b < 0
    · simp only [ha, hb, ↓reduceIte, neg_le_neg_iff, Nat.cast_le]
      exact roundToFloat64_mono _ _ (by omega)
    · simp only [ha, hb, ↓reduceIte]
      have h1 : (0 : ℚ) ≤ (roundToFloat64 a.natAbs : ℚ) := Nat.cast_nonneg _
      have h2 : (0 : ℚ) ≤ (roundToFloat64 b.natAbs : ℚ) := Nat.cast_nonneg _
      linarith
  · have hb : ¬ b < 0 := by omega
    simp only [ha, hb, ↓reduceIte, Nat.cast_le]
    exact roundToFloat64_mono _ _ (by omega)

theorem float64OfUint_eq (n : Nat) : float64OfUint n = float64OfInt (n : Int) := by
  unfold float64OfUint float64OfInt
  have : ¬ ((n : Int) < 0) := by omega
  simp [this]

theorem numericScore_of_intValue (a : GoValue) (x : Int) (ha : a.intValue = some x) :
    (a.kind ≠ .Uintptr → numericScore a = .ok (float64OfInt x)) ∧
    (∀ p, numericScore a = .ok p → p = float64OfInt x) := by
  cases a with
  | int k n =>
    simp only [GoValue.intValue, Option.some.injEq] at ha
    subst ha
    have h : numericScore (.int k n) = .ok (float64OfInt n) := by cases k <;> rfl
    exact ⟨fun _ => h, fun p hp => by rw [h] at hp; cases hp; rfl⟩
  | uint k n =>
    simp only [GoValue.intValue, Option.some.injEq] at ha
    subst ha
    cases k with
    | Uintptr =>
      refine ⟨fun h => absurd rfl h, fun p hp => ?_⟩
      have : numericScore (.uint .Uintptr n) = .error .numericScoreNonNumeric := rfl
      rw [this] at hp
      cases hp
    | Uint =>
      have h : numericScore (.uint .Uint n) = .ok (float64OfInt (n : Int)) := by
        rw [← float64OfUint_eq]; rfl
      exact ⟨fun _ => h, fun p hp => by rw [h] at hp; cases hp; rfl⟩
    | Uint8 =>
      have h : numericScore (.uint .Uint8 n) = .ok (float64OfInt (n : Int)) := by
        rw [← float64OfUint_eq]; rfl
      exact ⟨fun _ => h, fun p hp => by rw [h] at hp; cases hp; rfl⟩
    | Uint16 =>
      have h : numericScore (.uint .Uint16 n) = .ok (float64OfInt (n : Int)) := by
        rw [← float64OfUint_eq]; rfl
      exact ⟨fun _ => h, fun p hp => by rw [h] at hp; cases hp; rfl⟩
    | Uint32 =>
      have h : numericScore (.uint .Uint32 n) = .ok (float64OfInt (n : Int)) := by
        rw [← float64OfUint_eq]; rfl
      exact ⟨fun _ => h, fun p hp => by rw [h] at hp; cases hp; rfl⟩
    | Uint64 =>
      have h : numericScore (.uint .Uint64 n) = .ok (float64OfInt (n : Int)) := by
        rw [← float64OfUint_eq]; rfl
      exact ⟨fun _ => h, fun p hp => by rw [h] at hp; cases hp; rfl⟩
  | invalid => cases ha
  | bool b => cases ha
  | float k x => cases ha
  | str s => cases ha
  | nilPtr e => cases ha
  | ptr t => cases ha
  | slice e xs => cases ha
  | array e xs => cases ha
  | map k e es => cases ha
  | chan e q => cases ha
  | struct n fs => cases ha

/-- C15: `numericScore` preserves the order of integers: for two values of
integer kinds (signed or unsigned, of any width) holding `x ≤ y`, the score of
the first is at most the score of the second.  Both scores exist unless a
value is a `uintptr`, on which `numericScore` panics. -/
theorem numericScore_monotone (a b : GoValue) (x y : Int) (ha : a.intValue = some x)
    (hb : b.intValue = some y) (hxy : x ≤ y) :
    (∀ p q, numericScore a = .ok p → numericScore b = .ok q → p.val ≤ q.val) ∧
    (a.kind ≠ .Uintptr → b.kind ≠ .Uintptr →
      ∃ p q, numericScore a = .ok p ∧ numericScore b = .ok q ∧ p.val ≤ q.val) := by
  obtain ⟨a1, a2⟩ := numericScore_of_intValue a x ha
  obtain ⟨b1, b2⟩ := numericScore_of_intValue b y hb
  constructor
  · intro p q hp hq
    rw [a2 p hp, b2 q hq]
    exact float64OfInt_mono x y hxy
  · intro hka hkb
    exact ⟨_, _, a1 hka, b1 hkb, float64OfInt_mono x y hxy⟩

/-- The `int64` values 2^53 and 2^53 + 1 are in order, and so are their
scores (which are equal); so are the scores of an `int8` and a `uint64`. -/
theorem numericScore_monotone_witness :
    ((∀ p q, numericScore (.int .Int64 9007199254740992) = .ok p →
        numericScore (.int .Int64 9007199254740993) = .ok q → p.val ≤ q.val) ∧
      ((GoValue.int .Int64 9007199254740992).kind ≠ .Uintptr →
        (GoValue.int .Int64 9007199254740993).kind ≠ .Uintptr →
        ∃ p q, numericScore (.int .Int64 9007199254740992) = .ok p ∧
          numericScore (.int .Int64 9007199254740993) = .ok q ∧ p.val ≤ q.val)) ∧
    ((∀ p q, numericScore (.int .Int8 (-3)) = .ok p →
        numericScore (.uint .Uint64 7) = .ok q → p.val ≤ q.val) ∧
      ((GoValue.int .Int8 (-3)).kind ≠ .Uintptr → (GoValue.uint .Uint64 7).kind ≠ .Uintptr →
        ∃ p q, numericScore (.int .Int8 (-3)) = .ok p ∧
          numericScore (.uint .Uint64 7) = .ok q ∧ p.val ≤ q.val)) :=
  ⟨numericScore_monotone (.int .Int64 9007199254740992) (.int .Int64 9007199254740993)
      9007199254740992 9007199254740993 rfl rfl (by decide),
   numericScore_monotone (.int .Int8 (-3)) (.uint .Uint64 7) (-3) 7 rfl rfl (by decide)⟩

end Zoom
